import Mathlib

/-!
RepoGo: file collection and budgeted rendering.

A shallow embedding of the collection pipeline of RepoGo
(`internal/scanner`, `internal/analyzer`, `cmd/repogo/main.go`) and the
properties of it that the specification states.

Conventions of the embedding.

* A Go `string` or `[]byte` is the list of its bytes (`Str`), each a natural
  number below 256.  String comparison, `len`, slicing and the byte tests of
  the source are the corresponding list operations.
* The operating system is Unix: `os.PathSeparator` is `/`, there are no volume
  names and `filepath.ToSlash` is the identity.
* The `int` counters of Go (token, line and file counts) are natural numbers: they
  start at 0, only grow, and are bounded by the number of bytes the process has
  read, far below `2^63`.  Flag values that may be negative are integers.
* What the operating system answers (`os.Stat`, `os.Open`, `Read`, directory
  listings) is data handed to the functions.
-/

namespace RepoGo

/-! ## Strings -/

/-- A Go string: the list of its bytes. -/
abbrev Str := List Nat

/-- The bytes of an ASCII literal. -/
def ascii (s : String) : Str := s.toList.map Char.toNat

/-- The `<` of Go on strings: byte-wise lexicographic comparison, a proper prefix
being smaller. -/
def strLess : Str → Str → Bool
  | _, [] => false
  | [], _ :: _ => true
  | a :: as, b :: bs => if a < b then true else if b < a then false else strLess as bs

/-- The Go function `strings.Split(s, sep)` for a one-byte separator: the fields
between the separators, `[""]` for the empty string. -/
def splitOn (sep : Nat) : Str → List Str
  | [] => [[]]
  | c :: cs =>
    if c = sep then [] :: splitOn sep cs
    else
      match splitOn sep cs with
      | [] => [[c]]
      | h :: t => (c :: h) :: t

/-- The Go function `strings.Join(elems, "/")`. -/
def joinSlash : List Str → Str
  | [] => []
  | [e] => e
  | e :: es => e ++ 47 :: joinSlash es

/-! ## `path/filepath` and `path` on Unix -/

/-- The element loop of `filepath.Clean`, on the elements between separators:
empty and `.` elements are dropped, a `..` element removes the element before
it when there is one that is not itself `..`, is dropped at the top of a rooted
path and is kept otherwise.  `out` holds the elements written so far, last
first. -/
def cleanElems (rooted : Bool) : List Str → List Str → List Str
  | [], out => out
  | e :: es, out =>
    if e = [] ∨ e = [46] then cleanElems rooted es out
    else if e = [46, 46] then
      match out with
      | top :: below =>
        if top = [46, 46] then cleanElems rooted es (e :: out)
        else cleanElems rooted es below
      | [] => if rooted then cleanElems rooted es [] else cleanElems rooted es [e]
    else cleanElems rooted es (e :: out)

/-- The Go function `filepath.Clean`: the shortest path equivalent to `p` by purely lexical
processing.  The empty path becomes `.`; a rooted path keeps its leading
separator. -/
def Clean (p : Str) : Str :=
  match p with
  | [] => [46]
  | c :: _ =>
    let rooted : Bool := c = 47
    let body := joinSlash (cleanElems rooted (splitOn 47 p) []).reverse
    if rooted then 47 :: body
    else if body = [] then [46] else body

/-- The Go function `filepath.Join`: the elements from the first non-empty one on, joined
by separators and cleaned; the empty string when every element is empty. -/
def Join : List Str → Str
  | [] => []
  | e :: es => if e = [] then Join es else Clean (joinSlash (e :: es))

/-- The prefix of `p` up to and including its last separator (empty when `p` has
no separator). -/
def uptoLastSlash : Str → Str
  | [] => []
  | c :: cs =>
    if 47 ∈ cs then c :: uptoLastSlash cs
    else if c = 47 then [47] else []

/-- The Go function `filepath.Dir`: all but the last element of the path, cleaned. -/
def Dir (p : Str) : Str := Clean (uptoLastSlash p)

/-- The Go function `filepath.IsAbs` on Unix. -/
def IsAbs (p : Str) : Bool := p.head? = some 47

/-- The Go function `filepath.Abs` with the working directory `cwd`. -/
def Abs (cwd p : Str) : Str := if IsAbs p then Clean p else Join [cwd, p]

/-- The Go function `filepath.ToSlash`: the identity where the separator is `/`. -/
def ToSlash (p : Str) : Str := p

/-- The bytes after the last `/` of `p` (all of `p` when it has none). -/
def afterLastSlash : Str → Str
  | [] => []
  | c :: cs => if 47 ∈ cs then afterLastSlash cs else if c = 47 then cs else c :: cs

/-- Removes the trailing `/` bytes of a path. -/
def stripTrailingSlashes (p : Str) : Str := (p.reverse.dropWhile (· = 47)).reverse

/-- The Go function `path.Base`: the last element of the path, `.` for the empty path and
`/` for a path of slashes only. -/
def Base (p : Str) : Str :=
  if p = [] then [46]
  else
    let q := afterLastSlash (stripTrailingSlashes p)
    if q = [] then [47] else q

/-- The Go function `path.Ext`: the suffix of the last element from its last dot on. -/
def Ext (p : Str) : Str :=
  let last := afterLastSlash p
  if 46 ∈ last then 46 :: (last.reverse.takeWhile (· ≠ 46)).reverse else []

/-- The element scan of `filepath.Rel`: `b` and `t` are what is left of the
cleaned base and target.  While both are non-empty their next elements are
compared; equal elements are consumed with the separator after them.  Returns
the element of the base at which the scan stopped (empty when it ran to the
end) and what is left of the base and of the target.  The first argument bounds
the number of steps; a step consumes at least one byte of the base, so the
bound `base.length + 1` used by `Rel` is not reached. -/
def relScan : Nat → Str → Str → Str × Str × Str
  | 0, b, t => ([], b, t)
  | fuel + 1, b, t =>
    if b = [] ∨ t = [] then ([], b, t)
    else
      let be := b.takeWhile (· ≠ 47)
      let te := t.takeWhile (· ≠ 47)
      if te ≠ be then (be, b, t)
      else relScan fuel ((b.drop be.length).drop 1) ((t.drop te.length).drop 1)

/-- The `..` steps `filepath.Rel` writes for the elements left of the base. -/
def upSteps : Nat → Str
  | 0 => [46, 46]
  | n + 1 => upSteps n ++ [47, 46, 46]

/-- The Go function `filepath.Rel(basepath, targpath)`; `none` is the error result. -/
def Rel (basepath targpath : Str) : Option Str :=
  let base0 := Clean basepath
  let targ := Clean targpath
  if targ = base0 then some [46]
  else
    let base := if base0 = [46] then [] else base0
    if (base.head? = some 47) ≠ (targ.head? = some 47) then none
    else
      let (stop, b, t) := relScan (base.length + 1) base targ
      if stop = [46, 46] then none
      else if b ≠ [] then
        some (upSteps (b.count 47) ++ (if t ≠ [] then 47 :: t else []))
      else some t

/-- The value of `rel` after `rel, _ := filepath.Rel(root, p)`: the empty string
when `Rel` fails. -/
def relOf (root p : Str) : Str := (Rel root p).getD []

/-! ## `path.Match` -/

/-- The Go function `utf8.DecodeRuneInString`: the first rune of `s` and its width in
bytes; `(0xFFFD, 1)` for an invalid encoding and `(0xFFFD, 0)` for the empty
string. -/
def decodeRune : Str → Nat × Nat
  | [] => (0xFFFD, 0)
  | s0 :: rest =>
    if s0 < 0x80 then (s0, 1)
    else if s0 < 0xC2 ∨ 0xF4 < s0 then (0xFFFD, 1)
    else
      let lo := if s0 = 0xE0 then 0xA0 else if s0 = 0xF0 then 0x90 else 0x80
      let hi := if s0 = 0xED then 0x9F else if s0 = 0xF4 then 0x8F else 0xBF
      let cont (b : Nat) : Bool := 0x80 ≤ b ∧ b ≤ 0xBF
      match rest with
      | [] => (0xFFFD, 1)
      | s1 :: r1 =>
        if s0 < 0xE0 then
          if s1 < lo ∨ hi < s1 then (0xFFFD, 1) else ((s0 % 32) * 64 + s1 % 64, 2)
        else
          match r1 with
          | [] => (0xFFFD, 1)
          | s2 :: r2 =>
            if s0 < 0xF0 then
              if s1 < lo ∨ hi < s1 then (0xFFFD, 1)
              else if !cont s2 then (0xFFFD, 1)
              else ((s0 % 16) * 4096 + (s1 % 64) * 64 + s2 % 64, 3)
            else
              match r2 with
              | [] => (0xFFFD, 1)
              | s3 :: _ =>
                if s1 < lo ∨ hi < s1 then (0xFFFD, 1)
                else if !cont s2 then (0xFFFD, 1)
                else if !cont s3 then (0xFFFD, 1)
                else ((s0 % 8) * 262144 + (s1 % 64) * 4096 + (s2 % 64) * 64 + s3 % 64, 4)

/-- The chunk splitter of `scanChunk` in `path.Match`, after the leading stars:
the pattern up to the first `*` outside a bracket expression, and the rest. -/
def scanSplit (inrange : Bool) : Str → Str × Str
  | [] => ([], [])
  | [c] => if c = 42 ∧ !inrange then ([], [c]) else ([c], [])
  | c :: d :: rest =>
    if c = 92 then
      let (a, b) := scanSplit inrange rest
      (c :: d :: a, b)
    else if c = 91 then
      let (a, b) := scanSplit true (d :: rest)
      (c :: a, b)
    else if c = 93 then
      let (a, b) := scanSplit false (d :: rest)
      (c :: a, b)
    else if c = 42 ∧ !inrange then ([], c :: d :: rest)
    else
      let (a, b) := scanSplit inrange (d :: rest)
      (c :: a, b)

/-- The Go function `scanChunk`: whether the pattern starts with stars, the chunk after
them, and the rest of the pattern. -/
def scanChunk (pattern : Str) : Bool × Str × Str :=
  let p := pattern.dropWhile (· = 42)
  let (chunk, rest) := scanSplit false p
  (pattern.head? = some 42, chunk, rest)

/-- The Go function `getEsc`: the next, possibly escaped, rune of a bracket expression and
the chunk after it; `none` is `ErrBadPattern`. -/
def getEsc (chunk : Str) : Option (Nat × Str) :=
  match chunk with
  | [] => none
  | c :: cs =>
    if c = 45 ∨ c = 93 then none
    else
      let chunk1 := if c = 92 then cs else chunk
      if chunk1 = [] then none
      else if (decodeRune chunk1).1 = 0xFFFD ∧ (decodeRune chunk1).2 = 1 then none
      else if chunk1.drop (decodeRune chunk1).2 = [] then none
      else some ((decodeRune chunk1).1, chunk1.drop (decodeRune chunk1).2)

/-- The range loop of a bracket expression in `matchChunk`: reads ranges until
the closing `]`, recording whether the rune `r` lies in one of them.  `none` is
`ErrBadPattern`.  The first argument bounds the number of ranges; a range takes
at least one byte, so the bound `chunk.length + 1` is not reached. -/
def classRanges : Nat → Nat → Str → Nat → Bool → Option (Bool × Str)
  | 0, _, _, _, _ => none
  | fuel + 1, r, chunk, nrange, found =>
    if chunk.head? = some 93 ∧ 0 < nrange then some (found, chunk.drop 1)
    else
      match getEsc chunk with
      | none => none
      | some (lo, chunk1) =>
        let upper := if chunk1.head? = some 45 then getEsc (chunk1.drop 1) else some (lo, chunk1)
        match upper with
        | none => none
        | some (hi, chunk2) =>
          classRanges fuel r chunk2 (nrange + 1) (found || (decide (lo ≤ r) && decide (r ≤ hi)))

/-- The Go function `matchChunk`, as a loop over the chunk with the flag `failed`.
`none` is `ErrBadPattern`, `some none` is no match, `some (some rest)` is a match
leaving `rest` of the name.  The first argument bounds the number of steps; a
step takes at least one byte of the chunk, so the bound `chunk.length + 1` is
not reached. -/
def matchChunkLoop : Nat → Str → Str → Bool → Option (Option Str)
  | 0, _, _, _ => none
  | _ + 1, [], s, failed => some (if failed then none else some s)
  | fuel + 1, c :: chunk, s, failed0 =>
    let failed := failed0 || s.isEmpty
    if c = 91 then
      let r := if failed then 0 else (decodeRune s).1
      let s1 := if failed then s else s.drop (decodeRune s).2
      let negated : Bool := chunk.head? = some 94
      let chunk1 := if negated then chunk.drop 1 else chunk
      match classRanges (chunk1.length + 1) r chunk1 0 false with
      | none => none
      | some (found, chunk2) => matchChunkLoop fuel chunk2 s1 (failed || (found == negated))
    else if c = 63 then
      if failed then matchChunkLoop fuel chunk s failed
      else matchChunkLoop fuel chunk (s.drop (decodeRune s).2) (s.head? = some 47)
    else if c = 92 then
      match chunk with
      | [] => none
      | e :: chunk1 =>
        if failed then matchChunkLoop fuel chunk1 s failed
        else matchChunkLoop fuel chunk1 (s.drop 1) (s.head? ≠ some e)
    else
      if failed then matchChunkLoop fuel chunk s failed
      else matchChunkLoop fuel chunk (s.drop 1) (s.head? ≠ some c)

/-- The Go function `matchChunk(chunk, s)`. -/
def matchChunk (chunk s : Str) : Option (Option Str) :=
  matchChunkLoop (chunk.length + 1) chunk s false

/-- The scan of `path.Match` after a star: tries the chunk at `name[i+1:]` for
every `i` before the first `/` of `name`.  `lastChunk` says whether the pattern
ends with this chunk, in which case the match must use up the name. -/
def starScan (chunk : Str) (lastChunk : Bool) : Str → Option (Option Str)
  | [] => some none
  | c :: rest =>
    if c = 47 then some none
    else
      match matchChunk chunk rest with
      | none => none
      | some (some t) =>
        if lastChunk ∧ t ≠ [] then starScan chunk lastChunk rest else some (some t)
      | some none => starScan chunk lastChunk rest

/-- The closing check of `path.Match`: the rest of the pattern must be well
formed.  `false` is `ErrBadPattern`. -/
def restWellFormed : Nat → Str → Bool
  | 0, _ => true
  | fuel + 1, pattern =>
    if pattern = [] then true
    else
      let (_, chunk, rest) := scanChunk pattern
      match matchChunk chunk [] with
      | none => false
      | some _ => restWellFormed fuel rest

/-- The `Pattern` loop of `path.Match`; `none` is `ErrBadPattern`.  The first
argument bounds the number of chunks; a chunk with its stars takes at least one
byte of the pattern, so the bound `pattern.length + 1` is not reached. -/
def matchLoop : Nat → Str → Str → Option Bool
  | 0, _, _ => none
  | fuel + 1, pattern, name =>
    if pattern = [] then some (name = [])
    else
      let (star, chunk, rest) := scanChunk pattern
      if star ∧ chunk = [] then some (47 ∉ name)
      else
        let giveUp : Option Bool := if restWellFormed (rest.length + 1) rest then some false else none
        match matchChunk chunk name with
        | none => none
        | some first =>
          let direct : Option Str :=
            match first with
            | some t => if t = [] ∨ rest ≠ [] then some t else none
            | none => none
          match direct with
          | some t => matchLoop fuel rest t
          | none =>
            if star then
              match starScan chunk (rest = []) name with
              | none => none
              | some (some t) => matchLoop fuel rest t
              | some none => giveUp
            else giveUp

/-- The Go function `path.Match(pattern, name)`: `some b` is `(b, nil)` and `none` is
`(false, ErrBadPattern)`. -/
def pathMatch (pattern name : Str) : Option Bool :=
  matchLoop (pattern.length + 1) pattern name

/-! ## `internal/scanner` -/

/-- The result `ok` of `ok, _ := path.Match(pat, name)`: `false` when the pattern
is malformed. -/
def matchOk (pat name : Str) : Bool := (pathMatch pat name).getD false

/-- The loop of `matchAny` over the patterns, `rel` being slash-normalised. -/
def matchAnyLoop (rel : Str) : List Str → Bool
  | [] => false
  | pat :: rest =>
    if matchOk pat rel then true
    else if matchOk pat (Base rel) then true
    else matchAnyLoop rel rest

/-- `matchAny(patterns, rel)`. -/
def matchAny (patterns : List Str) (rel : Str) : Bool :=
  if patterns.length = 0 then false
  else matchAnyLoop (ToSlash rel) patterns

/-- The closure `shouldKeep` of `CollectFiles`. -/
def shouldKeep (includes excludes : List Str) (rel : Str) : Bool :=
  if matchAny excludes rel then false
  else if includes.length = 0 then true
  else matchAny includes rel

/-- The variables `seen` (the keys of the map) and `files` of `CollectFiles`. -/
structure AddState where
  seen : List Str
  files : List Str
deriving DecidableEq, Repr

/-- Both empty, as before the first input. -/
def AddState.empty : AddState := ⟨[], []⟩

/-- The closure `add` of `CollectFiles`: appends a path not seen before. -/
def add (st : AddState) (p : Str) : AddState :=
  if p ∈ st.seen then st else { seen := p :: st.seen, files := st.files ++ [p] }

/-- The entries of a directory in the order `os.ReadDir` lists them, each a
directory with its own entries or anything else (`file`: a regular file, a
symbolic link, a device).  When `ReadDir` fails part-way the callback only
prints a message; the entries are those it returned. -/
inductive Listing where
  | nil : Listing
  | file (name : Str) (rest : Listing) : Listing
  | dir (name : Str) (children : Listing) (rest : Listing) : Listing
deriving DecidableEq, Repr

/-- The callback `CollectFiles` passes to `filepath.WalkDir`, for the entry at
`p`.  The second component says whether it returns `fs.SkipDir` (otherwise it
returns `nil`). -/
def walkFn (root : Str) (includes excludes : List Str) (st : AddState) (p : Str)
    (isDir : Bool) : AddState × Bool :=
  let rel := relOf root p
  if rel = [46] then (st, false)
  else if !shouldKeep includes excludes rel then (st, isDir)
  else (add st p, false)

/-- The loop of `filepath.WalkDir` over the entries of the directory `path`: each
entry is handed to the callback under the name `Join(path, name)`, and a
directory is descended into unless the callback returned `fs.SkipDir`. -/
def walkListing (root : Str) (includes excludes : List Str) (path : Str) :
    Listing → AddState → AddState
  | .nil, st => st
  | .file name rest, st =>
    walkListing root includes excludes path rest
      (walkFn root includes excludes st (Join [path, name]) false).1
  | .dir name children rest, st =>
    let r := walkFn root includes excludes st (Join [path, name]) true
    let st1 :=
      if r.2 then r.1
      else walkListing root includes excludes (Join [path, name]) children r.1
    walkListing root includes excludes path rest st1

/-- `filepath.WalkDir(ap, fn)` for a directory `ap` with the given entries: the
callback sees `ap` itself first. -/
def WalkDir (root : Str) (includes excludes : List Str) (ap : Str) (entries : Listing)
    (st : AddState) : AddState :=
  let r := walkFn root includes excludes st ap true
  if r.2 then r.1 else walkListing root includes excludes ap entries r.1

/-- One element of `inputs`, with what the operating system answers for it. -/
inductive Input where
  /-- `filepath.Abs` or `os.Stat` fails: the input is skipped. -/
  | unresolved
  /-- The input resolves to the absolute path `ap`, not a directory. -/
  | file (ap : Str)
  /-- The input resolves to the directory `ap` with the given entries. -/
  | dir (ap : Str) (entries : Listing)
deriving DecidableEq, Repr

/-- The body of the loop `for _, in := range inputs`. -/
def collectInput (root : Str) (includes excludes : List Str) (st : AddState) :
    Input → AddState
  | .unresolved => st
  | .file ap => if shouldKeep includes excludes (relOf root ap) then add st ap else st
  | .dir ap entries => WalkDir root includes excludes ap entries st

/-- Inserts a string into a sorted list, before the first element that is not
smaller. -/
def insertSorted (p : Str) : List Str → List Str
  | [] => [p]
  | q :: qs => if strLess q p then q :: insertSorted p qs else p :: q :: qs

/-- The Go function `sort.Strings`: the strings in increasing order. -/
def sortStrings : List Str → List Str
  | [] => []
  | p :: ps => insertSorted p (sortStrings ps)

/-- The file list `CollectFiles(root, inputs, includes, excludes)` returns (its
first result; the second is the tree built from this list). -/
def CollectFiles (root : Str) (inputs : List Input) (includes excludes : List Str) :
    List Str :=
  sortStrings (inputs.foldl (collectInput root includes excludes) AddState.empty).files

/-- The index loop of `commonBase`: the number of leading elements two lists
share. -/
def commonLen : List Str → List Str → Nat
  | a :: as, b :: bs => if a = b then commonLen as bs + 1 else 0
  | _, _ => 0

/-- `commonBase(a, b)`. -/
def commonBase (a b : Str) : Str :=
  let pa := splitOn 47 (Clean a)
  let pb := splitOn 47 (Clean b)
  Join (pa.take (commonLen pa pb))

/-- The first loop of `ResolveRoot`: the absolute path of the first input that is
a directory, or else the parent directories of all inputs. -/
def resolveScan (cwd : Str) (isDir : Str → Bool) : List Str → List Str → Str ⊕ List Str
  | [], dirs => .inr dirs
  | inp :: rest, dirs =>
    if isDir (Abs cwd inp) then .inl (Abs cwd inp)
    else resolveScan cwd isDir rest (dirs ++ [Dir (Abs cwd inp)])

/-- `ResolveRoot(inputs)` in the working directory `cwd`, where `isDir ap` says
whether `os.Stat(ap)` succeeds and reports a directory. -/
def ResolveRoot (cwd : Str) (isDir : Str → Bool) (inputs : List Str) : Str :=
  match resolveScan cwd isDir inputs [] with
  | .inl ap => ap
  | .inr [] => Abs cwd [46]
  | .inr (d :: ds) => ds.foldl commonBase d

/-! ## `internal/analyzer` -/

/-- `EstimateTokens`: the token estimate of a string, about four bytes a
token. -/
def EstimateTokens (s : Str) : Nat := (s.length + 3) / 4

/-- An opened regular file, positioned at offset 0: its bytes, and whether
reading it fails with an error other than end of file. -/
structure OpenFile where
  bytes : Str
  readFails : Bool
deriving DecidableEq, Repr

/-- What `n, err := f.Read(buf)` delivers for a buffer of `maxSize` bytes: the
bytes `buf[:n]`, and whether `err` is an error other than `io.EOF`.  A regular
file yields its first `min(size, maxSize)` bytes; a failing read yields none. -/
def readInto (f : OpenFile) (maxSize : Nat) : Str × Bool :=
  if f.readFails then ([], true) else (f.bytes.take maxSize, false)

/-- `ReadFileContent(f, maxSize)`: the data, whether it is binary, whether it
was truncated, and its line count.  (`make([]byte, maxSize)` needs
`maxSize ≥ 0`, so `maxSize` is a natural number.) -/
def ReadFileContent (f : OpenFile) (maxSize : Nat) : Str × Bool × Bool × Nat :=
  let (window, hardErr) := readInto f maxSize
  if hardErr then ([], false, false, 0)
  else
    let n := window.length
    let isBin := window.contains 0
    if 0 < maxSize ∧ maxSize < n then
      let data := window.take maxSize
      (data, isBin, true, data.count 10)
    else (window, isBin, false, window.count 10)

/-- `strings.ToLower` on the ASCII letters, which are all the extension table of
`GuessLanguage` can match. -/
def toLowerAscii (s : Str) : Str := s.map fun b => if 65 ≤ b ∧ b ≤ 90 then b + 32 else b

/-- The extension table of `GuessLanguage`. -/
def languageTable : List (String × String) :=
  [(".go", "go"), (".js", "javascript"), (".mjs", "javascript"), (".cjs", "javascript"),
   (".jsx", "javascript"), (".ts", "typescript"), (".tsx", "typescript"), (".json", "json"),
   (".md", "markdown"), (".py", "python"), (".rb", "ruby"), (".java", "java"), (".cs", "csharp"),
   (".c", "c"), (".h", "c"), (".cpp", "cpp"), (".cc", "cpp"), (".cxx", "cpp"), (".hpp", "cpp"),
   (".hh", "cpp"), (".sh", "bash"), (".bash", "bash"), (".zsh", "bash"), (".yml", "yaml"),
   (".yaml", "yaml"), (".sql", "sql"), (".html", "html"), (".htm", "html"), (".css", "css"),
   (".scss", "css")]

/-- `GuessLanguage`: the language label of a path by its extension, empty when
the extension is unknown. -/
def GuessLanguage (filePath : Str) : Str :=
  match languageTable.find? (fun e => ascii e.1 = toLowerAscii (Ext filePath)) with
  | some e => ascii e.2
  | none => []

/-! ## `internal/models` -/

/-- `models.FileEntry`. -/
structure FileEntry where
  Path : Str
  Size : Int
  IsBinary : Bool
  Truncated : Bool
  LanguageHint : Str
  Content : Str
  ReadErrorMessage : Str
deriving DecidableEq, Repr

/-- `models.Summary`. -/
structure Summary where
  TotalFiles : Nat
  TotalLines : Nat
  EstimatedTokens : Nat
  SkippedByLimit : Nat
  BinaryFilesCount : Nat
deriving DecidableEq, Repr

/-! ## The collection loop of `main` -/

/-- What the operating system answers for one path of the file list. -/
inductive OsFile where
  /-- `os.Stat` fails with the message `msg`. -/
  | statFails (msg : Str)
  /-- `os.Stat` reports a directory. -/
  | directory
  /-- `os.Stat` reports a file of `size` bytes and `os.Open` fails with `msg`. -/
  | openFails (size : Int) (msg : Str)
  /-- `os.Stat` reports a file of `size` bytes and `os.Open` yields `f`. -/
  | regular (size : Int) (f : OpenFile)
deriving DecidableEq, Repr

/-- The variables of the loop: `doc.Files` and the four counters. -/
structure LoopState where
  Files : List FileEntry
  totalTokens : Nat
  totalLines : Nat
  binaryCount : Nat
  skippedByToken : Nat
deriving DecidableEq, Repr

/-- The state before the first iteration. -/
def LoopState.init : LoopState := ⟨[], 0, 0, 0, 0⟩

/-- The message of a file omitted by the token budget,
`"omitted due to --max-tokens budget (would add ~%d tokens)"`. -/
def budgetMessage (addTokens : Nat) : Str :=
  ascii "omitted due to --max-tokens budget (would add ~" ++ ascii (toString addTokens)
    ++ ascii " tokens)"

/-- One iteration of the loop over `files` for the path `p` and what the system
answers for it.  The second component says whether the loop is left by
`break`. -/
def loopBody (rootAbs : Str) (maxFileSize : Nat) (maxTokens : Int) (st : LoopState)
    (p : Str) (os : OsFile) : LoopState × Bool :=
  let rel := relOf rootAbs p
  if rel = [46] then (st, false)
  else
    match os with
    | .statFails msg =>
      ({ st with Files := st.Files ++ [⟨ToSlash rel, 0, false, false, [], [], msg⟩] }, false)
    | .directory => (st, false)
    | .openFails size msg =>
      ({ st with Files := st.Files ++ [⟨ToSlash rel, size, false, false, [], [], msg⟩] }, false)
    | .regular size f =>
      let (content, isBinary, truncated, lines) := ReadFileContent f maxFileSize
      let entry : FileEntry :=
        if !isBinary then ⟨ToSlash rel, size, isBinary, truncated, GuessLanguage rel, content, []⟩
        else ⟨ToSlash rel, size, isBinary, truncated, [], [], []⟩
      let totalLines := if !isBinary then st.totalLines + lines else st.totalLines
      let binaryCount := if !isBinary then st.binaryCount else st.binaryCount + 1
      let addTokens := EstimateTokens entry.Content
      if 0 < maxTokens ∧ maxTokens < ((st.totalTokens + addTokens : Nat) : Int) then
        ({ Files := st.Files ++
              [{ entry with Content := [], Truncated := true,
                            ReadErrorMessage := budgetMessage addTokens }],
           totalTokens := st.totalTokens,
           totalLines := totalLines,
           binaryCount := binaryCount,
           skippedByToken := st.skippedByToken + 1 }, true)
      else
        ({ Files := st.Files ++ [entry],
           totalTokens := st.totalTokens + addTokens,
           totalLines := totalLines,
           binaryCount := binaryCount,
           skippedByToken := st.skippedByToken }, false)

/-- The loop `for _, p := range files`, from the state `st`. -/
def collectLoop (rootAbs : Str) (maxFileSize : Nat) (maxTokens : Int) :
    List (Str × OsFile) → LoopState → LoopState
  | [], st => st
  | (p, os) :: rest, st =>
    let r := loopBody rootAbs maxFileSize maxTokens st p os
    if r.2 then r.1 else collectLoop rootAbs maxFileSize maxTokens rest r.1

/-- The `models.Summary` assembled after the loop. -/
def summaryOf (st : LoopState) : Summary :=
  { TotalFiles := st.Files.length,
    TotalLines := st.totalLines,
    EstimatedTokens := st.totalTokens,
    SkippedByLimit := st.skippedByToken,
    BinaryFilesCount := st.binaryCount }

/-- The records and the summary `main` produces for a file list. -/
def collect (rootAbs : Str) (maxFileSize : Nat) (maxTokens : Int)
    (files : List (Str × OsFile)) : List FileEntry × Summary :=
  let st := collectLoop rootAbs maxFileSize maxTokens files LoopState.init
  (st.Files, summaryOf st)

/-! ## `buildTree` -/

/-- A `node` of `buildTree`: its flag `file` and its map `children`, held as the
list of its entries in increasing order of the keys, the order in which `walk`
visits them after `sort.Strings(keys)`.  (The field `name` repeats the key and
is not read.) -/
inductive TreeNode where
  | mk (file : Bool) (children : List (Str × TreeNode))

/-- The flag `file` of a node. -/
def TreeNode.file : TreeNode → Bool
  | .mk f _ => f

/-- The map `children` of a node. -/
def TreeNode.children : TreeNode → List (Str × TreeNode)
  | .mk _ ch => ch

/-- The map lookup `children[part]`; `none` is `nil`. -/
def getChild (part : Str) : List (Str × TreeNode) → Option TreeNode
  | [] => none
  | (k, n) :: rest => if k = part then some n else getChild part rest

/-- The map update `children[part] = n`. -/
def setChild (part : Str) (n : TreeNode) : List (Str × TreeNode) → List (Str × TreeNode)
  | [] => [(part, n)]
  | (k, m) :: rest =>
    if k = part then (part, n) :: rest
    else if strLess part k then (part, n) :: (k, m) :: rest
    else (k, m) :: setChild part n rest

/-- The loop of `buildTree` over the parts of one path, from the node `cur`: the
child for the part is created when missing, the child of the last part gets
`file = true`. -/
def insertParts : List Str → TreeNode → TreeNode
  | [], cur => cur
  | part :: rest, .mk f ch =>
    let child := (getChild part ch).getD (.mk false [])
    let child1 := if rest = [] then TreeNode.mk true child.children else child
    .mk f (setChild part (insertParts rest child1) ch)

/-- The loop of `buildTree` over the files. -/
def buildNodes (root : Str) : List Str → TreeNode → TreeNode
  | [], rootNode => rootNode
  | f :: rest, rootNode =>
    if relOf root f = [46] then buildNodes root rest rootNode
    else buildNodes root rest (insertParts (splitOn 47 (ToSlash (relOf root f))) rootNode)

mutual
/-- The closure `walk` of `buildTree`: the lines of the children of a node at a
depth, each child followed by its own children. -/
def walkNode (depth : Nat) : TreeNode → Str
  | .mk _ ch => walkChildren depth ch
/-- The loop of `walk` over the sorted keys. -/
def walkChildren (depth : Nat) : List (Str × TreeNode) → Str
  | [] => []
  | (k, ch) :: rest =>
    List.replicate (2 * depth) 32 ++ k ++ (if ch.file then [10] else [47, 10])
      ++ walkNode (depth + 1) ch ++ walkChildren depth rest
end

/-- The function `buildTree(root, files)`. -/
def buildTree (root : Str) (files : List Str) : Str :=
  [96, 96, 96, 10] ++ walkNode 0 (buildNodes root files (.mk false [])) ++ [96, 96, 96]

/-- The second result of `CollectFiles`: the tree of the file list it returns. -/
def collectStructure (root : Str) (inputs : List Input) (includes excludes : List Str) :
    Str :=
  buildTree root (CollectFiles root inputs includes excludes)

/-! ## `internal/scanner/filters.go` -/

/-- The Go function `unicode.IsSpace`: the code points with the property
`White_Space`. -/
def isSpaceRune (r : Nat) : Bool :=
  (9 ≤ r ∧ r ≤ 13) ∨ r = 32 ∨ r = 0x85 ∨ r = 0xA0 ∨ r = 0x1680 ∨
    (0x2000 ≤ r ∧ r ≤ 0x200A) ∨ r = 0x2028 ∨ r = 0x2029 ∨ r = 0x202F ∨ r = 0x205F ∨
    r = 0x3000

/-- The Go function `utf8.RuneStart`: the byte is not a continuation byte. -/
def runeStart (b : Nat) : Bool := ¬ (0x80 ≤ b ∧ b < 0xC0)

/-- The number of bytes `utf8.DecodeLastRuneInString` tries as the last rune,
from the bytes before the last one, nearest first: it goes back to the nearest
of the three bytes before the last that starts a rune, to the start of the
string when that comes first, and otherwise to the fourth byte before the
last. -/
def lastRuneLen : Str → Nat
  | [] => 1
  | b2 :: r2 =>
    if runeStart b2 then 2
    else
      match r2 with
      | [] => 2
      | b3 :: r3 =>
        if runeStart b3 then 3
        else
          match r3 with
          | [] => 3
          | b4 :: r4 =>
            if runeStart b4 then 4
            else
              match r4 with
              | [] => 4
              | _ :: _ => 5

/-- The Go function `utf8.DecodeLastRuneInString`: the last rune of `s` and its
width in bytes; `(0xFFFD, 1)` for an invalid encoding and `(0xFFFD, 0)` for the
empty string. -/
def decodeLastRune (s : Str) : Nat × Nat :=
  match s.reverse with
  | [] => (0xFFFD, 0)
  | b1 :: before =>
    if b1 < 0x80 then (b1, 1)
    else if (decodeRune (s.drop (s.length - lastRuneLen before))).2 = lastRuneLen before then
      decodeRune (s.drop (s.length - lastRuneLen before))
    else (0xFFFD, 1)

/-- The loop of `strings.TrimLeftFunc(s, unicode.IsSpace)`: leading runes are
dropped while they are white space.  The first argument bounds the number of
steps; a step drops at least one byte, so the bound `s.length` suffices. -/
def trimLeftLoop : Nat → Str → Str
  | 0, s => s
  | fuel + 1, s =>
    if s ≠ [] ∧ isSpaceRune (decodeRune s).1 then trimLeftLoop fuel (s.drop (decodeRune s).2)
    else s

/-- The loop of `strings.TrimRightFunc(s, unicode.IsSpace)`: trailing runes are
dropped while they are white space.  The first argument bounds the number of
steps, as for `trimLeftLoop`. -/
def trimRightLoop : Nat → Str → Str
  | 0, s => s
  | fuel + 1, s =>
    if s ≠ [] ∧ isSpaceRune (decodeLastRune s).1 then
      trimRightLoop fuel (s.take (s.length - (decodeLastRune s).2))
    else s

/-- The Go function `strings.TrimSpace`: `s` without its leading and trailing
white space, as defined by Unicode. -/
def TrimSpace (s : Str) : Str :=
  trimRightLoop s.length (trimLeftLoop s.length s)

/-- The loop of `SplitList` over the parts, appending to `out`. -/
def splitListLoop : List Str → List Str → List Str
  | [], out => out
  | p :: rest, out =>
    if TrimSpace p ≠ [] then splitListLoop rest (out ++ [TrimSpace p])
    else splitListLoop rest out

/-- `SplitList(s)`: the trimmed, non-empty fields of a comma-separated list. -/
def SplitList (s : Str) : List Str :=
  if TrimSpace s = [] then []
  else splitListLoop (splitOn 44 s) []

/-! ## Notions used in the statements -/

/-- The estimated cost the loop computes for a file: the token estimate of the
content it would put in the record, 0 when it reads none. -/
def fileCost (maxFileSize : Nat) : OsFile → Nat
  | .regular _ f =>
    let r := ReadFileContent f maxFileSize
    if r.2.1 then 0 else EstimateTokens r.1
  | _ => 0

/-- The sum of the estimated costs of a list of files. -/
def runningCost (maxFileSize : Nat) (files : List (Str × OsFile)) : Nat :=
  (files.map fun pf => fileCost maxFileSize pf.2).sum

/-- The estimated cost of the file at index `j` of the list. -/
def costAt (maxFileSize : Nat) (files : List (Str × OsFile)) (j : Nat) : Nat :=
  match files[j]? with
  | some pf => fileCost maxFileSize pf.2
  | none => 0

/-- A listed path yields a record: it is not the root itself and not a
directory. -/
def yieldsRecord (rootAbs : Str) (pf : Str × OsFile) : Prop :=
  relOf rootAbs pf.1 ≠ [46] ∧ pf.2 ≠ OsFile.directory

instance (rootAbs : Str) (pf : Str × OsFile) : Decidable (yieldsRecord rootAbs pf) := by
  unfold yieldsRecord
  infer_instance

/-- The pattern `pat` glob-matches `name`: `path.Match` reports a match without
error. -/
def globMatches (pat name : Str) : Prop := pathMatch pat name = some true

instance (pat name : Str) : Decidable (globMatches pat name) := by
  unfold globMatches
  infer_instance

/-- The paths recorded in `files` are distinct and all in `seen`. -/
def AddState.Distinct (st : AddState) : Prop :=
  st.files.Nodup ∧ ∀ p ∈ st.files, p ∈ st.seen

/-- A name a directory listing can hold: not empty, not `.` or `..`, without a
separator. -/
def validName (n : Str) : Bool := n ≠ [] ∧ n ≠ [46] ∧ n ≠ [46, 46] ∧ 47 ∉ n

/-- All names of a listing, at every depth, are valid. -/
def Listing.wellNamed : Listing → Bool
  | .nil => true
  | .file name rest => validName name && rest.wellNamed
  | .dir name children rest => validName name && children.wellNamed && rest.wellNamed

/-- The absolute path with the given elements: `/` for none, `/a/b` for
`[a, b]`. -/
def absPath (elems : List Str) : Str := 47 :: joinSlash elems

/-- The elements of a path, each behind a separator. -/
def rooted : List Str → Str
  | [] => []
  | e :: es => 47 :: e ++ rooted es

/-- The walk goes on below the directory `d`: its relative path is `.`, which is
never tested, or it passes `shouldKeep`. -/
def passes (root : Str) (includes excludes : List Str) (d : Str) : Prop :=
  relOf root d = [46] ∨ shouldKeep includes excludes (relOf root d) = true

/-- Every recorded path below the directory `d` is there with `d` passing. -/
def belowOnlyIfPasses (root : Str) (includes excludes : List Str) (d : Str)
    (st : AddState) : Prop :=
  ∀ q ∈ st.files, d ++ [47] <+: q → passes root includes excludes d

/-- The input does not name a path below the directory with the elements `cs`:
it is skipped, or a file that is not below it, or a directory that is not below
it (and whose listing holds valid names). -/
def notBelow (cs : List Str) : Input → Prop
  | .unresolved => True
  | .file ap => ¬ absPath cs ++ [47] <+: ap
  | .dir ap entries =>
    ∃ base, ap = absPath base ∧ (∀ e ∈ base, validName e = true) ∧
      (cs <+: base → cs = base) ∧ entries.wellNamed = true

/-- The record the loop builds for an opened file before the budget check. -/
def readEntry (rel : Str) (size : Int) (maxFileSize : Nat) (f : OpenFile) : FileEntry :=
  if (ReadFileContent f maxFileSize).2.1 then
    ⟨ToSlash rel, size, true, (ReadFileContent f maxFileSize).2.2.1, [], [], []⟩
  else
    ⟨ToSlash rel, size, false, (ReadFileContent f maxFileSize).2.2.1, GuessLanguage rel,
      (ReadFileContent f maxFileSize).1, []⟩

/-- The record the loop emits for an opened file that the budget omits. -/
def omittedEntry (rel : Str) (size : Int) (maxFileSize : Nat) (f : OpenFile) : FileEntry :=
  { readEntry rel size maxFileSize f with
    Content := [], Truncated := true,
    ReadErrorMessage := budgetMessage (EstimateTokens (readEntry rel size maxFileSize f).Content) }

/-- The lines the loop adds to `totalLines` for an opened file: its line count
unless it is binary. -/
def countedLines (maxFileSize : Nat) (f : OpenFile) : Nat :=
  if (ReadFileContent f maxFileSize).2.1 then 0 else (ReadFileContent f maxFileSize).2.2.2

/-- What the loop adds to `binaryCount` for an opened file. -/
def countedBinary (maxFileSize : Nat) (f : OpenFile) : Nat :=
  if (ReadFileContent f maxFileSize).2.1 then 1 else 0

/-- The sum of the token estimates of the contents of a list of records. -/
def recordTokens (records : List FileEntry) : Nat :=
  (records.map fun e => EstimateTokens e.Content).sum

/-- The invariant of the budgeted loop: the running total is the sum of the
token estimates of the records emitted so far, and under a positive budget it
does not exceed the budget. -/
def budgetInvariant (maxTokens : Int) (st : LoopState) : Prop :=
  st.totalTokens = recordTokens st.Files ∧ (0 < maxTokens → (st.totalTokens : Int) ≤ maxTokens)

/-- The record `e` is one the loop emits for the listed file `pf`: the record of
the failed `os.Stat` or `os.Open`, or for an opened file the record with what
was read or, under a positive budget, the record that omits it. -/
def emittedFor (rootAbs : Str) (maxFileSize : Nat) (maxTokens : Int) (e : FileEntry)
    (pf : Str × OsFile) : Prop :=
  relOf rootAbs pf.1 ≠ [46] ∧
  match pf.2 with
  | .statFails msg => e = ⟨ToSlash (relOf rootAbs pf.1), 0, false, false, [], [], msg⟩
  | .directory => False
  | .openFails size msg => e = ⟨ToSlash (relOf rootAbs pf.1), size, false, false, [], [], msg⟩
  | .regular size f =>
    e = readEntry (relOf rootAbs pf.1) size maxFileSize f ∨
      (0 < maxTokens ∧ e = omittedEntry (relOf rootAbs pf.1) size maxFileSize f)

/-- The record is the one of a file omitted by the budget: it is marked
truncated and carries a message. -/
def isOmitted (e : FileEntry) : Bool := e.Truncated && !e.ReadErrorMessage.isEmpty

/-- The number of line feeds in the contents of a list of records. -/
def recordLines (records : List FileEntry) : Nat :=
  (records.map fun e => e.Content.count 10).sum

/-- What the records determine of the counters: the tokens, the binary files,
the omitted files, and the lines as long as no file was omitted. -/
def countersFromRecords (st : LoopState) : Prop :=
  st.totalTokens = recordTokens st.Files ∧
  st.binaryCount = st.Files.countP (·.IsBinary) ∧
  st.skippedByToken = st.Files.countP isOmitted ∧
  (st.skippedByToken = 0 → st.totalLines = recordLines st.Files)

/-- The bytes are the UTF-8 encoding of one white space code point. -/
def isSpaceEncoding : Str → Bool
  | [b] => (9 ≤ b ∧ b ≤ 13) ∨ b = 32
  | [b0, b1] => b0 = 0xC2 ∧ (b1 = 0x85 ∨ b1 = 0xA0)
  | [b0, b1, b2] =>
    (b0 = 0xE1 ∧ b1 = 0x9A ∧ b2 = 0x80) ∨
    (b0 = 0xE2 ∧ b1 = 0x80 ∧ ((0x80 ≤ b2 ∧ b2 ≤ 0x8A) ∨ b2 = 0xA8 ∨ b2 = 0xA9 ∨ b2 = 0xAF)) ∨
    (b0 = 0xE2 ∧ b1 = 0x81 ∧ b2 = 0x9F) ∨
    (b0 = 0xE3 ∧ b1 = 0x80 ∧ b2 = 0x80)
  | _ => false

/-- The string starts with white space: its first rune is a white space code
point. -/
def leadingSpace (s : Str) : Bool := isSpaceRune (decodeRune s).1

/-- The string ends with white space: its last rune is a white space code
point. -/
def trailingSpace (s : Str) : Bool := isSpaceRune (decodeLastRune s).1

/-- The listing holds a file named `f` in the directory reached from its top
through the directories `ds`, in this order. -/
def Listing.holdsFile : Listing → List Str → Str → Bool
  | .nil, _, _ => false
  | .file name rest, [], f => name = f || rest.holdsFile [] f
  | .file _ rest, d :: ds, f => rest.holdsFile (d :: ds) f
  | .dir _ _ rest, [], f => rest.holdsFile [] f
  | .dir name children rest, d :: ds, f =>
    (name = d && children.holdsFile ds f) || rest.holdsFile (d :: ds) f

/-- Every path marked as seen is in the file list. -/
def AddState.seenListed (st : AddState) : Prop := ∀ p ∈ st.seen, p ∈ st.files

/-! ## Theorems -/

/-! ### The bounded loops -/

theorem relScan_fuel (fuel1 : Nat) : ∀ (fuel2 : Nat) (b t : Str),
    b.length < fuel1 → b.length < fuel2 → relScan fuel1 b t = relScan fuel2 b t := by
  induction fuel1 with
  | zero => intro fuel2 b t h; omega
  | succ f1 ih =>
    intro fuel2 b t h1 h2
    cases fuel2 with
    | zero => omega
    | succ f2 =>
      simp only [relScan]
      split
      · rfl
      · rename_i hne
        split
        · rfl
        · have hb : b ≠ [] := fun h => hne (Or.inl h)
          have hlen : 0 < b.length := List.length_pos.mpr hb
          apply ih
          · simp only [List.length_drop]; omega
          · simp only [List.length_drop]; omega

theorem decodeRune_width (c : Nat) (s : Str) : 1 ≤ (decodeRune (c :: s)).2 := by
  by_cases h1 : c < 0x80
  · simp [decodeRune, h1]
  by_cases h2 : c < 0xC2 ∨ 0xF4 < c
  · simp [decodeRune, h1, h2]
  cases s with
  | nil => simp [decodeRune, h1, h2]
  | cons s1 r1 =>
    by_cases h3 : c < 0xE0
    · simp only [decodeRune, h1, h2, h3, if_true, if_false]
      split_ifs <;> simp
    cases r1 with
    | nil => simp [decodeRune, h1, h2, h3]
    | cons s2 r2 =>
      by_cases h4 : c < 0xF0
      · simp only [decodeRune, h1, h2, h3, h4, if_true, if_false]
        split_ifs <;> simp
      cases r2 with
      | nil => simp [decodeRune, h1, h2, h3, h4]
      | cons s3 r3 =>
        simp only [decodeRune, h1, h2, h3, h4, if_true, if_false]
        split_ifs <;> simp

theorem getEsc_shorter (chunk : Str) (r : Nat) (rest : Str)
    (h : getEsc chunk = some (r, rest)) : rest.length < chunk.length := by
  cases chunk with
  | nil => simp [getEsc] at h
  | cons c cs =>
    by_cases hc : c = 92
    · cases cs with
      | nil => simp [getEsc, hc] at h
      | cons d ds =>
        simp only [getEsc, hc, if_true] at h
        split_ifs at h
        simp only [Option.some.injEq, Prod.mk.injEq] at h
        rw [← h.2]
        have := decodeRune_width d ds
        simp only [List.length_drop, List.length_cons]
        omega
    · simp only [getEsc, hc, if_false] at h
      split_ifs at h
      simp only [Option.some.injEq, Prod.mk.injEq] at h
      rw [← h.2]
      have := decodeRune_width c cs
      simp only [List.length_drop, List.length_cons]
      omega

theorem classRanges_shorter (fuel : Nat) : ∀ (r : Nat) (chunk : Str) (nrange : Nat)
    (found b : Bool) (rest : Str),
    classRanges fuel r chunk nrange found = some (b, rest) → rest.length ≤ chunk.length := by
  induction fuel with
  | zero => intro r chunk nrange found b rest h; simp [classRanges] at h
  | succ f ih =>
    intro r chunk nrange found b rest h
    simp only [classRanges] at h
    split at h
    · simp only [Option.some.injEq, Prod.mk.injEq] at h
      rw [← h.2]
      simp
    · split at h
      · simp at h
      · rename_i lo chunk1 hesc
        have h1 := getEsc_shorter _ _ _ hesc
        split at h
        · simp at h
        · rename_i hi chunk2 hup
          have h2 : chunk2.length ≤ chunk1.length := by
            split at hup
            · have := getEsc_shorter _ _ _ hup
              simp only [List.length_drop] at this
              omega
            · simp only [Option.some.injEq, Prod.mk.injEq] at hup
              rw [← hup.2]
          have := ih _ _ _ _ _ _ h
          omega

theorem classRanges_fuel (fuel1 : Nat) : ∀ (fuel2 r : Nat) (chunk : Str) (nrange : Nat)
    (found : Bool), chunk.length < fuel1 → chunk.length < fuel2 →
    classRanges fuel1 r chunk nrange found = classRanges fuel2 r chunk nrange found := by
  induction fuel1 with
  | zero => intro fuel2 r chunk nrange found h; omega
  | succ f1 ih =>
    intro fuel2 r chunk nrange found h1 h2
    cases fuel2 with
    | zero => omega
    | succ f2 =>
      simp only [classRanges]
      split
      · rfl
      · split
        · rfl
        · rename_i lo chunk1 hesc
          have hs1 := getEsc_shorter _ _ _ hesc
          split
          · rfl
          · rename_i hi chunk2 hup
            have hs2 : chunk2.length ≤ chunk1.length := by
              split at hup
              · have := getEsc_shorter _ _ _ hup
                simp only [List.length_drop] at this
                omega
              · simp only [Option.some.injEq, Prod.mk.injEq] at hup
                rw [← hup.2]
            apply ih <;> omega

theorem matchChunkLoop_fuel (fuel1 : Nat) : ∀ (fuel2 : Nat) (chunk s : Str) (failed : Bool),
    chunk.length < fuel1 → chunk.length < fuel2 →
    matchChunkLoop fuel1 chunk s failed = matchChunkLoop fuel2 chunk s failed := by
  induction fuel1 with
  | zero => intro fuel2 chunk s failed h; omega
  | succ f1 ih =>
    intro fuel2 chunk s failed h1 h2
    cases fuel2 with
    | zero => omega
    | succ f2 =>
      cases chunk with
      | nil => simp [matchChunkLoop]
      | cons c chunk =>
        simp only [List.length_cons] at h1 h2
        simp only [matchChunkLoop]
        split
        · split
          · rfl
          · rename_i found chunk2 hcr
            have hlen := classRanges_shorter _ _ _ _ _ _ _ hcr
            apply ih
            · split at hlen <;> (try simp only [List.length_drop] at hlen) <;> omega
            · split at hlen <;> (try simp only [List.length_drop] at hlen) <;> omega
        · split
          · split
            · apply ih <;> omega
            · apply ih <;> omega
          · split
            · split
              · rfl
              · simp only [List.length_cons] at h1 h2
                split
                · apply ih <;> omega
                · apply ih <;> omega
            · split
              · apply ih <;> omega
              · apply ih <;> omega

theorem scanSplit_length : ∀ (n : Nat) (inrange : Bool) (p : Str), p.length ≤ n →
    (scanSplit inrange p).1.length + (scanSplit inrange p).2.length = p.length := by
  intro n
  induction n with
  | zero =>
    intro inrange p hp
    have : p = [] := List.length_eq_zero.mp (by omega)
    subst this
    simp [scanSplit]
  | succ n ih =>
    intro inrange p hp
    match p with
    | [] => simp [scanSplit]
    | [c] => simp only [scanSplit]; split <;> simp
    | c :: d :: rest =>
      simp only [List.length_cons] at hp
      simp only [scanSplit]
      split
      · have := ih inrange rest (by omega)
        simp only [List.length_cons]
        omega
      · split
        · have := ih true (d :: rest) (by simp only [List.length_cons]; omega)
          simp only [List.length_cons] at this ⊢
          omega
        · split
          · have := ih false (d :: rest) (by simp only [List.length_cons]; omega)
            simp only [List.length_cons] at this ⊢
            omega
          · split
            · simp
            · have := ih inrange (d :: rest) (by simp only [List.length_cons]; omega)
              simp only [List.length_cons] at this ⊢
              omega

theorem scanSplit_nonempty (c : Nat) (p : Str) (hc : c ≠ 42) :
    (scanSplit false (c :: p)).1 ≠ [] := by
  cases p with
  | nil => simp [scanSplit, hc]
  | cons d rest =>
    simp only [scanSplit]
    split_ifs <;> simp_all

theorem scanChunk_shorter (pattern : Str) (hne : pattern ≠ []) :
    (scanChunk pattern).2.2.length < pattern.length := by
  unfold scanChunk
  simp only
  have hsum := scanSplit_length _ false (pattern.dropWhile (· = 42)) (le_refl _)
  have hdrop : (pattern.dropWhile (· = 42)).length ≤ pattern.length :=
    (List.dropWhile_sublist _).length_le
  cases pattern with
  | nil => exact absurd rfl hne
  | cons c rest =>
    by_cases hc : c = 42
    · have : ((c :: rest).dropWhile (· = 42)).length ≤ rest.length := by
        simp only [List.dropWhile_cons, hc, decide_True, if_true]
        exact (List.dropWhile_sublist _).length_le
      simp only [List.length_cons]
      omega
    · have hd : (c :: rest).dropWhile (· = 42) = c :: rest := by
        simp [List.dropWhile_cons, hc]
      rw [hd] at hsum ⊢
      have h1 := scanSplit_nonempty c rest hc
      have h2 : 0 < (scanSplit false (c :: rest)).1.length := List.length_pos.mpr h1
      omega

theorem restWellFormed_fuel (fuel1 : Nat) : ∀ (fuel2 : Nat) (pattern : Str),
    pattern.length < fuel1 → pattern.length < fuel2 →
    restWellFormed fuel1 pattern = restWellFormed fuel2 pattern := by
  induction fuel1 with
  | zero => intro fuel2 pattern h; omega
  | succ f1 ih =>
    intro fuel2 pattern h1 h2
    cases fuel2 with
    | zero => omega
    | succ f2 =>
      simp only [restWellFormed]
      split
      · rfl
      · rename_i hne
        have hs := scanChunk_shorter pattern hne
        rcases hsc : scanChunk pattern with ⟨star, chunk, rest⟩
        rw [hsc] at hs
        simp only at hs ⊢
        split
        · rfl
        · apply ih <;> omega

theorem matchLoop_fuel (fuel1 : Nat) : ∀ (fuel2 : Nat) (pattern name : Str),
    pattern.length < fuel1 → pattern.length < fuel2 →
    matchLoop fuel1 pattern name = matchLoop fuel2 pattern name := by
  induction fuel1 with
  | zero => intro fuel2 pattern name h; omega
  | succ f1 ih =>
    intro fuel2 pattern name h1 h2
    cases fuel2 with
    | zero => omega
    | succ f2 =>
      simp only [matchLoop]
      split
      · rfl
      · rename_i hne
        have hs := scanChunk_shorter pattern hne
        have hrec : ∀ t, matchLoop f1 (scanChunk pattern).2.2 t
            = matchLoop f2 (scanChunk pattern).2.2 t := by
          intro t
          apply ih <;> omega
        split
        · rfl
        · split
          · rfl
          · split
            · exact hrec _
            · split
              · split
                · rfl
                · exact hrec _
                · rfl
              · rfl

/-- The loops of `path.Match` and `filepath.Rel` are given more steps than they
take: each step consumes at least one byte, so any larger bound gives the same
result. -/
theorem bounded_loops_adequate (fuel : Nat) (pattern name chunk s b t : Str) :
    (pattern.length < fuel → matchLoop fuel pattern name = pathMatch pattern name) ∧
    (chunk.length < fuel → matchChunkLoop fuel chunk s false = matchChunk chunk s) ∧
    (∀ (r nrange : Nat) (found : Bool), chunk.length < fuel →
      classRanges fuel r chunk nrange found
        = classRanges (chunk.length + 1) r chunk nrange found) ∧
    (pattern.length < fuel →
      restWellFormed fuel pattern = restWellFormed (pattern.length + 1) pattern) ∧
    (b.length < fuel → relScan fuel b t = relScan (b.length + 1) b t) :=
  ⟨fun h => matchLoop_fuel fuel _ pattern name h (Nat.lt_succ_self _),
   fun h => matchChunkLoop_fuel fuel _ chunk s false h (Nat.lt_succ_self _),
   fun r nrange found h => classRanges_fuel fuel _ r chunk nrange found h (Nat.lt_succ_self _),
   fun h => restWellFormed_fuel fuel _ pattern h (Nat.lt_succ_self _),
   fun h => relScan_fuel fuel _ b t h (Nat.lt_succ_self _)⟩

/-! ### The token budget -/

theorem loopBody_pass (rootAbs : Str) (maxFileSize : Nat) (T : Int) (st : LoopState)
    (p : Str) (os : OsFile) (hrec : yieldsRecord rootAbs (p, os))
    (hfit : ¬ (0 < T ∧ T < ((st.totalTokens + fileCost maxFileSize os : Nat) : Int))) :
    (loopBody rootAbs maxFileSize T st p os).2 = false ∧
    (∃ e, (loopBody rootAbs maxFileSize T st p os).1.Files = st.Files ++ [e] ∧
      e.Path = ToSlash (relOf rootAbs p)) ∧
    (loopBody rootAbs maxFileSize T st p os).1.totalTokens
      = st.totalTokens + fileCost maxFileSize os ∧
    (loopBody rootAbs maxFileSize T st p os).1.skippedByToken = st.skippedByToken := by
  obtain ⟨hrel, hdir⟩ := hrec
  simp only at hrel hdir
  cases os with
  | statFails msg => simp [loopBody, hrel, fileCost]
  | directory => exact absurd rfl hdir
  | openFails size msg => simp [loopBody, hrel, fileCost]
  | regular size f =>
    rcases hr : ReadFileContent f maxFileSize with ⟨content, isBinary, truncated, lines⟩
    cases isBinary <;> simp [loopBody, hrel, fileCost, hr] at hfit ⊢
    · rw [if_neg (by simpa using hfit)]; simp
    · rw [if_neg (by simpa [EstimateTokens] using hfit)]; simp [EstimateTokens]

theorem loopBody_cut (rootAbs : Str) (maxFileSize : Nat) (T : Int) (st : LoopState)
    (p : Str) (os : OsFile) (hrec : yieldsRecord rootAbs (p, os)) (hT : 0 < T)
    (hle : (st.totalTokens : Int) ≤ T)
    (hcross : T < ((st.totalTokens + fileCost maxFileSize os : Nat) : Int)) :
    (loopBody rootAbs maxFileSize T st p os).2 = true ∧
    (∃ e, (loopBody rootAbs maxFileSize T st p os).1.Files = st.Files ++ [e] ∧
      e.Path = ToSlash (relOf rootAbs p) ∧ e.Truncated = true ∧ e.Content = [] ∧
      e.ReadErrorMessage = budgetMessage (fileCost maxFileSize os)) ∧
    (loopBody rootAbs maxFileSize T st p os).1.skippedByToken = st.skippedByToken + 1 := by
  obtain ⟨hrel, hdir⟩ := hrec
  simp only at hrel hdir
  cases os with
  | statFails msg => simp [fileCost] at hcross; omega
  | directory => exact absurd rfl hdir
  | openFails size msg => simp [fileCost] at hcross; omega
  | regular size f =>
    rcases hr : ReadFileContent f maxFileSize with ⟨content, isBinary, truncated, lines⟩
    cases isBinary <;> simp [fileCost, hr] at hcross
    · have hc : 0 < T ∧ T < ((st.totalTokens + EstimateTokens content : Nat) : Int) :=
        ⟨hT, by simpa using hcross⟩
      simp [loopBody, hrel, fileCost, hr]
      rw [if_pos (by simpa using hc)]; simp
    · omega

theorem costAt_zero (m : Nat) (pf : Str × OsFile) (rest : List (Str × OsFile)) :
    costAt m (pf :: rest) 0 = fileCost m pf.2 := by
  simp [costAt]

theorem costAt_succ (m : Nat) (pf : Str × OsFile) (rest : List (Str × OsFile)) (j : Nat) :
    costAt m (pf :: rest) (j + 1) = costAt m rest j := by
  simp [costAt]

theorem runningCost_cons (m : Nat) (pf : Str × OsFile) (rest : List (Str × OsFile)) :
    runningCost m (pf :: rest) = fileCost m pf.2 + runningCost m rest := by
  simp [runningCost]

theorem collectLoop_cut (rootAbs : Str) (maxFileSize : Nat) (T : Int) (hT : 0 < T) :
    ∀ (files : List (Str × OsFile)) (st : LoopState) (k : Nat),
      (∀ pf ∈ files, yieldsRecord rootAbs pf) → k < files.length →
      (st.totalTokens : Int) ≤ T →
      (∀ j, j < k → ((st.totalTokens + runningCost maxFileSize (files.take j)
          + costAt maxFileSize files j : Nat) : Int) ≤ T) →
      T < ((st.totalTokens + runningCost maxFileSize (files.take k)
          + costAt maxFileSize files k : Nat) : Int) →
      (collectLoop rootAbs maxFileSize T files st).Files.map (·.Path)
        = st.Files.map (·.Path)
          ++ (files.take (k + 1)).map (fun pf => ToSlash (relOf rootAbs pf.1)) ∧
      (∃ pre e, (collectLoop rootAbs maxFileSize T files st).Files = pre ++ [e] ∧
        e.Truncated = true ∧ e.Content = [] ∧
        e.ReadErrorMessage = budgetMessage (costAt maxFileSize files k)) ∧
      (collectLoop rootAbs maxFileSize T files st).skippedByToken = st.skippedByToken + 1 ∧
      collectLoop rootAbs maxFileSize T files st
        = collectLoop rootAbs maxFileSize T (files.take (k + 1)) st := by
  intro files
  induction files with
  | nil => intro st k _ hk; simp at hk
  | cons pf rest ih =>
    intro st k hrec hk hle hfirst hcross
    obtain ⟨p, os⟩ := pf
    have hrec0 : yieldsRecord rootAbs (p, os) := hrec _ (List.mem_cons_self _ _)
    cases k with
    | zero =>
      have hc : T < ((st.totalTokens + fileCost maxFileSize os : Nat) : Int) := by
        simpa [runningCost, costAt_zero] using hcross
      obtain ⟨hstop, ⟨e, hfiles, hpath, htr, hco, hmsg⟩, hskip⟩ :=
        loopBody_cut rootAbs maxFileSize T st p os hrec0 hT hle hc
      refine ⟨?_, ⟨st.Files, e, ?_, htr, hco, ?_⟩, ?_, ?_⟩
      · simp [collectLoop, hstop, hfiles, hpath]
      · simp [collectLoop, hstop, hfiles]
      · simpa [costAt_zero] using hmsg
      · simp [collectLoop, hstop, hskip]
      · simp [collectLoop, hstop]
    | succ k =>
      have h0 := hfirst 0 (Nat.succ_pos k)
      have hfit : ¬ (0 < T ∧ T < ((st.totalTokens + fileCost maxFileSize os : Nat) : Int)) := by
        simp [runningCost, costAt_zero] at h0
        omega
      obtain ⟨hgo, ⟨e, hfiles, hpath⟩, htot, hskip⟩ :=
        loopBody_pass rootAbs maxFileSize T st p os hrec0 hfit
      have hle1 : (((loopBody rootAbs maxFileSize T st p os).1.totalTokens : Nat) : Int) ≤ T := by
        rw [htot]
        simpa [runningCost, costAt_zero] using h0
      have hfirst1 : ∀ j, j < k →
          (((loopBody rootAbs maxFileSize T st p os).1.totalTokens
            + runningCost maxFileSize (rest.take j) + costAt maxFileSize rest j : Nat) : Int)
            ≤ T := by
        intro j hj
        have := hfirst (j + 1) (Nat.succ_lt_succ hj)
        rw [htot]
        simpa [List.take_succ_cons, runningCost_cons, costAt_succ, Nat.add_assoc] using this
      have hcross1 : T <
          (((loopBody rootAbs maxFileSize T st p os).1.totalTokens
            + runningCost maxFileSize (rest.take k) + costAt maxFileSize rest k : Nat) : Int) := by
        rw [htot]
        simpa [List.take_succ_cons, runningCost_cons, costAt_succ, Nat.add_assoc] using hcross
      obtain ⟨ihp, ⟨pre, e1, ihf, ihtr, ihco, ihmsg⟩, ihskip, iheq⟩ :=
        ih (loopBody rootAbs maxFileSize T st p os).1 k
          (fun pf hpf => hrec pf (List.mem_cons_of_mem _ hpf))
          (by simpa using hk) hle1 hfirst1 hcross1
      refine ⟨?_, ⟨pre, e1, ?_, ihtr, ihco, ?_⟩, ?_, ?_⟩
      · simp [collectLoop, hgo, ihp, hfiles, hpath]
      · simp [collectLoop, hgo, ihf]
      · simpa [costAt_succ] using ihmsg
      · simp [collectLoop, hgo, ihskip, hskip]
      · simp only [collectLoop, hgo, List.take_succ_cons]
        simpa using iheq

/-- C1. Budget hard-stop: with a positive budget `T` and a file list whose
entries all yield a record, if `k` is the first index at which the running
total of estimated costs plus the cost of the file exceeds `T`, the loop
emits exactly `k + 1` records, one for each of the files `0..k`; the record at
index `k` has `Truncated = true`, empty `Content` and the budget message;
`SkippedByLimit` is 1; and the files after index `k` have no influence on the
result. -/
theorem budget_hard_stop (rootAbs : Str) (maxFileSize : Nat) (T : Int)
    (files : List (Str × OsFile)) (k : Nat)
    (hT : 0 < T)
    (hrec : ∀ pf ∈ files, yieldsRecord rootAbs pf)
    (hk : k < files.length)
    (hfirst : ∀ j, j < k →
      ((runningCost maxFileSize (files.take j) + costAt maxFileSize files j : Nat) : Int) ≤ T)
    (hcross :
      T < ((runningCost maxFileSize (files.take k) + costAt maxFileSize files k : Nat) : Int)) :
    (collect rootAbs maxFileSize T files).1.length = k + 1 ∧
    (collect rootAbs maxFileSize T files).1.map (·.Path)
      = (files.take (k + 1)).map (fun pf => ToSlash (relOf rootAbs pf.1)) ∧
    (∃ e, (collect rootAbs maxFileSize T files).1[k]? = some e ∧
      e.Truncated = true ∧ e.Content = [] ∧
      e.ReadErrorMessage = budgetMessage (costAt maxFileSize files k)) ∧
    (collect rootAbs maxFileSize T files).2.SkippedByLimit = 1 ∧
    collect rootAbs maxFileSize T files
      = collect rootAbs maxFileSize T (files.take (k + 1)) := by
  obtain ⟨hp, ⟨pre, e, hf, htr, hco, hmsg⟩, hskip, heq⟩ :=
    collectLoop_cut rootAbs maxFileSize T hT files LoopState.init k hrec hk
      (by simpa [LoopState.init] using hT.le)
      (by simpa [LoopState.init] using hfirst)
      (by simpa [LoopState.init] using hcross)
  have hlen : (collectLoop rootAbs maxFileSize T files LoopState.init).Files.length = k + 1 := by
    have h0 : LoopState.init.Files = [] := rfl
    have := congrArg List.length hp
    simp only [List.length_map, List.length_append, List.length_take, h0,
      List.length_nil] at this
    omega
  refine ⟨by simpa [collect] using hlen, ?_, ⟨e, ?_, htr, hco, hmsg⟩, ?_, ?_⟩
  · simpa [collect, LoopState.init] using hp
  · have hpre : pre.length = k := by
      have := congrArg List.length hf
      simp [hlen] at this
      omega
    simp [collect, hf, ← hpre]
  · simpa [collect, summaryOf, LoopState.init] using hskip
  · simp only [collect]
    rw [← heq]

/-- Witness for C1: the budget 3 is crossed at the first of two files. -/
theorem budget_hard_stop_witness :
    (collect (ascii "/r") 16384 3
      [(ascii "/r/a.go", .regular 13 ⟨ascii "package main\n", false⟩),
       (ascii "/r/b.txt", .regular 1 ⟨ascii "x", false⟩)]).1.length = 1 :=
  (budget_hard_stop (ascii "/r") 16384 3
    [(ascii "/r/a.go", .regular 13 ⟨ascii "package main\n", false⟩),
     (ascii "/r/b.txt", .regular 1 ⟨ascii "x", false⟩)] 0
    (by decide) (by decide) (by decide) (by intro j hj; omega) (by decide)).1

/-! ### Content classification -/

theorem readInto_window (f : OpenFile) (maxSize : Nat) :
    (readInto f maxSize).1
      = if f.readFails then [] else f.bytes.take (min f.bytes.length maxSize) := by
  unfold readInto
  split
  · rfl
  · simp [Nat.min_comm]

theorem readInto_length_le (f : OpenFile) (maxSize : Nat) :
    (readInto f maxSize).1.length ≤ maxSize := by
  unfold readInto
  split <;> simp

theorem ReadFileContent_eq (f : OpenFile) (maxSize : Nat) :
    ReadFileContent f maxSize
      = if f.readFails then ([], false, false, 0)
        else (f.bytes.take maxSize, (f.bytes.take maxSize).contains 0, false,
              (f.bytes.take maxSize).count 10) := by
  unfold ReadFileContent readInto
  by_cases h : f.readFails
  · simp [h]
  · simp only [h, Bool.false_eq_true, if_false]
    rw [if_neg]
    simp only [List.length_take]
    omega

/-- Every record the loop holds satisfies `P` when the records it starts with do
and each iteration appends only records that do. -/
theorem collectLoop_forall (P : FileEntry → Prop) (rootAbs : Str) (maxFileSize : Nat)
    (maxTokens : Int)
    (hbody : ∀ (st : LoopState) (p : Str) (os : OsFile), (∀ e ∈ st.Files, P e) →
      ∀ e ∈ (loopBody rootAbs maxFileSize maxTokens st p os).1.Files, P e) :
    ∀ (files : List (Str × OsFile)) (st : LoopState), (∀ e ∈ st.Files, P e) →
      ∀ e ∈ (collectLoop rootAbs maxFileSize maxTokens files st).Files, P e := by
  intro files
  induction files with
  | nil => intro st h; simpa [collectLoop] using h
  | cons pf rest ih =>
    intro st h
    obtain ⟨p, os⟩ := pf
    have h1 := hbody st p os h
    simp only [collectLoop]
    split
    · exact h1
    · exact ih _ h1

theorem loopBody_binary (rootAbs : Str) (maxFileSize : Nat) (maxTokens : Int)
    (st : LoopState) (p : Str) (os : OsFile)
    (h : ∀ e ∈ st.Files, e.IsBinary = true → e.Content = [] ∧ e.LanguageHint = []) :
    ∀ e ∈ (loopBody rootAbs maxFileSize maxTokens st p os).1.Files,
      e.IsBinary = true → e.Content = [] ∧ e.LanguageHint = [] := by
  unfold loopBody
  by_cases hrel : relOf rootAbs p = [46]
  · simpa [hrel] using h
  · cases os with
    | statFails msg =>
      intro e he
      simp only [hrel, if_false, List.mem_append, List.mem_singleton] at he
      rcases he with he | rfl
      · exact h e he
      · simp
    | directory => simpa [hrel] using h
    | openFails size msg =>
      intro e he
      simp only [hrel, if_false, List.mem_append, List.mem_singleton] at he
      rcases he with he | rfl
      · exact h e he
      · simp
    | regular size f =>
      rcases hr : ReadFileContent f maxFileSize with ⟨content, isBinary, truncated, lines⟩
      intro e he
      simp only [hrel, if_false, hr] at he
      cases isBinary
      · intro hb
        simp only [Bool.not_false, if_true] at he
        split at he
        · simp only [List.mem_append, List.mem_singleton] at he
          rcases he with he | rfl
          · exact h e he hb
          · simp at hb
        · simp only [List.mem_append, List.mem_singleton] at he
          rcases he with he | rfl
          · exact h e he hb
          · simp at hb
      · intro hb
        simp only [Bool.not_true, Bool.false_eq_true, if_false] at he
        split at he
        · simp only [List.mem_append, List.mem_singleton] at he
          rcases he with he | rfl
          · exact h e he hb
          · simp
        · simp only [List.mem_append, List.mem_singleton] at he
          rcases he with he | rfl
          · exact h e he hb
          · simp

/-- C5. Binary detection: `ReadFileContent` reports a file binary exactly when
the window the read delivered (the first `min(size, maxFileSize)` bytes, nothing
when the read fails) contains a NUL byte, and every record the loop emits with
`IsBinary = true` has empty `Content` and empty `LanguageHint`, under any token
budget. -/
theorem binary_detection (f : OpenFile) (maxFileSize : Nat) :
    (readInto f maxFileSize).1
      = (if f.readFails then [] else f.bytes.take (min f.bytes.length maxFileSize)) ∧
    ((ReadFileContent f maxFileSize).2.1 = true ↔ 0 ∈ (readInto f maxFileSize).1) ∧
    ∀ (rootAbs : Str) (maxTokens : Int) (files : List (Str × OsFile)) (e : FileEntry),
      e ∈ (collect rootAbs maxFileSize maxTokens files).1 → e.IsBinary = true →
        e.Content = [] ∧ e.LanguageHint = [] := by
  refine ⟨readInto_window f maxFileSize, ?_, ?_⟩
  · rw [ReadFileContent_eq]
    unfold readInto
    by_cases h : f.readFails <;> simp [h]
  · intro rootAbs maxTokens files e he
    exact collectLoop_forall _ rootAbs maxFileSize maxTokens
      (loopBody_binary rootAbs maxFileSize maxTokens) files LoopState.init
      (by simp [LoopState.init]) e he

/-- Witness for C5: a file with a NUL byte yields a binary record without content
or language hint, whatever its extension. -/
theorem binary_detection_witness :
    (⟨ascii "b.go", 3, true, false, [], [], []⟩ : FileEntry).Content = [] ∧
    (⟨ascii "b.go", 3, true, false, [], [], []⟩ : FileEntry).LanguageHint = [] :=
  (binary_detection ⟨[0, 1, 2], false⟩ 16384).2.2 (ascii "/r") 5
    [(ascii "/r/b.go", .regular 3 ⟨[0, 1, 2], false⟩)]
    ⟨ascii "b.go", 3, true, false, [], [], []⟩ (by decide) rfl

theorem ReadFileContent_not_truncated (f : OpenFile) (maxSize : Nat) :
    (ReadFileContent f maxSize).2.2.1 = false := by
  rw [ReadFileContent_eq]
  split <;> rfl

/-- C6. The truncation signal at a failing input: for a file of 5 bytes and
`maxSize = 4` the read fills the whole buffer (4 bytes are returned), yet
`ReadFileContent` reports `isTruncated = false`; it does so for every file and
every `maxSize`, the read never delivering more than `maxSize` bytes. -/
theorem truncation_not_signalled :
    (readInto ⟨ascii "abcde", false⟩ 4).1.length = 4 ∧
    ReadFileContent ⟨ascii "abcde", false⟩ 4 = (ascii "abcd", false, false, 0) ∧
    ∀ (f : OpenFile) (maxSize : Nat),
      (readInto f maxSize).1.length ≤ maxSize ∧ (ReadFileContent f maxSize).2.2.1 = false := by
  refine ⟨by decide, by decide, ?_⟩
  intro f maxSize
  exact ⟨readInto_length_le f maxSize, ReadFileContent_not_truncated f maxSize⟩

/-- C9. Line counting: the line count `ReadFileContent` returns is the number
of line-feed bytes in the data it returns, which is the first
`min(size, maxBytes)` bytes of the file (nothing when the read fails); an
unterminated last line is not counted, so `"a\nb\nc"` has 2 lines. -/
theorem line_count (f : OpenFile) (maxBytes : Nat) :
    (ReadFileContent f maxBytes).2.2.2 = (ReadFileContent f maxBytes).1.count 10 ∧
    (ReadFileContent f maxBytes).1
      = (if f.readFails then [] else f.bytes.take (min f.bytes.length maxBytes)) ∧
    (ReadFileContent ⟨ascii "a\nb\nc", false⟩ 16384).2.2.2 = 2 := by
  refine ⟨?_, ?_, by decide⟩
  · rw [ReadFileContent_eq]
    split <;> simp
  · rw [ReadFileContent_eq]
    split
    · rfl
    · simp [Nat.min_comm]

/-! ### Token estimate -/

/-- C8. `EstimateTokens` of a string of `L` bytes is `(L + 3) / 4`, which is
`⌈L / 4⌉`: 0, 1, 1, 2 for `L` = 0, 1, 4, 5; it is monotone in `L`, and the
empty content of a binary or unread record costs 0. -/
theorem EstimateTokens_ceil (s : Str) :
    EstimateTokens s = (s.length + 3) / 4 ∧
    EstimateTokens s = ⌈(s.length : ℚ) / 4⌉₊ ∧
    (s.length = 0 → EstimateTokens s = 0) ∧
    (s.length = 1 → EstimateTokens s = 1) ∧
    (s.length = 4 → EstimateTokens s = 1) ∧
    (s.length = 5 → EstimateTokens s = 2) ∧
    (∀ t : Str, s.length ≤ t.length → EstimateTokens s ≤ EstimateTokens t) ∧
    EstimateTokens [] = 0 := by
  refine ⟨rfl, ?_, ?_, ?_, ?_, ?_, ?_, rfl⟩
  · unfold EstimateTokens
    generalize s.length = L
    symm
    apply le_antisymm
    · rw [Nat.ceil_le]
      have h : L ≤ 4 * ((L + 3) / 4) := by omega
      have h2 : (L : ℚ) ≤ 4 * (((L + 3) / 4 : ℕ) : ℚ) := by exact_mod_cast h
      linarith
    · rcases Nat.eq_zero_or_pos ((L + 3) / 4) with h0 | hpos
      · omega
      · have h : 4 * ((L + 3) / 4 - 1) < L := by omega
        have hlt : (((L + 3) / 4 - 1 : ℕ) : ℚ) < (L : ℚ) / 4 := by
          have h2 : (4 : ℚ) * (((L + 3) / 4 - 1 : ℕ) : ℚ) < (L : ℚ) := by exact_mod_cast h
          linarith
        have := Nat.lt_ceil.mpr hlt
        omega
  · intro h; simp [EstimateTokens, h]
  · intro h; simp [EstimateTokens, h]
  · intro h; simp [EstimateTokens, h]
  · intro h; simp [EstimateTokens, h]
  · intro t h
    unfold EstimateTokens
    omega

/-- Witness for C8: a string of five bytes costs two tokens. -/
theorem EstimateTokens_ceil_witness : EstimateTokens (ascii "hello") = 2 :=
  (EstimateTokens_ceil (ascii "hello")).2.2.2.2.2.1 (by decide)

/-! ### Pattern matching and the keep decision -/

theorem matchOk_iff (pat name : Str) : matchOk pat name = true ↔ globMatches pat name := by
  unfold matchOk globMatches
  cases pathMatch pat name <;> simp

theorem matchAnyLoop_iff (rel : Str) (patterns : List Str) :
    matchAnyLoop rel patterns = true ↔
      ∃ pat ∈ patterns, globMatches pat rel ∨ globMatches pat (Base rel) := by
  induction patterns with
  | nil => simp [matchAnyLoop]
  | cons pat rest ih =>
    simp only [matchAnyLoop, List.mem_cons, exists_eq_or_imp]
    rw [← ih, ← matchOk_iff, ← matchOk_iff]
    cases matchOk pat rel <;> cases matchOk pat (Base rel) <;> simp

theorem matchAny_iff (patterns : List Str) (rel : Str) :
    matchAny patterns rel = true ↔
      ∃ pat ∈ patterns,
        globMatches pat (ToSlash rel) ∨ globMatches pat (Base (ToSlash rel)) := by
  unfold matchAny
  cases patterns with
  | nil => simp
  | cons pat rest => simp [matchAnyLoop_iff]

/-- C7. `matchAny` is true exactly when some pattern of the list glob-matches
the slash-normalised relative path or its base name; it is false for the empty
list; a pattern that is malformed for both counts as no match; and the bare
pattern `*.go` matches `a/b/c.go` through the base name `c.go`, not through the
full path, which `*` does not cross. -/
theorem matchAny_spec (patterns : List Str) (rel : Str) :
    (matchAny patterns rel = true ↔
      ∃ pat ∈ patterns,
        globMatches pat (ToSlash rel) ∨ globMatches pat (Base (ToSlash rel))) ∧
    matchAny [] rel = false ∧
    (∀ pat, pathMatch pat (ToSlash rel) = none → pathMatch pat (Base (ToSlash rel)) = none →
      matchAny [pat] rel = false) ∧
    (matchAny [ascii "*.go"] (ascii "a/b/c.go") = true ∧
      ¬ globMatches (ascii "*.go") (ascii "a/b/c.go") ∧
      Base (ascii "a/b/c.go") = ascii "c.go" ∧
      globMatches (ascii "*.go") (ascii "c.go")) := by
  refine ⟨matchAny_iff patterns rel, rfl, ?_, by decide⟩
  intro pat h1 h2
  simp [matchAny, matchAnyLoop, matchOk, h1, h2]

/-- Witness for C7: the pattern `[` is malformed, so it matches nothing. -/
theorem matchAny_spec_witness : matchAny [ascii "["] (ascii "x") = false :=
  (matchAny_spec [] (ascii "x")).2.2.1 (ascii "[") (by decide) (by decide)

/-- C2. `shouldKeep(rel)` is true exactly when `rel` matches no exclude pattern
and the include list is empty or `rel` matches an include pattern; a path
matching both an include and an exclude pattern is not kept, and with an empty
include list everything not excluded is kept. -/
theorem shouldKeep_spec (includes excludes : List Str) (rel : Str) :
    (shouldKeep includes excludes rel = true ↔
      matchAny excludes rel = false ∧ (includes = [] ∨ matchAny includes rel = true)) ∧
    (shouldKeep includes excludes rel = true ↔
      (¬ ∃ pat ∈ excludes,
          globMatches pat (ToSlash rel) ∨ globMatches pat (Base (ToSlash rel))) ∧
      (includes = [] ∨ ∃ pat ∈ includes,
          globMatches pat (ToSlash rel) ∨ globMatches pat (Base (ToSlash rel)))) ∧
    (matchAny includes rel = true → matchAny excludes rel = true →
      shouldKeep includes excludes rel = false) ∧
    (shouldKeep [] excludes rel = true ↔ matchAny excludes rel = false) := by
  have key : shouldKeep includes excludes rel = true ↔
      matchAny excludes rel = false ∧ (includes = [] ∨ matchAny includes rel = true) := by
    unfold shouldKeep
    cases hx : matchAny excludes rel
    · cases includes with
      | nil => simp
      | cons a l => simp
    · simp
  refine ⟨key, ?_, ?_, ?_⟩
  · rw [key, ← matchAny_iff, ← matchAny_iff]
    simp
  · intro _ hx
    simp [shouldKeep, hx]
  · unfold shouldKeep
    cases hx : matchAny excludes rel <;> simp

/-- Witness for C2: `main_test.go` matches the include `*.go` and the exclude
`*_test.go`, and is not kept. -/
theorem shouldKeep_spec_witness :
    shouldKeep [ascii "*.go"] [ascii "*_test.go"] (ascii "main_test.go") = false :=
  (shouldKeep_spec [ascii "*.go"] [ascii "*_test.go"] (ascii "main_test.go")).2.2.1
    (by decide) (by decide)

/-! ### The order of the file list -/

theorem strLess_irrefl (a : Str) : strLess a a = false := by
  induction a with
  | nil => rfl
  | cons x xs ih => simp [strLess, ih]

theorem strLess_trans : ∀ (a b c : Str), strLess a b = true → strLess b c = true →
    strLess a c = true
  | _, [], _, h, _ => by simp [strLess] at h
  | _, _ :: _, [], _, h => by simp [strLess] at h
  | [], _ :: _, _ :: _, _, _ => by simp [strLess]
  | x :: xs, y :: ys, z :: zs, h1, h2 => by
    simp only [strLess] at h1 h2 ⊢
    split at h1
    · split at h2
      · rw [if_pos (by omega)]
      · split at h2
        · simp at h2
        · rw [if_pos (by omega)]
    · split at h1
      · simp at h1
      · split at h2
        · rw [if_pos (by omega)]
        · split at h2
          · simp at h2
          · rw [if_neg (by omega), if_neg (by omega)]
            exact strLess_trans xs ys zs h1 h2

theorem strLess_connected : ∀ (a b : Str), strLess a b = false → strLess b a = false → a = b
  | [], [], _, _ => rfl
  | [], _ :: _, h, _ => by simp [strLess] at h
  | _ :: _, [], _, h => by simp [strLess] at h
  | x :: xs, y :: ys, h1, h2 => by
    simp only [strLess] at h1 h2
    split at h1
    · simp at h1
    · split at h1
      · split at h2
        · simp at h2
        · omega
      · split at h2
        · simp at h2
        · have hxy : x = y := by omega
          rw [hxy, strLess_connected xs ys h1 h2]

theorem strLess_iff_lex (a b : Str) : strLess a b = true ↔ List.Lex (· < ·) a b := by
  induction a generalizing b with
  | nil =>
    cases b with
    | nil => simp [strLess]
    | cons y ys => simp [strLess, List.Lex.nil]
  | cons x xs ih =>
    cases b with
    | nil => simp [strLess]
    | cons y ys =>
      simp only [strLess]
      constructor
      · intro h
        split at h
        · exact List.Lex.rel (by assumption)
        · split at h
          · simp at h
          · have hxy : x = y := by omega
            subst hxy
            exact List.Lex.cons ((ih ys).mp h)
      · intro h
        cases h with
        | rel hlt => rw [if_pos hlt]
        | cons hl => rw [if_neg (lt_irrefl x), if_neg (lt_irrefl x)]; exact (ih ys).mpr hl

theorem mem_insertSorted (x p : Str) (l : List Str) :
    x ∈ insertSorted p l ↔ x = p ∨ x ∈ l := by
  induction l with
  | nil => simp [insertSorted]
  | cons q qs ih =>
    simp only [insertSorted]
    split
    · simp only [List.mem_cons, ih]
      tauto
    · simp only [List.mem_cons]

theorem mem_sortStrings (x : Str) (l : List Str) : x ∈ sortStrings l ↔ x ∈ l := by
  induction l with
  | nil => simp [sortStrings]
  | cons p ps ih => simp [sortStrings, mem_insertSorted, ih]

theorem pairwise_insertSorted (p : Str) (l : List Str)
    (hl : l.Pairwise (fun a b => strLess a b = true)) (hp : p ∉ l) :
    (insertSorted p l).Pairwise (fun a b => strLess a b = true) := by
  induction l with
  | nil => simp [insertSorted]
  | cons q qs ih =>
    rw [List.pairwise_cons] at hl
    simp only [List.mem_cons, not_or] at hp
    simp only [insertSorted]
    by_cases hqp : strLess q p = true
    · rw [if_pos hqp, List.pairwise_cons]
      refine ⟨?_, ih hl.2 hp.2⟩
      intro x hx
      rcases (mem_insertSorted x p qs).mp hx with rfl | hx
      · exact hqp
      · exact hl.1 x hx
    · rw [if_neg hqp]
      have hpq : strLess p q = true := by
        by_contra hne
        exact hp.1 (strLess_connected p q (by simpa using hne) (by simpa using hqp))
      rw [List.pairwise_cons]
      refine ⟨?_, List.pairwise_cons.mpr hl⟩
      intro x hx
      rcases List.mem_cons.mp hx with rfl | hx
      · exact hpq
      · exact strLess_trans p q x hpq (hl.1 x hx)

theorem pairwise_sortStrings (l : List Str) (hl : l.Nodup) :
    (sortStrings l).Pairwise (fun a b => strLess a b = true) := by
  induction l with
  | nil => simp [sortStrings]
  | cons p ps ih =>
    rw [List.nodup_cons] at hl
    simp only [sortStrings]
    exact pairwise_insertSorted p _ (ih hl.2) (by simpa [mem_sortStrings] using hl.1)

theorem add_distinct (st : AddState) (p : Str) (h : st.Distinct) : (add st p).Distinct := by
  unfold add
  split
  · exact h
  · rename_i hp
    refine ⟨?_, ?_⟩
    · simp only
      rw [List.nodup_append]
      refine ⟨h.1, by simp, ?_⟩
      intro a ha hb
      simp only [List.mem_singleton] at hb
      subst hb
      exact hp (h.2 _ ha)
    · intro q hq
      simp only [List.mem_append, List.mem_singleton] at hq
      rcases hq with hq | rfl
      · exact List.mem_cons_of_mem _ (h.2 q hq)
      · exact List.mem_cons_self _ _

/-- A property of the state that `add` preserves is preserved by the callback,
the walk and the loop over the inputs. -/
theorem walkFn_preserves (P : AddState → Prop) (hadd : ∀ st p, P st → P (add st p))
    (root : Str) (inc exc : List Str) (st : AddState) (p : Str) (isDir : Bool) (h : P st) :
    P (walkFn root inc exc st p isDir).1 := by
  unfold walkFn
  simp only
  split
  · exact h
  · split
    · exact h
    · exact hadd st p h

theorem walkListing_preserves (P : AddState → Prop) (hadd : ∀ st p, P st → P (add st p))
    (root : Str) (inc exc : List Str) (path : Str) (entries : Listing) (st : AddState)
    (h : P st) : P (walkListing root inc exc path entries st) := by
  induction entries generalizing path st with
  | nil => simpa [walkListing] using h
  | file name rest ih =>
    simp only [walkListing]
    exact ih _ _ (walkFn_preserves P hadd root inc exc st _ false h)
  | dir name children rest ihc ihr =>
    simp only [walkListing]
    apply ihr
    split
    · exact walkFn_preserves P hadd root inc exc st _ true h
    · exact ihc _ _ (walkFn_preserves P hadd root inc exc st _ true h)

theorem collectInput_preserves (P : AddState → Prop) (hadd : ∀ st p, P st → P (add st p))
    (root : Str) (inc exc : List Str) (st : AddState) (inp : Input) (h : P st) :
    P (collectInput root inc exc st inp) := by
  cases inp with
  | unresolved => exact h
  | file ap =>
    simp only [collectInput]
    split
    · exact hadd st ap h
    · exact h
  | dir ap entries =>
    simp only [collectInput, WalkDir]
    split
    · exact walkFn_preserves P hadd root inc exc st _ true h
    · exact walkListing_preserves P hadd root inc exc _ _ _
        (walkFn_preserves P hadd root inc exc st _ true h)

theorem foldl_collectInput_preserves (P : AddState → Prop)
    (hadd : ∀ st p, P st → P (add st p)) (root : Str) (inc exc : List Str)
    (inputs : List Input) (st : AddState) (h : P st) :
    P (inputs.foldl (collectInput root inc exc) st) := by
  induction inputs generalizing st with
  | nil => exact h
  | cons inp rest ih =>
    simp only [List.foldl_cons]
    exact ih _ (collectInput_preserves P hadd root inc exc st inp h)

/-- C4. The path list `CollectFiles` returns is strictly ascending in the
byte-wise lexicographic order of the paths: it is sorted and holds no path
twice, also when a file is reachable from several inputs, such as `/r/a.go`
given directly and through its directory `/r`. -/
theorem CollectFiles_strictly_ascending (root : Str) (inputs : List Input)
    (includes excludes : List Str) :
    (CollectFiles root inputs includes excludes).Pairwise (fun a b => strLess a b = true) ∧
    (CollectFiles root inputs includes excludes).Pairwise (fun a b => List.Lex (· < ·) a b) ∧
    (CollectFiles root inputs includes excludes).Nodup ∧
    CollectFiles (ascii "/r")
        [.file (ascii "/r/a.go"), .dir (ascii "/r") (.file (ascii "a.go") .nil),
         .file (ascii "/r/a.go")] [] []
      = [ascii "/r/a.go"] := by
  have hd : (inputs.foldl (collectInput root includes excludes) AddState.empty).Distinct :=
    foldl_collectInput_preserves AddState.Distinct add_distinct root includes excludes inputs
      AddState.empty ⟨List.nodup_nil, by simp [AddState.empty]⟩
  have hs := pairwise_sortStrings _ hd.1
  refine ⟨hs, ?_, ?_, by decide⟩
  · exact hs.imp (fun h => (strLess_iff_lex _ _).mp h)
  · refine hs.imp ?_
    intro a b h hab
    subst hab
    simp [strLess_irrefl] at h

/-! ### Paths of a walk -/

theorem splitOn_noslash (e : Str) (h : 47 ∉ e) : splitOn 47 e = [e] := by
  induction e with
  | nil => rfl
  | cons c cs ih =>
    simp only [List.mem_cons, not_or] at h
    have hc : c ≠ 47 := fun hc => h.1 hc.symm
    simp [splitOn, hc, ih h.2]

theorem splitOn_append (e r : Str) (h : 47 ∉ e) :
    splitOn 47 (e ++ 47 :: r) = e :: splitOn 47 r := by
  induction e with
  | nil => simp [splitOn]
  | cons c cs ih =>
    simp only [List.mem_cons, not_or] at h
    have hc : c ≠ 47 := fun hc => h.1 hc.symm
    simp [splitOn, hc, ih h.2]

theorem splitOn_joinSlash (es : List Str) (hne : es ≠ []) (h : ∀ e ∈ es, 47 ∉ e) :
    splitOn 47 (joinSlash es) = es := by
  induction es with
  | nil => exact absurd rfl hne
  | cons e rest ih =>
    cases rest with
    | nil => simpa [joinSlash] using splitOn_noslash e (h e (List.mem_cons_self _ _))
    | cons e2 rest2 =>
      simp only [joinSlash]
      rw [splitOn_append e _ (h e (List.mem_cons_self _ _)),
        ih (by simp) (fun x hx => h x (List.mem_cons_of_mem _ hx))]

theorem validName_noslash (n : Str) (h : validName n = true) : 47 ∉ n := by
  simp [validName] at h
  exact h.2.2.2

theorem cleanElems_valid (r : Bool) (es out : List Str) (h : ∀ e ∈ es, validName e = true) :
    cleanElems r es out = es.reverse ++ out := by
  induction es generalizing out with
  | nil => simp [cleanElems]
  | cons e rest ih =>
    have he := h e (List.mem_cons_self _ _)
    simp only [validName, decide_eq_true_eq] at he
    simp only [cleanElems]
    rw [if_neg (by tauto), if_neg (by tauto), ih _ (fun x hx => h x (List.mem_cons_of_mem _ hx))]
    simp

theorem cleanElems_skip_nil (r : Bool) (es out : List Str) :
    cleanElems r ([] :: es) out = cleanElems r es out := by
  simp [cleanElems]

theorem Clean_absPath (es : List Str) (h : ∀ e ∈ es, validName e = true) :
    Clean (absPath es) = absPath es := by
  unfold Clean absPath
  simp only [decide_True, if_true]
  cases es with
  | nil => simp [joinSlash, splitOn, cleanElems]
  | cons e rest =>
    have hs : splitOn 47 (47 :: joinSlash (e :: rest)) = [] :: (e :: rest) := by
      rw [show splitOn 47 (47 :: joinSlash (e :: rest))
            = [] :: splitOn 47 (joinSlash (e :: rest)) by simp [splitOn]]
      rw [splitOn_joinSlash _ (by simp) (fun x hx => validName_noslash x (h x hx))]
    rw [hs, cleanElems_skip_nil, cleanElems_valid _ _ _ h]
    simp

theorem joinSlash_snoc (es : List Str) (n : Str) (hne : es ≠ []) :
    joinSlash (es ++ [n]) = joinSlash es ++ 47 :: n := by
  induction es with
  | nil => exact absurd rfl hne
  | cons e rest ih =>
    cases rest with
    | nil => simp [joinSlash]
    | cons e2 rest2 =>
      have := ih (by simp)
      simp only [List.cons_append, joinSlash, List.append_eq] at this ⊢
      rw [this]
      simp

theorem Join_absPath (es : List Str) (n : Str) (h : ∀ e ∈ es, validName e = true)
    (hn : validName n = true) : Join [absPath es, n] = absPath (es ++ [n]) := by
  have hvalid : ∀ e ∈ es ++ [n], validName e = true := by
    intro e he
    rcases List.mem_append.mp he with he | he
    · exact h e he
    · simp only [List.mem_singleton] at he
      rw [he]
      exact hn
  have hj : Join [absPath es, n] = Clean (absPath es ++ 47 :: n) := by
    simp [Join, absPath, joinSlash]
  rw [hj]
  cases es with
  | nil =>
    have hn2 := hn
    simp only [validName, decide_eq_true_eq] at hn2
    have hs : splitOn 47 (47 :: 47 :: n) = [[], [], n] := by
      simp [splitOn, splitOn_noslash n hn2.2.2.2]
    simp only [absPath, joinSlash, List.nil_append, List.cons_append, Clean, decide_True,
      if_true, hs, cleanElems_skip_nil]
    simp [cleanElems, joinSlash, hn2.1, hn2.2.1, hn2.2.2.1]
  | cons e rest =>
    have : absPath (e :: rest) ++ 47 :: n = absPath ((e :: rest) ++ [n]) := by
      unfold absPath
      rw [joinSlash_snoc _ _ (by simp)]
      simp
    rw [this]
    exact Clean_absPath _ hvalid

theorem absPath_eq_rooted (es : List Str) (hne : es ≠ []) : absPath es = rooted es := by
  induction es with
  | nil => exact absurd rfl hne
  | cons e rest ih =>
    cases rest with
    | nil => simp [absPath, rooted, joinSlash]
    | cons e2 rest2 =>
      have := ih (by simp)
      simp only [absPath, joinSlash, rooted] at this ⊢
      rw [← this]
      simp

theorem rooted_head (es : List Str) : rooted es = [] ∨ (rooted es).head? = some 47 := by
  cases es with
  | nil => left; rfl
  | cons e rest => right; simp [rooted]

/-- Two elements without separator that are followed by a separator (or the
end) agree when one continuation is a prefix of the other. -/
theorem prefix_aligned (c q X Y : Str) (hc : 47 ∉ c) (hq : 47 ∉ q)
    (hX : X.head? = some 47) (hY : Y = [] ∨ Y.head? = some 47) (h : c ++ X <+: q ++ Y) :
    c = q ∧ X <+: Y := by
  induction c generalizing q with
  | nil =>
    cases q with
    | nil => exact ⟨rfl, by simpa using h⟩
    | cons b q2 =>
      exfalso
      cases X with
      | nil => simp at hX
      | cons x X2 =>
        simp only [List.head?_cons, Option.some.injEq] at hX
        simp only [List.nil_append, List.cons_append, List.cons_prefix_cons] at h
        exact hq (by rw [← h.1, hX]; exact List.mem_cons_self _ _)
  | cons a c2 ih =>
    simp only [List.mem_cons, not_or] at hc
    cases q with
    | nil =>
      exfalso
      rcases hY with hY | hY
      · subst hY
        simp at h
      · cases Y with
        | nil => simp at hY
        | cons y Y2 =>
          simp only [List.head?_cons, Option.some.injEq] at hY
          simp only [List.nil_append, List.cons_append, List.cons_prefix_cons] at h
          exact hc.1 (by rw [h.1, hY])
    | cons b q2 =>
      simp only [List.mem_cons, not_or] at hq
      simp only [List.cons_append, List.cons_prefix_cons] at h
      obtain ⟨hcq, hpre⟩ := ih q2 hc.2 hq.2 h.2
      exact ⟨by rw [h.1, hcq], hpre⟩

theorem prefix_of_rooted (cs qs : List Str) (hcs : ∀ c ∈ cs, validName c = true)
    (hqs : ∀ q ∈ qs, validName q = true) (h : rooted cs ++ [47] <+: rooted qs) :
    ∃ ms, ms ≠ [] ∧ qs = cs ++ ms := by
  induction cs generalizing qs with
  | nil =>
    refine ⟨qs, ?_, by simp⟩
    rintro rfl
    simp [rooted] at h
  | cons c cs2 ih =>
    cases qs with
    | nil => simp [rooted] at h
    | cons q qs2 =>
      simp only [rooted, List.cons_append, List.cons_prefix_cons, true_and,
        List.append_assoc] at h
      have hX : (rooted cs2 ++ [47]).head? = some 47 := by
        rcases rooted_head cs2 with h0 | h0
        · rw [h0]; rfl
        · cases hr : rooted cs2 with
          | nil => rfl
          | cons x xs => rw [hr] at h0; simpa using h0
      obtain ⟨hcq, hpre⟩ := prefix_aligned c q _ _
        (validName_noslash c (hcs c (List.mem_cons_self _ _)))
        (validName_noslash q (hqs q (List.mem_cons_self _ _))) hX (rooted_head qs2) h
      obtain ⟨ms, hms, hq2⟩ := ih qs2 (fun x hx => hcs x (List.mem_cons_of_mem _ hx))
        (fun x hx => hqs x (List.mem_cons_of_mem _ hx)) hpre
      exact ⟨ms, hms, by rw [hcq, hq2]; rfl⟩

/-- A path that lies below the directory `absPath cs` has the elements `cs` and
at least one more. -/
theorem elems_of_below (cs qs : List Str) (hcs : ∀ c ∈ cs, validName c = true)
    (hqs : ∀ q ∈ qs, validName q = true) (h : absPath cs ++ [47] <+: absPath qs) :
    ∃ ms, ms ≠ [] ∧ qs = cs ++ ms := by
  cases qs with
  | nil =>
    exfalso
    have := h.length_le
    simp [absPath, joinSlash] at this
  | cons q qs2 =>
    cases cs with
    | nil => exact ⟨q :: qs2, by simp, by simp⟩
    | cons c cs2 =>
      rw [absPath_eq_rooted _ (by simp), absPath_eq_rooted _ (by simp)] at h
      exact prefix_of_rooted _ _ hcs hqs h

theorem prefix_of_snoc (cs ps ms : List Str) (n : Str) (hms : ms ≠ [])
    (h : ps ++ [n] = cs ++ ms) : cs <+: ps := by
  rcases List.eq_nil_or_concat ms with h0 | ⟨L, b, hL⟩
  · exact absurd h0 hms
  · rw [hL, List.concat_eq_append, ← List.append_assoc] at h
    have := List.append_inj' h rfl
    exact ⟨L, this.1.symm⟩

/-! ### Directory pruning -/

theorem add_files (st : AddState) (p q : Str) (h : q ∈ (add st p).files) :
    q ∈ st.files ∨ q = p := by
  unfold add at h
  split at h
  · exact Or.inl h
  · simpa using h

theorem walkListing_below (root : Str) (inc exc : List Str) (cs : List Str)
    (hcs : ∀ c ∈ cs, validName c = true) (entries : Listing) :
    ∀ (ps : List Str) (st : AddState), entries.wellNamed = true →
      (∀ e ∈ ps, validName e = true) →
      (cs <+: ps → passes root inc exc (absPath cs)) →
      belowOnlyIfPasses root inc exc (absPath cs) st →
      belowOnlyIfPasses root inc exc (absPath cs)
        (walkListing root inc exc (absPath ps) entries st) := by
  induction entries with
  | nil => intro ps st _ _ _ h; simpa [walkListing] using h
  | file name rest ih =>
    intro ps st hw hps hA hst
    simp only [Listing.wellNamed, Bool.and_eq_true] at hw
    simp only [walkListing]
    rw [Join_absPath ps name hps hw.1]
    apply ih ps _ hw.2 hps hA
    unfold walkFn
    simp only
    split
    · exact hst
    · split
      · exact hst
      · intro q hq hpre
        rcases add_files _ _ _ hq with hq | rfl
        · exact hst q hq hpre
        · have hv : ∀ e ∈ ps ++ [name], validName e = true := by
            intro e he
            rcases List.mem_append.mp he with he | he
            · exact hps e he
            · simp only [List.mem_singleton] at he
              rw [he]; exact hw.1
          obtain ⟨ms, hms, heq⟩ := elems_of_below cs (ps ++ [name]) hcs hv hpre
          exact hA (prefix_of_snoc cs ps ms name hms heq)
  | dir name children rest ihc ihr =>
    intro ps st hw hps hA hst
    simp only [Listing.wellNamed, Bool.and_eq_true] at hw
    simp only [walkListing]
    rw [Join_absPath ps name hps hw.1.1]
    apply ihr ps _ hw.2 hps hA
    have hv : ∀ e ∈ ps ++ [name], validName e = true := by
      intro e he
      rcases List.mem_append.mp he with he | he
      · exact hps e he
      · simp only [List.mem_singleton] at he
        rw [he]; exact hw.1.1
    have hadd : belowOnlyIfPasses root inc exc (absPath cs) (add st (absPath (ps ++ [name]))) := by
      intro q hq hpre
      rcases add_files _ _ _ hq with hq | rfl
      · exact hst q hq hpre
      · obtain ⟨ms, hms, heq⟩ := elems_of_below cs (ps ++ [name]) hcs hv hpre
        exact hA (prefix_of_snoc cs ps ms name hms heq)
    have hA2 : passes root inc exc (absPath (ps ++ [name])) →
        cs <+: ps ++ [name] → passes root inc exc (absPath cs) := by
      intro hp hpre
      rcases List.prefix_concat_iff.mp hpre with h1 | h1
      · rw [h1]; exact hp
      · exact hA h1
    unfold walkFn
    simp only
    by_cases hrel : relOf root (absPath (ps ++ [name])) = [46]
    · simp only [hrel, if_true, Bool.false_eq_true, if_false]
      exact ihc (ps ++ [name]) st hw.1.2 hv (hA2 (Or.inl hrel)) hst
    · simp only [hrel, if_false]
      cases hk : shouldKeep inc exc (relOf root (absPath (ps ++ [name])))
      · simpa using hst
      · simp only [Bool.not_true, Bool.false_eq_true, if_false]
        exact ihc (ps ++ [name]) _ hw.1.2 hv (hA2 (Or.inr hk)) hadd

theorem WalkDir_below (root : Str) (inc exc : List Str) (cs base : List Str)
    (hcs : ∀ c ∈ cs, validName c = true) (hb : ∀ e ∈ base, validName e = true)
    (hbase : cs <+: base → cs = base) (entries : Listing)
    (hw : entries.wellNamed = true) (st : AddState)
    (hst : belowOnlyIfPasses root inc exc (absPath cs) st) :
    belowOnlyIfPasses root inc exc (absPath cs)
      (WalkDir root inc exc (absPath base) entries st) := by
  have hA : passes root inc exc (absPath base) → cs <+: base →
      passes root inc exc (absPath cs) := by
    intro hp hpre
    rw [hbase hpre]; exact hp
  have hadd : belowOnlyIfPasses root inc exc (absPath cs) (add st (absPath base)) := by
    intro q hq hpre
    rcases add_files _ _ _ hq with hq | rfl
    · exact hst q hq hpre
    · exfalso
      obtain ⟨ms, hms, heq⟩ := elems_of_below cs base hcs hb hpre
      have h2 := congrArg List.length (hbase ⟨ms, heq.symm⟩)
      have h3 := congrArg List.length heq
      simp only [List.length_append] at h3
      have : ms.length = 0 := by omega
      exact hms (List.length_eq_zero.mp this)
  unfold WalkDir walkFn
  simp only
  by_cases hrel : relOf root (absPath base) = [46]
  · simp only [hrel, if_true, Bool.false_eq_true, if_false]
    exact walkListing_below root inc exc cs hcs entries base st hw hb (hA (Or.inl hrel)) hst
  · simp only [hrel, if_false]
    cases hk : shouldKeep inc exc (relOf root (absPath base))
    · simpa using hst
    · simp only [Bool.not_true, Bool.false_eq_true, if_false]
      exact walkListing_below root inc exc cs hcs entries base _ hw hb (hA (Or.inr hk)) hadd

/-- C3, as amended. Directory pruning: if a directory `d`, not being the root
itself, fails `shouldKeep`, then no path below `d` is in the list `CollectFiles`
returns, whatever the descendants match, provided no input names a path below
`d` itself. -/
theorem pruning_within_walks (root : Str) (includes excludes : List Str)
    (inputs : List Input) (cs : List Str) (q : Str)
    (hcs : ∀ c ∈ cs, validName c = true)
    (hin : ∀ inp ∈ inputs, notBelow cs inp)
    (hrel : relOf root (absPath cs) ≠ [46])
    (hfail : shouldKeep includes excludes (relOf root (absPath cs)) = false)
    (hbelow : absPath cs ++ [47] <+: q) :
    q ∉ CollectFiles root inputs includes excludes := by
  have key : ∀ (l : List Input) (st : AddState), (∀ inp ∈ l, notBelow cs inp) →
      belowOnlyIfPasses root includes excludes (absPath cs) st →
      belowOnlyIfPasses root includes excludes (absPath cs)
        (l.foldl (collectInput root includes excludes) st) := by
    intro l
    induction l with
    | nil => intro st _ h; exact h
    | cons inp rest ih =>
      intro st hl hst
      simp only [List.foldl_cons]
      apply ih _ (fun x hx => hl x (List.mem_cons_of_mem _ hx))
      have h0 := hl inp (List.mem_cons_self _ _)
      cases inp with
      | unresolved => exact hst
      | file ap =>
        simp only [notBelow] at h0
        simp only [collectInput]
        split
        · intro x hx hpre
          rcases add_files _ _ _ hx with hx | rfl
          · exact hst x hx hpre
          · exact absurd hpre h0
        · exact hst
      | dir ap entries =>
        obtain ⟨base, hap, hb, hbase, hw⟩ := h0
        rw [hap]
        exact WalkDir_below root includes excludes cs base hcs hb hbase entries hw st hst
  intro hq
  have hq2 : q ∈ (inputs.foldl (collectInput root includes excludes) AddState.empty).files :=
    (mem_sortStrings q _).mp hq
  have hp := key inputs AddState.empty hin (by intro x hx; simp [AddState.empty] at hx)
    q hq2 hbelow
  rcases hp with hp | hp
  · exact hrel hp
  · rw [hfail] at hp
    exact Bool.false_ne_true hp

/-- Witness for C3: walking `/r` with the exclude `vendor`, and `/r/main.go`
given as well, does not return `/r/vendor/x.go`. -/
theorem pruning_within_walks_witness :
    ascii "/r/vendor/x.go" ∉
      CollectFiles (ascii "/r")
        [.dir (ascii "/r") (.dir (ascii "vendor") (.file (ascii "x.go") .nil) .nil),
         .file (ascii "/r/main.go")]
        [] [ascii "vendor"] :=
  pruning_within_walks (ascii "/r") [] [ascii "vendor"]
    [.dir (ascii "/r") (.dir (ascii "vendor") (.file (ascii "x.go") .nil) .nil),
     .file (ascii "/r/main.go")]
    [ascii "r", ascii "vendor"] (ascii "/r/vendor/x.go")
    (by decide)
    (by
      intro inp h
      simp only [List.mem_cons, List.mem_singleton, List.not_mem_nil, or_false] at h
      rcases h with h | h
      · rw [h]
        exact ⟨[ascii "r"], by decide, by decide, by decide, by decide⟩
      · rw [h]
        show ¬ absPath [ascii "r", ascii "vendor"] ++ [47] <+: ascii "/r/main.go"
        decide)
    (by decide) (by decide) (by decide)

/-- C3, counterexample. The directory `/r/vendor` fails `shouldKeep` under the
exclude `vendor` and is pruned from the walk of `/r`, yet `/r/vendor/x.go`,
also given as an input of its own, is in the returned list.  And the root `/r`,
whose relative path `.` fails `shouldKeep` under the include `*.go`, is never
tested: `/r/a.go` below it is returned. -/
theorem pruning_counterexample :
    (shouldKeep [] [ascii "vendor"] (relOf (ascii "/r") (ascii "/r/vendor")) = false ∧
      ascii "/r/vendor/x.go" ∈
        CollectFiles (ascii "/r")
          [.dir (ascii "/r") (.dir (ascii "vendor") (.file (ascii "x.go") .nil) .nil),
           .file (ascii "/r/vendor/x.go")]
          [] [ascii "vendor"]) ∧
    (shouldKeep [ascii "*.go"] [] (relOf (ascii "/r") (ascii "/r")) = false ∧
      ascii "/r/a.go" ∈
        CollectFiles (ascii "/r") [.dir (ascii "/r") (.file (ascii "a.go") .nil)]
          [ascii "*.go"] []) := by
  decide

/-! ### Root resolution -/

theorem resolveScan_first_directory (cwd : Str) (isDir : Str → Bool) (pre : List Str)
    (d : Str) (post dirs : List Str) (hpre : ∀ p ∈ pre, isDir (Abs cwd p) = false)
    (hd : isDir (Abs cwd d) = true) :
    resolveScan cwd isDir (pre ++ d :: post) dirs = .inl (Abs cwd d) := by
  induction pre generalizing dirs with
  | nil => simp [resolveScan, hd]
  | cons p rest ih =>
    have hp := hpre p (List.mem_cons_self _ _)
    simp only [List.cons_append, resolveScan, hp, Bool.false_eq_true, if_false]
    exact ih _ (fun x hx => hpre x (List.mem_cons_of_mem _ hx))

/-- The first directory among the inputs is the root. -/
theorem ResolveRoot_first_directory (cwd : Str) (isDir : Str → Bool) (pre : List Str)
    (d : Str) (post : List Str) (hpre : ∀ p ∈ pre, isDir (Abs cwd p) = false)
    (hd : isDir (Abs cwd d) = true) :
    ResolveRoot cwd isDir (pre ++ d :: post) = Abs cwd d := by
  unfold ResolveRoot
  rw [resolveScan_first_directory cwd isDir pre d post [] hpre hd]

/-- The root of a single file is its parent directory. -/
theorem ResolveRoot_single_file (cwd : Str) (isDir : Str → Bool) (p : Str)
    (hp : isDir (Abs cwd p) = false) : ResolveRoot cwd isDir [p] = Dir (Abs cwd p) := by
  simp [ResolveRoot, resolveScan, hp]

/-- The fields of a split at the separator hold no separator. -/
theorem splitOn_noslash_elems (p : Str) : ∀ e ∈ splitOn 47 p, 47 ∉ e := by
  induction p with
  | nil => simp [splitOn]
  | cons c cs ih =>
    simp only [splitOn]
    split
    · intro e he
      rcases List.mem_cons.mp he with rfl | he
      · simp
      · exact ih e he
    · rename_i hc
      split
      · intro e he
        simp only [List.mem_singleton] at he
        subst he
        simp only [List.mem_singleton]
        exact fun h => hc h.symm
      · rename_i h t heq
        rw [heq] at ih
        intro e he
        rcases List.mem_cons.mp he with rfl | he
        · simp only [List.mem_cons, not_or]
          exact ⟨fun h => hc h.symm, ih _ (List.mem_cons_self _ _)⟩
        · exact ih e (List.mem_cons_of_mem _ he)

theorem cleanElems_elems (r : Bool) (es : List Str) : ∀ (out : List Str),
    (∀ e ∈ es, 47 ∉ e) → (∀ e ∈ out, e ≠ [] ∧ 47 ∉ e) →
    ∀ e ∈ cleanElems r es out, e ≠ [] ∧ 47 ∉ e := by
  induction es with
  | nil => intro out _ hout; simpa [cleanElems] using hout
  | cons x rest ih =>
    intro out hes hout
    have hx := hes x (List.mem_cons_self _ _)
    have hrest : ∀ e ∈ rest, 47 ∉ e := fun e he => hes e (List.mem_cons_of_mem _ he)
    simp only [cleanElems]
    split
    · exact ih out hrest hout
    · rename_i hne
      have hx0 : x ≠ [] := fun h => hne (Or.inl h)
      have hpush : ∀ e ∈ x :: out, e ≠ [] ∧ 47 ∉ e := by
        intro e he
        rcases List.mem_cons.mp he with rfl | he
        · exact ⟨hx0, hx⟩
        · exact hout e he
      split
      · split
        · rename_i top below
          split
          · exact ih _ hrest hpush
          · exact ih _ hrest (fun e he => hout e (List.mem_cons_of_mem _ he))
        · split
          · exact ih _ hrest (by simp)
          · refine ih _ hrest ?_
            intro e he
            simp only [List.mem_singleton] at he
            subst he
            exact ⟨hx0, hx⟩
      · exact ih _ hrest hpush

theorem joinSlash_head (e : Str) (es : List Str) (he : e ≠ []) :
    (joinSlash (e :: es)).head? = e.head? := by
  cases e with
  | nil => exact absurd rfl he
  | cons c cs => cases es <;> simp [joinSlash]

theorem head_ne_slash (e : Str) (he : 47 ∉ e) : e.head? ≠ some 47 := by
  cases e with
  | nil => simp
  | cons c cs =>
    simp only [List.mem_cons, not_or] at he
    simp only [List.head?_cons, ne_eq, Option.some.injEq]
    exact fun h => he.1 h.symm

/-- `Clean` does not make a relative path absolute. -/
theorem Clean_relative (p : Str) (hp : p.head? ≠ some 47) : IsAbs (Clean p) = false := by
  cases p with
  | nil => simp [Clean, IsAbs]
  | cons c cs =>
    have hc : c ≠ 47 := by simpa using hp
    simp only [Clean, hc, decide_False, Bool.false_eq_true, if_false]
    split
    · simp [IsAbs]
    · rename_i hbody
      have hel := cleanElems_elems false (splitOn 47 (c :: cs)) []
        (splitOn_noslash_elems _) (by simp)
      cases hr : (cleanElems false (splitOn 47 (c :: cs)) []).reverse with
      | nil => rw [hr] at hbody; simp [joinSlash] at hbody
      | cons e es =>
        have he : e ∈ cleanElems false (splitOn 47 (c :: cs)) [] := by
          rw [← List.mem_reverse, hr]
          exact List.mem_cons_self _ _
        obtain ⟨he0, hes⟩ := hel e he
        have := head_ne_slash e hes
        simp only [IsAbs, joinSlash_head e es he0]
        simpa using this

/-- `Join` of elements without separator is not absolute. -/
theorem Join_relative (es : List Str) (h : ∀ e ∈ es, 47 ∉ e) : IsAbs (Join es) = false := by
  induction es with
  | nil => simp [Join, IsAbs]
  | cons e rest ih =>
    simp only [Join]
    split
    · exact ih (fun x hx => h x (List.mem_cons_of_mem _ hx))
    · rename_i he
      apply Clean_relative
      rw [joinSlash_head e rest he]
      exact head_ne_slash e (h e (List.mem_cons_self _ _))

/-- `commonBase` never returns an absolute path. -/
theorem commonBase_relative (a b : Str) : IsAbs (commonBase a b) = false := by
  unfold commonBase
  apply Join_relative
  intro e he
  exact splitOn_noslash_elems _ e (List.mem_of_mem_take he)

/-- Given two or more inputs, none a directory, `ResolveRoot` does not return an
absolute path. -/
theorem ResolveRoot_files_relative (cwd : Str) (isDir : Str → Bool) (p1 p2 : Str)
    (rest : List Str) (h : ∀ p ∈ p1 :: p2 :: rest, isDir (Abs cwd p) = false) :
    IsAbs (ResolveRoot cwd isDir (p1 :: p2 :: rest)) = false := by
  have hscan : ∀ (l dirs : List Str), (∀ p ∈ l, isDir (Abs cwd p) = false) →
      resolveScan cwd isDir l dirs = .inr (dirs ++ l.map (fun p => Dir (Abs cwd p))) := by
    intro l
    induction l with
    | nil => intro dirs _; simp [resolveScan]
    | cons p ps ih =>
      intro dirs hl
      simp only [resolveScan, hl p (List.mem_cons_self _ _), Bool.false_eq_true, if_false]
      rw [ih _ (fun x hx => hl x (List.mem_cons_of_mem _ hx))]
      simp
  have hfold : ∀ (ds : List Str) (d e : Str),
      IsAbs ((e :: ds).foldl commonBase d) = false := by
    intro ds
    induction ds with
    | nil => intro d e; exact commonBase_relative d e
    | cons x xs ih => intro d e; exact ih (commonBase d e) x
  unfold ResolveRoot
  rw [hscan _ [] h]
  exact hfold _ _ _

/-- C10, at a failing input. For the files `/r/x/a.go` and `/r/y/b.go`
`ResolveRoot` returns the relative path `r`, not their common ancestor `/r`:
`commonBase` joins the elements `["", "r"]`, and `Join` drops the empty first
element; `commonBase` never returns an absolute path.  Two files of one
directory `/r` give `r` as well.  For a single file it returns the parent
directory, and a directory among the inputs is returned as it is. -/
theorem ResolveRoot_common_parent :
    ResolveRoot (ascii "/w") (fun _ => false) [ascii "/r/x/a.go", ascii "/r/y/b.go"]
      = ascii "r" ∧
    Dir (Abs (ascii "/w") (ascii "/r/x/a.go")) = ascii "/r/x" ∧
    Dir (Abs (ascii "/w") (ascii "/r/y/b.go")) = ascii "/r/y" ∧
    splitOn 47 (Clean (ascii "/r/x")) = [[], ascii "r", ascii "x"] ∧
    commonBase (ascii "/r/x") (ascii "/r/y") = Join [[], ascii "r"] ∧
    Join [[], ascii "r"] = ascii "r" ∧
    ResolveRoot (ascii "/w") (fun _ => false) [ascii "/r/a.go", ascii "/r/b.go"]
      = ascii "r" ∧
    ResolveRoot (ascii "/w") (fun _ => false) [ascii "/r/x/a.go"] = ascii "/r/x" ∧
    ResolveRoot (ascii "/w") (fun p => p = ascii "/r/y")
        [ascii "/r/x/a.go", ascii "/r/y", ascii "/r/z"] = ascii "/r/y" ∧
    ∀ a b : Str, IsAbs (commonBase a b) = false := by
  refine ⟨by decide, by decide, by decide, by decide, by decide, by decide, by decide,
    by decide, by decide, commonBase_relative⟩

/-! ### The iterations of the loop -/

theorem loopBody_root (rootAbs : Str) (maxFileSize : Nat) (maxTokens : Int) (st : LoopState)
    (p : Str) (os : OsFile) (hrel : relOf rootAbs p = [46]) :
    loopBody rootAbs maxFileSize maxTokens st p os = (st, false) := by
  simp [loopBody, hrel]

theorem loopBody_directory (rootAbs : Str) (maxFileSize : Nat) (maxTokens : Int)
    (st : LoopState) (p : Str) :
    loopBody rootAbs maxFileSize maxTokens st p .directory = (st, false) := by
  simp [loopBody]

theorem loopBody_statFails (rootAbs : Str) (maxFileSize : Nat) (maxTokens : Int)
    (st : LoopState) (p msg : Str) (hrel : relOf rootAbs p ≠ [46]) :
    loopBody rootAbs maxFileSize maxTokens st p (.statFails msg)
      = ({ st with Files := st.Files ++
            [⟨ToSlash (relOf rootAbs p), 0, false, false, [], [], msg⟩] }, false) := by
  simp [loopBody, hrel]

theorem loopBody_openFails (rootAbs : Str) (maxFileSize : Nat) (maxTokens : Int)
    (st : LoopState) (p : Str) (size : Int) (msg : Str) (hrel : relOf rootAbs p ≠ [46]) :
    loopBody rootAbs maxFileSize maxTokens st p (.openFails size msg)
      = ({ st with Files := st.Files ++
            [⟨ToSlash (relOf rootAbs p), size, false, false, [], [], msg⟩] }, false) := by
  simp [loopBody, hrel]

theorem loopBody_regular (rootAbs : Str) (maxFileSize : Nat) (maxTokens : Int)
    (st : LoopState) (p : Str) (size : Int) (f : OpenFile) (hrel : relOf rootAbs p ≠ [46]) :
    loopBody rootAbs maxFileSize maxTokens st p (.regular size f)
      = if 0 < maxTokens ∧ maxTokens <
            ((st.totalTokens
              + EstimateTokens (readEntry (relOf rootAbs p) size maxFileSize f).Content : Nat) : Int)
        then
          ({ Files := st.Files ++ [omittedEntry (relOf rootAbs p) size maxFileSize f],
             totalTokens := st.totalTokens,
             totalLines := st.totalLines + countedLines maxFileSize f,
             binaryCount := st.binaryCount + countedBinary maxFileSize f,
             skippedByToken := st.skippedByToken + 1 }, true)
        else
          ({ Files := st.Files ++ [readEntry (relOf rootAbs p) size maxFileSize f],
             totalTokens := st.totalTokens
               + EstimateTokens (readEntry (relOf rootAbs p) size maxFileSize f).Content,
             totalLines := st.totalLines + countedLines maxFileSize f,
             binaryCount := st.binaryCount + countedBinary maxFileSize f,
             skippedByToken := st.skippedByToken }, false) := by
  unfold loopBody readEntry omittedEntry countedLines countedBinary readEntry
  rcases hr : ReadFileContent f maxFileSize with ⟨content, isBinary, truncated, lines⟩
  cases isBinary <;> simp [hrel, hr]

/-! ### The invariant of the budget -/

theorem recordTokens_append (l : List FileEntry) (e : FileEntry) :
    recordTokens (l ++ [e]) = recordTokens l + EstimateTokens e.Content := by
  simp [recordTokens]

theorem omittedEntry_content (rel : Str) (size : Int) (m : Nat) (f : OpenFile) :
    (omittedEntry rel size m f).Content = [] := rfl

theorem loopBody_budgetInvariant (rootAbs : Str) (maxFileSize : Nat) (maxTokens : Int)
    (st : LoopState) (p : Str) (os : OsFile) (h : budgetInvariant maxTokens st) :
    budgetInvariant maxTokens (loopBody rootAbs maxFileSize maxTokens st p os).1 := by
  obtain ⟨hsum, hle⟩ := h
  by_cases hrel : relOf rootAbs p = [46]
  · rw [loopBody_root _ _ _ _ _ _ hrel]; exact ⟨hsum, hle⟩
  · cases os with
    | statFails msg =>
      rw [loopBody_statFails _ _ _ _ _ _ hrel]
      exact ⟨by simp [recordTokens_append, EstimateTokens, hsum], hle⟩
    | directory => rw [loopBody_directory]; exact ⟨hsum, hle⟩
    | openFails size msg =>
      rw [loopBody_openFails _ _ _ _ _ _ _ hrel]
      exact ⟨by simp [recordTokens_append, EstimateTokens, hsum], hle⟩
    | regular size f =>
      rw [loopBody_regular _ _ _ _ _ _ _ hrel]
      split
      · exact ⟨by simp [recordTokens_append, omittedEntry_content, EstimateTokens, hsum], hle⟩
      · rename_i hfit
        refine ⟨by simp [recordTokens_append, hsum], ?_⟩
        intro hpos
        simp only [not_and, not_lt] at hfit
        exact hfit hpos

theorem collectLoop_budgetInvariant (rootAbs : Str) (maxFileSize : Nat) (maxTokens : Int)
    (files : List (Str × OsFile)) :
    ∀ st, budgetInvariant maxTokens st →
      budgetInvariant maxTokens (collectLoop rootAbs maxFileSize maxTokens files st) := by
  induction files with
  | nil => intro st h; simpa [collectLoop] using h
  | cons pf rest ih =>
    intro st h
    obtain ⟨p, os⟩ := pf
    have h1 := loopBody_budgetInvariant rootAbs maxFileSize maxTokens st p os h
    simp only [collectLoop]
    split
    · exact h1
    · exact ih _ h1

theorem budgetInvariant_init (maxTokens : Int) : budgetInvariant maxTokens LoopState.init :=
  ⟨rfl, fun h => by simpa [LoopState.init] using h.le⟩

/-- C16. The invariant of the budgeted loop: it holds before the first
iteration and every iteration keeps it, so after any number of iterations the
running total is the sum of `EstimateTokens(Content)` over the records emitted
so far and, under a positive budget, at most `maxTokens`; a file that brings
the total to exactly `maxTokens` is kept with its content; the record omitted
by the budget has empty content and adds nothing; and the final
`EstimatedTokens` is the sum over the records and at most `maxTokens`. -/
theorem budget_invariant (rootAbs : Str) (maxFileSize : Nat) (maxTokens : Int) :
    budgetInvariant maxTokens LoopState.init ∧
    (∀ st p os, budgetInvariant maxTokens st →
      budgetInvariant maxTokens (loopBody rootAbs maxFileSize maxTokens st p os).1) ∧
    (∀ (files : List (Str × OsFile)) (i : Nat),
      budgetInvariant maxTokens
        (collectLoop rootAbs maxFileSize maxTokens (files.take i) LoopState.init)) ∧
    (∀ (st : LoopState) (p : Str) (size : Int) (f : OpenFile),
      relOf rootAbs p ≠ [46] → (ReadFileContent f maxFileSize).2.1 = false →
      ((st.totalTokens + EstimateTokens (ReadFileContent f maxFileSize).1 : Nat) : Int)
        = maxTokens →
      (loopBody rootAbs maxFileSize maxTokens st p (.regular size f)).2 = false ∧
      ∃ e, (loopBody rootAbs maxFileSize maxTokens st p (.regular size f)).1.Files
          = st.Files ++ [e] ∧ e.Content = (ReadFileContent f maxFileSize).1 ∧
        (loopBody rootAbs maxFileSize maxTokens st p (.regular size f)).1.totalTokens
          = st.totalTokens + EstimateTokens e.Content) ∧
    (∀ (st : LoopState) (p : Str) (os : OsFile),
      (loopBody rootAbs maxFileSize maxTokens st p os).2 = true →
      (loopBody rootAbs maxFileSize maxTokens st p os).1.totalTokens = st.totalTokens ∧
      ∃ e, (loopBody rootAbs maxFileSize maxTokens st p os).1.Files = st.Files ++ [e] ∧
        e.Content = [] ∧ EstimateTokens e.Content = 0) ∧
    (∀ files : List (Str × OsFile),
      (collect rootAbs maxFileSize maxTokens files).2.EstimatedTokens
        = recordTokens (collect rootAbs maxFileSize maxTokens files).1 ∧
      (0 < maxTokens →
        ((collect rootAbs maxFileSize maxTokens files).2.EstimatedTokens : Int) ≤ maxTokens)) := by
  refine ⟨budgetInvariant_init maxTokens,
    fun st p os h => loopBody_budgetInvariant rootAbs maxFileSize maxTokens st p os h,
    fun files i => collectLoop_budgetInvariant rootAbs maxFileSize maxTokens _ _
      (budgetInvariant_init maxTokens), ?_, ?_, ?_⟩
  · intro st p size f hrel hbin hexact
    have hc : (readEntry (relOf rootAbs p) size maxFileSize f).Content
        = (ReadFileContent f maxFileSize).1 := by
      simp [readEntry, hbin]
    rw [loopBody_regular _ _ _ _ _ _ _ hrel, hc, if_neg (by rw [hexact]; simp)]
    exact ⟨rfl, _, rfl, hc, by rw [hc]⟩
  · intro st p os hstop
    by_cases hrel : relOf rootAbs p = [46]
    · rw [loopBody_root _ _ _ _ _ _ hrel] at hstop; simp at hstop
    · cases os with
      | statFails msg => rw [loopBody_statFails _ _ _ _ _ _ hrel] at hstop; simp at hstop
      | directory => rw [loopBody_directory] at hstop; simp at hstop
      | openFails size msg =>
        rw [loopBody_openFails _ _ _ _ _ _ _ hrel] at hstop; simp at hstop
      | regular size f =>
        rw [loopBody_regular _ _ _ _ _ _ _ hrel] at hstop ⊢
        split at hstop
        · rename_i hc
          rw [if_pos hc]
          exact ⟨rfl, _, rfl, rfl, by simp [omittedEntry_content, EstimateTokens]⟩
        · simp at hstop
  · intro files
    have h := collectLoop_budgetInvariant rootAbs maxFileSize maxTokens files LoopState.init
      (budgetInvariant_init maxTokens)
    exact ⟨by simpa [collect, summaryOf] using h.1, by simpa [collect, summaryOf] using h.2⟩

/-- Witness for C16: with the budget 1, a file of four bytes brings the total to
exactly 1 and is kept. -/
theorem budget_invariant_witness :
    (loopBody (ascii "/r") 16384 1 LoopState.init (ascii "/r/a.txt")
        (.regular 4 ⟨ascii "abcd", false⟩)).2 = false :=
  ((budget_invariant (ascii "/r") 16384 1).2.2.2.1 LoopState.init (ascii "/r/a.txt") 4
    ⟨ascii "abcd", false⟩ (by decide) (by decide) (by decide)).1

/-! ### Where a record comes from -/

theorem collectLoop_origin (rootAbs : Str) (maxFileSize : Nat) (maxTokens : Int)
    (files : List (Str × OsFile)) :
    ∀ (st : LoopState), ∀ e ∈ (collectLoop rootAbs maxFileSize maxTokens files st).Files,
      e ∈ st.Files ∨ ∃ pf ∈ files, emittedFor rootAbs maxFileSize maxTokens e pf := by
  induction files with
  | nil => intro st e he; exact Or.inl (by simpa [collectLoop] using he)
  | cons pf rest ih =>
    intro st e he
    obtain ⟨p, os⟩ := pf
    have hbody : ∀ x ∈ (loopBody rootAbs maxFileSize maxTokens st p os).1.Files,
        x ∈ st.Files ∨ emittedFor rootAbs maxFileSize maxTokens x (p, os) := by
      intro x hx
      by_cases hrel : relOf rootAbs p = [46]
      · rw [loopBody_root _ _ _ _ _ _ hrel] at hx; exact Or.inl hx
      · cases os with
        | statFails msg =>
          rw [loopBody_statFails _ _ _ _ _ _ hrel] at hx
          simp only [List.mem_append, List.mem_singleton] at hx
          rcases hx with hx | hx
          · exact Or.inl hx
          · exact Or.inr ⟨hrel, hx⟩
        | directory => rw [loopBody_directory] at hx; exact Or.inl hx
        | openFails size msg =>
          rw [loopBody_openFails _ _ _ _ _ _ _ hrel] at hx
          simp only [List.mem_append, List.mem_singleton] at hx
          rcases hx with hx | hx
          · exact Or.inl hx
          · exact Or.inr ⟨hrel, hx⟩
        | regular size f =>
          rw [loopBody_regular _ _ _ _ _ _ _ hrel] at hx
          split at hx
          · rename_i hc
            simp only [List.mem_append, List.mem_singleton] at hx
            rcases hx with hx | hx
            · exact Or.inl hx
            · exact Or.inr ⟨hrel, Or.inr ⟨hc.1, hx⟩⟩
          · simp only [List.mem_append, List.mem_singleton] at hx
            rcases hx with hx | hx
            · exact Or.inl hx
            · exact Or.inr ⟨hrel, Or.inl hx⟩
    simp only [collectLoop] at he
    split at he
    · rcases hbody e he with h | h
      · exact Or.inl h
      · exact Or.inr ⟨(p, os), List.mem_cons_self _ _, h⟩
    · rcases ih _ e he with h | ⟨pf, hpf, h⟩
      · rcases hbody e h with h | h
        · exact Or.inl h
        · exact Or.inr ⟨(p, os), List.mem_cons_self _ _, h⟩
      · exact Or.inr ⟨pf, List.mem_cons_of_mem _ hpf, h⟩

theorem budgetMessage_ne_nil (n : Nat) : budgetMessage n ≠ [] := by
  simp [budgetMessage, ascii]

theorem readEntry_message (rel : Str) (size : Int) (m : Nat) (f : OpenFile) :
    (readEntry rel size m f).ReadErrorMessage = [] := by
  unfold readEntry
  split <;> rfl

/-- C12, as amended. A record the loop emits with a non-empty
`ReadErrorMessage`, empty `Content` and `IsBinary = false` belongs to a listed
file for which `os.Stat` failed or `os.Open` failed, and then it has
`Truncated = false`, or to a file that was opened and omitted by a positive
token budget, and then it has `Truncated = true` and the budget message. -/
theorem error_record_origin (rootAbs : Str) (maxFileSize : Nat) (maxTokens : Int)
    (files : List (Str × OsFile)) (e : FileEntry)
    (he : e ∈ (collect rootAbs maxFileSize maxTokens files).1)
    (hmsg : e.ReadErrorMessage ≠ []) (hcontent : e.Content = []) (hbin : e.IsBinary = false) :
    ∃ pf ∈ files, e.Path = ToSlash (relOf rootAbs pf.1) ∧
      ((∃ msg, pf.2 = .statFails msg ∧ e.ReadErrorMessage = msg ∧ e.Truncated = false) ∨
       (∃ size msg, pf.2 = .openFails size msg ∧ e.ReadErrorMessage = msg ∧
          e.Truncated = false) ∨
       (∃ size f, pf.2 = .regular size f ∧ 0 < maxTokens ∧ e.Truncated = true ∧
          e = omittedEntry (relOf rootAbs pf.1) size maxFileSize f)) := by
  rcases collectLoop_origin rootAbs maxFileSize maxTokens files LoopState.init e he with h | h
  · simp [LoopState.init] at h
  · obtain ⟨⟨p, os⟩, hpf, hrel, horigin⟩ := h
    refine ⟨(p, os), hpf, ?_⟩
    cases os with
    | statFails msg =>
      simp only at horigin
      subst horigin
      exact ⟨rfl, Or.inl ⟨msg, rfl, rfl, rfl⟩⟩
    | directory => exact absurd horigin (by simp)
    | openFails size msg =>
      simp only at horigin
      subst horigin
      exact ⟨rfl, Or.inr (Or.inl ⟨size, msg, rfl, rfl, rfl⟩)⟩
    | regular size f =>
      simp only at horigin
      rcases horigin with h1 | ⟨hpos, h1⟩
      · subst h1
        exact absurd (readEntry_message _ _ _ _) hmsg
      · subst h1
        refine ⟨?_, Or.inr (Or.inr ⟨size, f, rfl, hpos, rfl, rfl⟩)⟩
        simp only [omittedEntry, readEntry]
        split <;> rfl

/-- Witness for C12: the record of a file that could not be opened. -/
theorem error_record_origin_witness :
    ∃ pf ∈ [(ascii "/r/a.txt", OsFile.openFails 8 (ascii "permission denied"))],
      (⟨ascii "a.txt", 8, false, false, [], [], ascii "permission denied"⟩ : FileEntry).Path
        = ToSlash (relOf (ascii "/r") pf.1) ∧
      ((∃ msg, pf.2 = .statFails msg ∧
          (⟨ascii "a.txt", 8, false, false, [], [], ascii "permission denied"⟩ :
            FileEntry).ReadErrorMessage = msg ∧
          (⟨ascii "a.txt", 8, false, false, [], [], ascii "permission denied"⟩ :
            FileEntry).Truncated = false) ∨
       (∃ size msg, pf.2 = .openFails size msg ∧
          (⟨ascii "a.txt", 8, false, false, [], [], ascii "permission denied"⟩ :
            FileEntry).ReadErrorMessage = msg ∧
          (⟨ascii "a.txt", 8, false, false, [], [], ascii "permission denied"⟩ :
            FileEntry).Truncated = false) ∨
       (∃ size f, pf.2 = .regular size f ∧ (0 : Int) < 0 ∧
          (⟨ascii "a.txt", 8, false, false, [], [], ascii "permission denied"⟩ :
            FileEntry).Truncated = true ∧
          (⟨ascii "a.txt", 8, false, false, [], [], ascii "permission denied"⟩ : FileEntry)
            = omittedEntry (relOf (ascii "/r") pf.1) size 16384 f)) :=
  error_record_origin (ascii "/r") 16384 0
    [(ascii "/r/a.txt", OsFile.openFails 8 (ascii "permission denied"))]
    ⟨ascii "a.txt", 8, false, false, [], [], ascii "permission denied"⟩
    (by decide) (by decide) rfl rfl

/-- C12, counterexample. Under the budget 1 the readable file `/r/a.txt` of
eight bytes is opened and read, and its record has a non-empty
`ReadErrorMessage`, empty `Content` and `IsBinary = false`. -/
theorem error_record_counterexample :
    (collect (ascii "/r") 16384 1
        [(ascii "/r/a.txt", .regular 8 ⟨ascii "abcdefgh", false⟩)]).1
      = [⟨ascii "a.txt", 8, false, true, [], [], budgetMessage 2⟩] ∧
    budgetMessage 2 ≠ [] ∧
    ReadFileContent ⟨ascii "abcdefgh", false⟩ 16384 = (ascii "abcdefgh", false, false, 0) := by
  decide

/-! ### The summary and the records -/

theorem recordLines_append (l : List FileEntry) (e : FileEntry) :
    recordLines (l ++ [e]) = recordLines l + e.Content.count 10 := by
  simp [recordLines]

theorem countP_snoc (q : FileEntry → Bool) (l : List FileEntry) (e : FileEntry) :
    (l ++ [e]).countP q = l.countP q + (if q e then 1 else 0) := by
  rw [List.countP_append]
  simp [List.countP_cons]

theorem readEntry_facts (rel : Str) (size : Int) (m : Nat) (f : OpenFile) :
    isOmitted (readEntry rel size m f) = false ∧
    (if (readEntry rel size m f).IsBinary then 1 else 0) = countedBinary m f ∧
    (readEntry rel size m f).Content.count 10 = countedLines m f := by
  unfold readEntry countedBinary countedLines isOmitted
  rw [ReadFileContent_eq]
  by_cases hf : f.readFails
  · simp [hf]
  · by_cases hb : 0 ∈ f.bytes.take m
    · simp [hf, hb]
    · simp [hf, hb]

theorem omittedEntry_facts (rel : Str) (size : Int) (m : Nat) (f : OpenFile) :
    isOmitted (omittedEntry rel size m f) = true ∧
    (if (omittedEntry rel size m f).IsBinary then 1 else 0) = countedBinary m f := by
  have hmsg := budgetMessage_ne_nil (EstimateTokens (readEntry rel size m f).Content)
  refine ⟨?_, ?_⟩
  · simp only [isOmitted, omittedEntry, Bool.true_and, Bool.not_eq_true', List.isEmpty_eq_false]
    exact hmsg
  · simp only [omittedEntry, readEntry, countedBinary]
    split <;> simp

theorem loopBody_countersFromRecords (rootAbs : Str) (maxFileSize : Nat) (maxTokens : Int)
    (st : LoopState) (p : Str) (os : OsFile) (h : countersFromRecords st) :
    countersFromRecords (loopBody rootAbs maxFileSize maxTokens st p os).1 := by
  obtain ⟨htok, hbin, hskip, hlines⟩ := h
  by_cases hrel : relOf rootAbs p = [46]
  · rw [loopBody_root _ _ _ _ _ _ hrel]; exact ⟨htok, hbin, hskip, hlines⟩
  · cases os with
    | statFails msg =>
      rw [loopBody_statFails _ _ _ _ _ _ hrel]
      refine ⟨?_, ?_, ?_, ?_⟩
      · simp [recordTokens_append, EstimateTokens, htok]
      · simp [countP_snoc, hbin]
      · simp [countP_snoc, hskip, isOmitted]
      · intro h0
        simp [recordLines_append, hlines h0]
    | directory => rw [loopBody_directory]; exact ⟨htok, hbin, hskip, hlines⟩
    | openFails size msg =>
      rw [loopBody_openFails _ _ _ _ _ _ _ hrel]
      refine ⟨?_, ?_, ?_, ?_⟩
      · simp [recordTokens_append, EstimateTokens, htok]
      · simp [countP_snoc, hbin]
      · simp [countP_snoc, hskip, isOmitted]
      · intro h0
        simp [recordLines_append, hlines h0]
    | regular size f =>
      rw [loopBody_regular _ _ _ _ _ _ _ hrel]
      have hr := readEntry_facts (relOf rootAbs p) size maxFileSize f
      have ho := omittedEntry_facts (relOf rootAbs p) size maxFileSize f
      split
      · refine ⟨?_, ?_, ?_, ?_⟩
        · simp [recordTokens_append, omittedEntry_content, EstimateTokens, htok]
        · simp only [countP_snoc, ho.2, hbin]
        · simp only [countP_snoc, ho.1, if_true, hskip]
        · intro h0
          simp at h0
      · refine ⟨?_, ?_, ?_, ?_⟩
        · simp [recordTokens_append, htok]
        · simp only [countP_snoc, hr.2.1, hbin]
        · simp [countP_snoc, hr.1, hskip]
        · intro h0
          simp only [recordLines_append, hr.2.2, hlines h0]

theorem collect_countersFromRecords (rootAbs : Str) (maxFileSize : Nat) (maxTokens : Int)
    (files : List (Str × OsFile)) :
    ∀ st, countersFromRecords st →
      countersFromRecords (collectLoop rootAbs maxFileSize maxTokens files st) := by
  induction files with
  | nil => intro st h; simpa [collectLoop] using h
  | cons pf rest ih =>
    intro st h
    obtain ⟨p, os⟩ := pf
    have h1 := loopBody_countersFromRecords rootAbs maxFileSize maxTokens st p os h
    simp only [collectLoop]
    split
    · exact h1
    · exact ih _ h1

/-- C13, as amended. The summary and the record list: `TotalFiles`,
`EstimatedTokens`, `SkippedByLimit` and `BinaryFilesCount` are functions of the
records emitted, and so is `TotalLines` when no file was omitted by the budget;
hence two runs with equal record lists have equal summaries in those four
fields, and in `TotalLines` as well when `SkippedByLimit` is 0. -/
theorem summary_from_records (root1 root2 : Str) (size1 size2 : Nat) (tokens1 tokens2 : Int)
    (files1 files2 : List (Str × OsFile)) :
    ((collect root1 size1 tokens1 files1).2.TotalFiles
        = (collect root1 size1 tokens1 files1).1.length ∧
      (collect root1 size1 tokens1 files1).2.EstimatedTokens
        = recordTokens (collect root1 size1 tokens1 files1).1 ∧
      (collect root1 size1 tokens1 files1).2.SkippedByLimit
        = (collect root1 size1 tokens1 files1).1.countP isOmitted ∧
      (collect root1 size1 tokens1 files1).2.BinaryFilesCount
        = (collect root1 size1 tokens1 files1).1.countP (·.IsBinary) ∧
      ((collect root1 size1 tokens1 files1).2.SkippedByLimit = 0 →
        (collect root1 size1 tokens1 files1).2.TotalLines
          = recordLines (collect root1 size1 tokens1 files1).1)) ∧
    ((collect root1 size1 tokens1 files1).1 = (collect root2 size2 tokens2 files2).1 →
      (collect root1 size1 tokens1 files1).2.TotalFiles
        = (collect root2 size2 tokens2 files2).2.TotalFiles ∧
      (collect root1 size1 tokens1 files1).2.EstimatedTokens
        = (collect root2 size2 tokens2 files2).2.EstimatedTokens ∧
      (collect root1 size1 tokens1 files1).2.SkippedByLimit
        = (collect root2 size2 tokens2 files2).2.SkippedByLimit ∧
      (collect root1 size1 tokens1 files1).2.BinaryFilesCount
        = (collect root2 size2 tokens2 files2).2.BinaryFilesCount ∧
      ((collect root1 size1 tokens1 files1).2.SkippedByLimit = 0 →
        (collect root1 size1 tokens1 files1).2.TotalLines
          = (collect root2 size2 tokens2 files2).2.TotalLines)) := by
  have hinit : countersFromRecords LoopState.init :=
    ⟨rfl, rfl, rfl, fun _ => rfl⟩
  obtain ⟨a1, a2, a3, a4⟩ :=
    collect_countersFromRecords root1 size1 tokens1 files1 LoopState.init hinit
  obtain ⟨b1, b2, b3, b4⟩ :=
    collect_countersFromRecords root2 size2 tokens2 files2 LoopState.init hinit
  refine ⟨⟨rfl, a1, a3, a2, a4⟩, ?_⟩
  intro heq
  simp only [collect] at heq
  simp only [collect, summaryOf]
  refine ⟨by rw [heq], by rw [a1, b1, heq], by rw [a3, b3, heq], by rw [a2, b2, heq], ?_⟩
  intro h0
  have h0b : (collectLoop root2 size2 tokens2 files2 LoopState.init).skippedByToken = 0 := by
    rw [b3, ← heq, ← a3]; exact h0
  rw [a4 h0, b4 h0b, heq]

/-- Witness for C13: two runs over the same bytes under different roots, sizes
and an unlimited budget. -/
theorem summary_from_records_witness :
    (collect (ascii "/r") 16384 0 [(ascii "/r/a.txt", .regular 4 ⟨ascii "a\nb\n", false⟩)]).2.TotalLines
      = (collect (ascii "/") 64 0
          [(ascii "/a.txt", .regular 4 ⟨ascii "a\nb\n", false⟩)]).2.TotalLines :=
  (summary_from_records (ascii "/r") (ascii "/") 16384 64 0 0
    [(ascii "/r/a.txt", .regular 4 ⟨ascii "a\nb\n", false⟩)]
    [(ascii "/a.txt", .regular 4 ⟨ascii "a\nb\n", false⟩)]).2 (by decide) |>.2.2.2.2 (by decide)

/-- C13, counterexample. Under the budget 1, two files of eight bytes with four
line feeds and with none are both omitted; the two runs emit the same record
list and report `TotalLines` 4 and 0. -/
theorem summary_counterexample :
    (collect (ascii "/r") 16384 1
        [(ascii "/r/a.txt", .regular 8 ⟨ascii "a\nb\nc\nd\n", false⟩)]).1
      = (collect (ascii "/r") 16384 1
          [(ascii "/r/a.txt", .regular 8 ⟨ascii "abcdefgh", false⟩)]).1 ∧
    (collect (ascii "/r") 16384 1
        [(ascii "/r/a.txt", .regular 8 ⟨ascii "a\nb\nc\nd\n", false⟩)]).2.TotalLines = 4 ∧
    (collect (ascii "/r") 16384 1
        [(ascii "/r/a.txt", .regular 8 ⟨ascii "abcdefgh", false⟩)]).2.TotalLines = 0 := by
  decide

/-! ### The tree -/

/-- C11, at a failing input. Walking `/r`, which holds the directory `sub` with
the file `x.go`, `CollectFiles` returns the directory and the file, and
`buildTree` renders the directory `sub`, which has the child `x.go`, without
the suffix `/`; the directory gets the suffix when the list holds the file
alone.  The lines stand between the two fence lines. -/
theorem tree_directory_suffix :
    CollectFiles (ascii "/r")
        [.dir (ascii "/r") (.dir (ascii "sub") (.file (ascii "x.go") .nil) .nil)] [] []
      = [ascii "/r/sub", ascii "/r/sub/x.go"] ∧
    buildTree (ascii "/r") [ascii "/r/sub", ascii "/r/sub/x.go"]
      = [96, 96, 96, 10] ++ ascii "sub\n  x.go\n" ++ [96, 96, 96] ∧
    collectStructure (ascii "/r")
        [.dir (ascii "/r") (.dir (ascii "sub") (.file (ascii "x.go") .nil) .nil)] [] []
      = [96, 96, 96, 10] ++ ascii "sub\n  x.go\n" ++ [96, 96, 96] ∧
    buildTree (ascii "/r") [ascii "/r/sub/x.go"]
      = [96, 96, 96, 10] ++ ascii "sub/\n  x.go\n" ++ [96, 96, 96] ∧
    ∀ (root : Str) (files : List Str),
      [96, 96, 96, 10] <+: buildTree root files ∧ [96, 96, 96] <:+ buildTree root files := by
  refine ⟨by decide, by decide, by decide, by decide, ?_⟩
  intro root files
  exact ⟨⟨walkNode 0 (buildNodes root files (.mk false [])) ++ [96, 96, 96],
    by simp [buildTree]⟩, ⟨_, rfl⟩⟩

/-! ### White space and its encodings -/

theorem isSpaceRune_iff (r : Nat) :
    isSpaceRune r = true ↔
      (9 ≤ r ∧ r ≤ 13) ∨ r = 32 ∨ r = 0x85 ∨ r = 0xA0 ∨ r = 0x1680 ∨
        (0x2000 ≤ r ∧ r ≤ 0x200A) ∨ r = 0x2028 ∨ r = 0x2029 ∨ r = 0x202F ∨ r = 0x205F ∨
        r = 0x3000 := by
  simp [isSpaceRune]

theorem isSpaceEncoding_one (b : Nat) :
    isSpaceEncoding [b] = true ↔ (9 ≤ b ∧ b ≤ 13) ∨ b = 32 := by
  simp [isSpaceEncoding]

theorem isSpaceEncoding_two (b0 b1 : Nat) :
    isSpaceEncoding [b0, b1] = true ↔ b0 = 0xC2 ∧ (b1 = 0x85 ∨ b1 = 0xA0) := by
  simp [isSpaceEncoding]

theorem isSpaceEncoding_three (b0 b1 b2 : Nat) :
    isSpaceEncoding [b0, b1, b2] = true ↔
      (b0 = 0xE1 ∧ b1 = 0x9A ∧ b2 = 0x80) ∨
      (b0 = 0xE2 ∧ b1 = 0x80 ∧ ((0x80 ≤ b2 ∧ b2 ≤ 0x8A) ∨ b2 = 0xA8 ∨ b2 = 0xA9 ∨ b2 = 0xAF)) ∨
      (b0 = 0xE2 ∧ b1 = 0x81 ∧ b2 = 0x9F) ∨
      (b0 = 0xE3 ∧ b1 = 0x80 ∧ b2 = 0x80) := by
  simp [isSpaceEncoding]

theorem not_space_error : ¬ isSpaceRune 0xFFFD = true := by decide

theorem space_two (s0 s1 : Nat) (h0 : 0xC2 ≤ s0) (h0' : s0 < 0xE0) (h1 : 0x80 ≤ s1)
    (h1' : s1 ≤ 0xBF) (h : isSpaceRune ((s0 % 32) * 64 + s1 % 64) = true) :
    isSpaceEncoding [s0, s1] = true := by
  rw [isSpaceRune_iff] at h
  rw [isSpaceEncoding_two]
  have ha : s0 % 32 = s0 - 192 := by omega
  have hb : s1 % 64 = s1 - 128 := by omega
  rw [ha, hb] at h
  rcases h with h | h | h | h | h | h | h | h | h | h | h <;> omega

theorem space_three (s0 s1 s2 : Nat) (h0 : 0xE0 ≤ s0) (h0' : s0 < 0xF0) (h1 : 0x80 ≤ s1)
    (h1' : s1 ≤ 0xBF) (hE0 : s0 = 0xE0 → 0xA0 ≤ s1) (h2 : 0x80 ≤ s2) (h2' : s2 ≤ 0xBF)
    (h : isSpaceRune ((s0 % 16) * 4096 + (s1 % 64) * 64 + s2 % 64) = true) :
    isSpaceEncoding [s0, s1, s2] = true := by
  rw [isSpaceRune_iff] at h
  rw [isSpaceEncoding_three]
  have ha : s0 = 224 + s0 % 16 := by omega
  have hb : s1 = 128 + s1 % 64 := by omega
  have hc : s2 = 128 + s2 % 64 := by omega
  have ha2 : s0 % 16 < 16 := Nat.mod_lt _ (by decide)
  have hb2 : s1 % 64 < 64 := Nat.mod_lt _ (by decide)
  have hc2 : s2 % 64 < 64 := Nat.mod_lt _ (by decide)
  generalize s0 % 16 = a at *
  generalize s1 % 64 = b at *
  generalize s2 % 64 = c at *
  subst ha hb hc
  rcases h with h | h | h | h | h | h | h | h | h | h | h
  · omega
  · omega
  · omega
  · omega
  · left; omega
  · right; left; omega
  · right; left; omega
  · right; left; omega
  · right; left; omega
  · right; right; left; omega
  · right; right; right; omega

theorem space_four (s0 s1 s2 s3 : Nat) (h0 : 0xF0 ≤ s0) (h1 : 0x80 ≤ s1)
    (hF0 : s0 = 0xF0 → 0x90 ≤ s1) (h0' : s0 ≤ 0xF4) (h1' : s1 ≤ 0xBF) :
    isSpaceRune ((s0 % 8) * 262144 + (s1 % 64) * 4096 + (s2 % 64) * 64 + s3 % 64) = false := by
  rw [Bool.eq_false_iff, ne_eq, isSpaceRune_iff]
  have ha : s0 % 8 = s0 - 240 := by omega
  have hb : s1 % 64 = s1 - 128 := by omega
  rw [ha, hb]
  omega

/-- A first rune that is white space is a white space encoding at the start of
the string, of the width the decoding reports. -/
theorem decodeRune_space (s : Str) (h : isSpaceRune (decodeRune s).1 = true) :
    isSpaceEncoding (s.take (decodeRune s).2) = true ∧ (decodeRune s).2 ≤ s.length := by
  cases s with
  | nil => exact absurd h not_space_error
  | cons c s =>
  by_cases h1 : c < 0x80
  · simp only [decodeRune, h1, if_true] at h ⊢
    rw [isSpaceRune_iff] at h
    simp only [List.take_succ_cons, List.take_zero, isSpaceEncoding_one, List.length_cons]
    omega
  by_cases h2 : c < 0xC2 ∨ 0xF4 < c
  · simp only [decodeRune, h1, h2, if_true, if_false] at h
    exact absurd h not_space_error
  cases s with
  | nil =>
    simp only [decodeRune, h1, h2, if_true, if_false] at h
    exact absurd h not_space_error
  | cons s1 r1 =>
    by_cases h3 : c < 0xE0
    · simp only [decodeRune, h1, h2, h3, if_true, if_false] at h ⊢
      split_ifs at h ⊢ <;>
        first
        | exact absurd h not_space_error
        | (simp only [List.take_succ_cons, List.take_zero, List.length_cons]
           exact ⟨space_two c s1 (by omega) (by omega) (by omega) (by omega) h, by omega⟩)
    cases r1 with
    | nil =>
      simp only [decodeRune, h1, h2, h3, if_true, if_false] at h
      exact absurd h not_space_error
    | cons s2 r2 =>
      by_cases h4 : c < 0xF0
      · simp only [decodeRune, h1, h2, h3, h4, if_true, if_false] at h ⊢
        split_ifs at h ⊢ <;>
          first
          | exact absurd h not_space_error
          | (simp only [List.take_succ_cons, List.take_zero, List.length_cons]
             simp only [Bool.not_eq_true', decide_eq_false_iff_not, Bool.and_eq_true,
               decide_eq_true_eq, not_and, not_le, not_or, not_lt] at *
             exact ⟨space_three c s1 s2 (by omega) (by omega) (by omega) (by omega) (by omega)
               (by omega) (by omega) h, by omega⟩)
      cases r2 with
      | nil =>
        simp only [decodeRune, h1, h2, h3, h4, if_true, if_false] at h
        exact absurd h not_space_error
      | cons s3 r3 =>
        exfalso
        simp only [decodeRune, h1, h2, h3, h4, if_true, if_false] at h
        split_ifs at h <;>
          first
          | exact absurd h not_space_error
          | (simp only [Bool.not_eq_true', decide_eq_false_iff_not, Bool.and_eq_true,
               decide_eq_true_eq, not_and, not_le, not_or, not_lt] at *
             rw [space_four c s1 s2 s3 (by omega) (by omega) (by omega) (by omega) (by omega)] at h
             exact Bool.false_ne_true h)

theorem decodeRune_of_encoding (enc rest : Str) (h : isSpaceEncoding enc = true) :
    isSpaceRune (decodeRune (enc ++ rest)).1 = true ∧ (decodeRune (enc ++ rest)).2 = enc.length := by
  match enc, h with
  | [], h => simp [isSpaceEncoding] at h
  | [b], h =>
    rw [isSpaceEncoding_one] at h
    have hb : b < 0x80 := by omega
    simp only [List.singleton_append, decodeRune, hb, if_true, List.length_singleton, and_true]
    rw [isSpaceRune_iff]
    omega
  | [b0, b1], h =>
    rw [isSpaceEncoding_two] at h
    obtain ⟨rfl, h | h⟩ := h <;> subst h <;> simp [decodeRune] <;> decide
  | [b0, b1, b2], h =>
    rw [isSpaceEncoding_three] at h
    rcases h with ⟨rfl, rfl, rfl⟩ | ⟨rfl, rfl, h⟩ | ⟨rfl, rfl, rfl⟩ | ⟨rfl, rfl, rfl⟩
    · simp [decodeRune]; decide
    · have h2 : 0x80 ≤ b2 ∧ b2 ≤ 0xBF := by omega
      simp only [List.cons_append, List.nil_append, decodeRune, List.length_cons,
        List.length_nil]
      simp only [h2.1, h2.2, decide_True, Bool.and_self, Bool.not_true, Bool.false_eq_true,
        if_false, and_true]
      norm_num
      rw [isSpaceRune_iff]
      omega
    · simp [decodeRune]; decide
    · simp [decodeRune]; decide
  | _ :: _ :: _ :: _ :: _, h => simp [isSpaceEncoding] at h

theorem leadingSpace_mono (e l : Str) (hpre : e <+: l) (h : leadingSpace e = true) :
    leadingSpace l = true := by
  unfold leadingSpace at h ⊢
  obtain ⟨henc, hlen⟩ := decodeRune_space e h
  obtain ⟨t, rfl⟩ := hpre
  have he : e = e.take (decodeRune e).2 ++ e.drop (decodeRune e).2 := (List.take_append_drop _ _).symm
  rw [he, List.append_assoc]
  exact (decodeRune_of_encoding _ _ henc).1

theorem lastRuneLen_bounds (before : Str) :
    1 ≤ lastRuneLen before ∧ lastRuneLen before ≤ before.length + 1 := by
  unfold lastRuneLen
  repeat' split
  all_goals simp only [List.length_cons, List.length_nil]
  all_goals omega

theorem isSpaceEncoding_no_comma (enc : Str) (h : isSpaceEncoding enc = true) : 44 ∉ enc := by
  match enc, h with
  | [], h => simp [isSpaceEncoding] at h
  | [b], h =>
    rw [isSpaceEncoding_one] at h
    simp only [List.mem_singleton]
    omega
  | [b0, b1], h =>
    rw [isSpaceEncoding_two] at h
    simp only [List.mem_cons, List.mem_singleton, List.not_mem_nil, or_false]
    omega
  | [b0, b1, b2], h =>
    rw [isSpaceEncoding_three] at h
    simp only [List.mem_cons, List.mem_singleton, List.not_mem_nil, or_false]
    omega
  | _ :: _ :: _ :: _ :: _, h => simp [isSpaceEncoding] at h

/-! ### TrimSpace and SplitList -/

theorem decodeLastRune_space (s : Str) (h : isSpaceRune (decodeLastRune s).1 = true) :
    isSpaceEncoding (s.drop (s.length - (decodeLastRune s).2)) = true ∧
    1 ≤ (decodeLastRune s).2 ∧ (decodeLastRune s).2 ≤ s.length := by
  unfold decodeLastRune at h ⊢
  cases hrev : s.reverse with
  | nil =>
    rw [hrev] at h
    exact absurd h not_space_error
  | cons b1 before =>
    have hs : s = before.reverse ++ [b1] := by
      have := congrArg List.reverse hrev
      simpa using this
    have hlen : s.length = before.length + 1 := by rw [hs]; simp
    rw [hrev] at h
    simp only at h ⊢
    by_cases hb : b1 < 0x80
    · simp only [hb, if_true] at h ⊢
      refine ⟨?_, le_refl _, by omega⟩
      have hd : s.drop (s.length - 1) = [b1] := by
        rw [hlen, hs]
        simp
      rw [hd, isSpaceEncoding_one]
      rw [isSpaceRune_iff] at h
      omega
    · simp only [hb, if_false] at h ⊢
      have hk := lastRuneLen_bounds before
      split_ifs at h ⊢ with hsize
      · obtain ⟨henc, hle⟩ := decodeRune_space _ h
        rw [hsize] at henc hle ⊢
        have hseg : (s.drop (s.length - lastRuneLen before)).length = lastRuneLen before := by
          rw [List.length_drop]; omega
        refine ⟨?_, hk.1, by omega⟩
        rw [List.take_of_length_le (by omega)] at henc
        exact henc
      · exact absurd h not_space_error

theorem decodeRune_width_pos (s : Str) (hs : s ≠ []) : 1 ≤ (decodeRune s).2 := by
  cases s with
  | nil => exact absurd rfl hs
  | cons c s =>
  by_cases h1 : c < 0x80
  · simp [decodeRune, h1]
  by_cases h2 : c < 0xC2 ∨ 0xF4 < c
  · simp [decodeRune, h1, h2]
  cases s with
  | nil => simp [decodeRune, h1, h2]
  | cons s1 r1 =>
    by_cases h3 : c < 0xE0
    · simp only [decodeRune, h1, h2, h3, if_true, if_false]
      split_ifs <;> simp
    cases r1 with
    | nil => simp [decodeRune, h1, h2, h3]
    | cons s2 r2 =>
      by_cases h4 : c < 0xF0
      · simp only [decodeRune, h1, h2, h3, h4, if_true, if_false]
        split_ifs <;> simp
      cases r2 with
      | nil => simp [decodeRune, h1, h2, h3, h4]
      | cons s3 r3 =>
        simp only [decodeRune, h1, h2, h3, h4, if_true, if_false]
        split_ifs <;> simp

theorem trimLeftLoop_suffix (fuel : Nat) : ∀ s : Str, trimLeftLoop fuel s <:+ s := by
  induction fuel with
  | zero => intro s; simp [trimLeftLoop]
  | succ n ih =>
    intro s
    simp only [trimLeftLoop]
    split
    · exact (ih _).trans (List.drop_suffix _ _)
    · exact List.suffix_refl _

theorem trimLeftLoop_exit (fuel : Nat) : ∀ s : Str, s.length ≤ fuel →
    trimLeftLoop fuel s = [] ∨ leadingSpace (trimLeftLoop fuel s) = false := by
  induction fuel with
  | zero =>
    intro s hs
    left
    simpa [trimLeftLoop] using hs
  | succ n ih =>
    intro s hs
    simp only [trimLeftLoop]
    split
    · rename_i hc
      apply ih
      have := decodeRune_width_pos s hc.1
      have := List.length_pos.mpr hc.1
      rw [List.length_drop]
      omega
    · rename_i hc
      by_cases hne : s = []
      · exact Or.inl hne
      · right
        simp only [not_and, Bool.not_eq_true] at hc
        exact hc hne

theorem trimLeftLoop_comma (fuel : Nat) : ∀ s : Str, 44 ∈ s → 44 ∈ trimLeftLoop fuel s := by
  induction fuel with
  | zero => intro s h; simpa [trimLeftLoop] using h
  | succ n ih =>
    intro s h
    simp only [trimLeftLoop]
    split
    · rename_i hc
      apply ih
      obtain ⟨henc, _⟩ := decodeRune_space s hc.2
      have hno := isSpaceEncoding_no_comma _ henc
      rw [← List.take_append_drop (decodeRune s).2 s] at h
      rcases List.mem_append.mp h with h | h
      · exact absurd h hno
      · exact h
    · exact h

theorem trimRightLoop_initial (fuel : Nat) : ∀ s : Str, trimRightLoop fuel s <+: s := by
  induction fuel with
  | zero => intro s; simp [trimRightLoop]
  | succ n ih =>
    intro s
    simp only [trimRightLoop]
    split
    · exact (ih _).trans (List.take_prefix _ _)
    · exact List.prefix_refl _

theorem trimRightLoop_exit (fuel : Nat) : ∀ s : Str, s.length ≤ fuel →
    trimRightLoop fuel s = [] ∨ trailingSpace (trimRightLoop fuel s) = false := by
  induction fuel with
  | zero =>
    intro s hs
    left
    simpa [trimRightLoop] using hs
  | succ n ih =>
    intro s hs
    simp only [trimRightLoop]
    split
    · rename_i hc
      apply ih
      obtain ⟨_, h1, h2⟩ := decodeLastRune_space s hc.2
      rw [List.length_take]
      omega
    · rename_i hc
      by_cases hne : s = []
      · exact Or.inl hne
      · right
        simp only [not_and, Bool.not_eq_true] at hc
        exact hc hne

theorem trimRightLoop_comma (fuel : Nat) : ∀ s : Str, 44 ∈ s → 44 ∈ trimRightLoop fuel s := by
  induction fuel with
  | zero => intro s h; simpa [trimRightLoop] using h
  | succ n ih =>
    intro s h
    simp only [trimRightLoop]
    split
    · rename_i hc
      apply ih
      obtain ⟨henc, _, _⟩ := decodeLastRune_space s hc.2
      have hno := isSpaceEncoding_no_comma _ henc
      rw [← List.take_append_drop (s.length - (decodeLastRune s).2) s] at h
      rcases List.mem_append.mp h with h | h
      · exact h
      · exact absurd h hno
    · exact h

theorem trimLeftLoop_nil (fuel : Nat) : trimLeftLoop fuel [] = [] := by
  cases fuel <;> simp [trimLeftLoop]

theorem trimRightLoop_nil (fuel : Nat) : trimRightLoop fuel [] = [] := by
  cases fuel <;> simp [trimRightLoop]

theorem isSpaceEncoding_ne_nil (enc : Str) (h : isSpaceEncoding enc = true) : enc ≠ [] := by
  intro h0
  subst h0
  simp [isSpaceEncoding] at h

theorem trimLeftLoop_spaces (encs : List Str) (h : ∀ e ∈ encs, isSpaceEncoding e = true) :
    ∀ fuel, encs.flatten.length ≤ fuel → trimLeftLoop fuel encs.flatten = [] := by
  induction encs with
  | nil => intro fuel _; simp [trimLeftLoop_nil]
  | cons e es ih =>
    intro fuel hfuel
    have he := h e (List.mem_cons_self _ _)
    have hne := isSpaceEncoding_ne_nil e he
    have hpos : 1 ≤ e.length := List.length_pos.mpr hne
    simp only [List.flatten_cons, List.length_append] at hfuel ⊢
    cases fuel with
    | zero => omega
    | succ n =>
      obtain ⟨hsp, hw⟩ := decodeRune_of_encoding e es.flatten he
      simp only [trimLeftLoop]
      rw [if_pos ⟨by simp [hne], hsp⟩, hw, List.drop_left]
      exact ih (fun x hx => h x (List.mem_cons_of_mem _ hx)) n (by omega)

theorem TrimSpace_spaces (encs : List Str) (h : ∀ e ∈ encs, isSpaceEncoding e = true) :
    TrimSpace encs.flatten = [] := by
  unfold TrimSpace
  rw [trimLeftLoop_spaces encs h _ (le_refl _), trimRightLoop_nil]

theorem splitOn_ne_nil (sep : Nat) (s : Str) : splitOn sep s ≠ [] := by
  cases s with
  | nil => simp [splitOn]
  | cons c cs =>
    simp only [splitOn]
    split
    · simp
    · split <;> simp

theorem splitOn_append_free (p rest : Str) (hp : 44 ∉ p) :
    splitOn 44 (p ++ rest)
      = (p ++ (splitOn 44 rest).headD []) :: (splitOn 44 rest).tail := by
  induction p with
  | nil =>
    cases hs : splitOn 44 rest with
    | nil => exact absurd hs (splitOn_ne_nil _ _)
    | cons a t => simp [hs]
  | cons c cs ih =>
    simp only [List.mem_cons, not_or] at hp
    have hc : c ≠ 44 := fun hc => hp.1 hc.symm
    simp [splitOn, hc, ih hp.2]

theorem splitOn_pieces (pieces : List Str)
    (h : ∀ e ∈ pieces, e = [44] ∨ isSpaceEncoding e = true) :
    ∀ field ∈ splitOn 44 pieces.flatten,
      ∃ encs : List Str, (∀ e ∈ encs, isSpaceEncoding e = true) ∧ field = encs.flatten := by
  induction pieces with
  | nil =>
    intro field hf
    simp only [List.flatten_nil, splitOn, List.mem_singleton] at hf
    exact ⟨[], by simp, by simp [hf]⟩
  | cons p ps ih =>
    have ih := ih (fun x hx => h x (List.mem_cons_of_mem _ hx))
    intro field hf
    rcases h p (List.mem_cons_self _ _) with hp | hp
    · subst hp
      simp only [List.flatten_cons, List.singleton_append, splitOn, if_true, List.mem_cons] at hf
      rcases hf with hf | hf
      · exact ⟨[], by simp, by simp [hf]⟩
      · exact ih field hf
    · rw [List.flatten_cons, splitOn_append_free p _ (isSpaceEncoding_no_comma p hp)] at hf
      cases hs : splitOn 44 ps.flatten with
      | nil => exact absurd hs (splitOn_ne_nil _ _)
      | cons a t =>
        rw [hs] at hf ih
        simp only [List.headD_cons, List.tail_cons, List.mem_cons] at hf
        rcases hf with hf | hf
        · obtain ⟨encs, hencs, ha⟩ := ih a (List.mem_cons_self _ _)
          refine ⟨p :: encs, ?_, by simp [hf, ha]⟩
          intro e he
          rcases List.mem_cons.mp he with rfl | he
          · exact hp
          · exact hencs e he
        · exact ih field (List.mem_cons_of_mem _ hf)

theorem splitOn_comma_free (e : Str) (h : 44 ∉ e) : splitOn 44 e = [e] := by
  induction e with
  | nil => rfl
  | cons c cs ih =>
    simp only [List.mem_cons, not_or] at h
    have hc : c ≠ 44 := fun hc => h.1 hc.symm
    simp [splitOn, hc, ih h.2]

theorem splitOn_comma_fields (p : Str) : ∀ e ∈ splitOn 44 p, 44 ∉ e := by
  induction p with
  | nil => simp [splitOn]
  | cons c cs ih =>
    simp only [splitOn]
    split
    · intro e he
      rcases List.mem_cons.mp he with rfl | he
      · simp
      · exact ih e he
    · rename_i hc
      split
      · intro e he
        simp only [List.mem_singleton] at he
        subst he
        simp only [List.mem_singleton]
        exact fun h => hc h.symm
      · rename_i h t heq
        rw [heq] at ih
        intro e he
        rcases List.mem_cons.mp he with rfl | he
        · simp only [List.mem_cons, not_or]
          exact ⟨fun h => hc h.symm, ih _ (List.mem_cons_self _ _)⟩
        · exact ih e (List.mem_cons_of_mem _ he)

theorem TrimSpace_comma (s : Str) (h : 44 ∈ s) : TrimSpace s ≠ [] := by
  have := trimRightLoop_comma s.length _ (trimLeftLoop_comma s.length s h)
  exact List.ne_nil_of_mem this

theorem TrimSpace_bytes (s : Str) : ∀ b ∈ TrimSpace s, b ∈ s := by
  intro b hb
  exact (trimLeftLoop_suffix s.length s).subset
    ((trimRightLoop_initial s.length _).subset hb)

theorem TrimSpace_leading (s : Str) (h : TrimSpace s ≠ []) :
    leadingSpace (TrimSpace s) = false := by
  have hpre : TrimSpace s <+: trimLeftLoop s.length s := trimRightLoop_initial _ _
  rcases trimLeftLoop_exit s.length s (le_refl _) with h0 | h0
  · rw [h0] at hpre
    exact absurd (List.prefix_nil.mp hpre) h
  · cases hl : leadingSpace (TrimSpace s) with
    | false => rfl
    | true =>
      rw [leadingSpace_mono _ _ hpre hl] at h0
      exact absurd h0 (by simp)

theorem TrimSpace_trailing (s : Str) (h : TrimSpace s ≠ []) :
    trailingSpace (TrimSpace s) = false := by
  have hlen : (trimLeftLoop s.length s).length ≤ s.length :=
    (trimLeftLoop_suffix s.length s).length_le
  rcases trimRightLoop_exit s.length _ hlen with h0 | h0
  · exact absurd h0 h
  · exact h0

theorem splitListLoop_eq (parts : List Str) : ∀ out : List Str,
    splitListLoop parts out
      = out ++ (parts.map TrimSpace).filter (fun e => decide (e ≠ [])) := by
  induction parts with
  | nil => intro out; simp [splitListLoop]
  | cons p rest ih =>
    intro out
    simp only [splitListLoop, List.map_cons]
    by_cases hp : TrimSpace p = []
    · simp [hp, ih]
    · simp [hp, ih]

theorem SplitList_eq (s : Str) :
    SplitList s = ((splitOn 44 s).map TrimSpace).filter (fun e => decide (e ≠ [])) := by
  unfold SplitList
  split
  · rename_i h0
    have hc : 44 ∉ s := fun hc => TrimSpace_comma s hc h0
    rw [splitOn_comma_free s hc]
    simp [h0]
  · rw [splitListLoop_eq]
    simp

/-- C14. `SplitList(s)` is the list, in order, of the comma-separated fields of
`s`, each trimmed of surrounding white space, without those that are then
empty; so no element is empty, starts or ends with white space, or holds a
comma; and the list is empty when every field is white space only, hence when
`s` is made of commas and white space only, as the empty string is. -/
theorem SplitList_spec (s : Str) :
    SplitList s = ((splitOn 44 s).map TrimSpace).filter (fun e => decide (e ≠ [])) ∧
    (∀ e ∈ SplitList s,
      e ≠ [] ∧ leadingSpace e = false ∧ trailingSpace e = false ∧ 44 ∉ e) ∧
    ((∀ field ∈ splitOn 44 s, TrimSpace field = []) → SplitList s = []) ∧
    (∀ pieces : List Str, (∀ e ∈ pieces, e = [44] ∨ isSpaceEncoding e = true) →
      s = pieces.flatten → SplitList s = []) ∧
    SplitList [] = [] ∧
    SplitList (ascii " \t \n") = [] ∧
    SplitList (ascii " , ,, ") = [] ∧
    SplitList (ascii " *.go , *.md,, vendor ") = [ascii "*.go", ascii "*.md", ascii "vendor"] ∧
    SplitList [0xC2, 0xA0, 97, 0xE2, 0x80, 0x83, 44, 0xE3, 0x80, 0x80] = [[97]] := by
  have hempty : (∀ field ∈ splitOn 44 s, TrimSpace field = []) → SplitList s = [] := by
    intro hall
    rw [SplitList_eq]
    simp only [List.filter_eq_nil_iff, List.mem_map, decide_eq_true_eq, not_not]
    rintro e ⟨field, hfield, rfl⟩
    exact hall field hfield
  refine ⟨SplitList_eq s, ?_, hempty, ?_, by decide, by decide, by decide, by decide,
    by decide⟩
  · intro e he
    rw [SplitList_eq] at he
    simp only [List.mem_filter, List.mem_map, decide_eq_true_eq] at he
    obtain ⟨⟨field, hfield, rfl⟩, hne⟩ := he
    refine ⟨hne, TrimSpace_leading field hne, TrimSpace_trailing field hne, ?_⟩
    intro hc
    exact splitOn_comma_fields s field hfield (TrimSpace_bytes field 44 hc)
  · intro pieces hpieces hs
    apply hempty
    intro field hfield
    rw [hs] at hfield
    obtain ⟨encs, hencs, rfl⟩ := splitOn_pieces pieces hpieces field hfield
    exact TrimSpace_spaces encs hencs

/-- Witness for C14: a string of a blank, a comma and a no-break space gives the
empty list. -/
theorem SplitList_spec_witness :
    (∀ e ∈ [[32], [44], [0xC2, 0xA0]], e = [44] ∨ isSpaceEncoding e = true) ∧
    SplitList [32, 44, 0xC2, 0xA0] = [] :=
  ⟨by decide,
    (SplitList_spec [32, 44, 0xC2, 0xA0]).2.2.2.1 [[32], [44], [0xC2, 0xA0]] (by decide) rfl⟩

/-! ### The reach of a walk -/

theorem add_grows (st : AddState) (p : Str) (h : st.seenListed) :
    (add st p).seenListed ∧ p ∈ (add st p).files ∧ ∀ q ∈ st.files, q ∈ (add st p).files := by
  unfold add
  by_cases hp : p ∈ st.seen
  · simp only [hp, if_true]
    exact ⟨h, h p hp, fun q hq => hq⟩
  · simp only [hp, if_false]
    refine ⟨?_, by simp, fun q hq => by simp [hq]⟩
    intro x hx
    rcases List.mem_cons.mp hx with rfl | hx
    · simp
    · simp [h x hx]

theorem walkFn_grows (root : Str) (inc exc : List Str) (st : AddState) (p : Str) (isDir : Bool)
    (h : st.seenListed) :
    (walkFn root inc exc st p isDir).1.seenListed ∧
      ∀ q ∈ st.files, q ∈ (walkFn root inc exc st p isDir).1.files := by
  unfold walkFn
  simp only
  split
  · exact ⟨h, fun q hq => hq⟩
  · split
    · exact ⟨h, fun q hq => hq⟩
    · exact ⟨(add_grows st p h).1, (add_grows st p h).2.2⟩

theorem walkFn_kept (root : Str) (inc exc : List Str) (st : AddState) (p : Str) (isDir : Bool)
    (h : st.seenListed) (hrel : relOf root p ≠ [46])
    (hk : shouldKeep inc exc (relOf root p) = true) :
    p ∈ (walkFn root inc exc st p isDir).1.files := by
  unfold walkFn
  simp only [hrel, if_false, hk, Bool.not_true, Bool.false_eq_true]
  exact (add_grows st p h).2.1

theorem walkFn_descends (root : Str) (inc exc : List Str) (st : AddState) (p : Str)
    (h : passes root inc exc p) : (walkFn root inc exc st p true).2 = false := by
  unfold walkFn
  simp only
  by_cases hrel : relOf root p = [46]
  · simp [hrel]
  · rcases h with h | h
    · exact absurd h hrel
    · simp [hrel, h]

theorem walkListing_grows (root : Str) (inc exc : List Str) (entries : Listing) :
    ∀ (path : Str) (st : AddState), st.seenListed →
      (walkListing root inc exc path entries st).seenListed ∧
        ∀ q ∈ st.files, q ∈ (walkListing root inc exc path entries st).files := by
  induction entries with
  | nil => intro path st h; exact ⟨h, fun q hq => hq⟩
  | file name rest ih =>
    intro path st h
    simp only [walkListing]
    have h1 := walkFn_grows root inc exc st (Join [path, name]) false h
    have h2 := ih path _ h1.1
    exact ⟨h2.1, fun q hq => h2.2 q (h1.2 q hq)⟩
  | dir name children rest ihc ihr =>
    intro path st h
    simp only [walkListing]
    have h1 := walkFn_grows root inc exc st (Join [path, name]) true h
    split
    · have h2 := ihr path _ h1.1
      exact ⟨h2.1, fun q hq => h2.2 q (h1.2 q hq)⟩
    · have h3 := ihc (Join [path, name]) _ h1.1
      have h2 := ihr path _ h3.1
      exact ⟨h2.1, fun q hq => h2.2 q (h3.2 q (h1.2 q hq))⟩

theorem collectInput_grows (root : Str) (inc exc : List Str) (st : AddState) (inp : Input)
    (h : st.seenListed) :
    (collectInput root inc exc st inp).seenListed ∧
      ∀ q ∈ st.files, q ∈ (collectInput root inc exc st inp).files := by
  cases inp with
  | unresolved => exact ⟨h, fun q hq => hq⟩
  | file ap =>
    simp only [collectInput]
    split
    · exact ⟨(add_grows st ap h).1, (add_grows st ap h).2.2⟩
    · exact ⟨h, fun q hq => hq⟩
  | dir ap entries =>
    simp only [collectInput, WalkDir]
    have h1 := walkFn_grows root inc exc st ap true h
    split
    · exact h1
    · have h2 := walkListing_grows root inc exc entries ap _ h1.1
      exact ⟨h2.1, fun q hq => h2.2 q (h1.2 q hq)⟩

theorem foldl_collectInput_grows (root : Str) (inc exc : List Str) (inputs : List Input) :
    ∀ st : AddState, st.seenListed →
      (inputs.foldl (collectInput root inc exc) st).seenListed ∧
        ∀ q ∈ st.files, q ∈ (inputs.foldl (collectInput root inc exc) st).files := by
  induction inputs with
  | nil => intro st h; exact ⟨h, fun q hq => hq⟩
  | cons inp rest ih =>
    intro st h
    simp only [List.foldl_cons]
    have h1 := collectInput_grows root inc exc st inp h
    have h2 := ih _ h1.1
    exact ⟨h2.1, fun q hq => h2.2 q (h1.2 q hq)⟩

theorem valid_snoc (ps : List Str) (n : Str) (hps : ∀ e ∈ ps, validName e = true)
    (hn : validName n = true) : ∀ e ∈ ps ++ [n], validName e = true := by
  intro e he
  rcases List.mem_append.mp he with he | he
  · exact hps e he
  · simp only [List.mem_singleton] at he
    rw [he]; exact hn

theorem walkListing_reaches (root : Str) (inc exc : List Str) (entries : Listing) :
    ∀ (ps ds : List Str) (f : Str) (st : AddState), entries.wellNamed = true →
      (∀ e ∈ ps, validName e = true) → st.seenListed →
      entries.holdsFile ds f = true →
      (∀ k, k < ds.length → passes root inc exc (absPath (ps ++ ds.take (k + 1)))) →
      relOf root (absPath (ps ++ ds ++ [f])) ≠ [46] →
      shouldKeep inc exc (relOf root (absPath (ps ++ ds ++ [f]))) = true →
      absPath (ps ++ ds ++ [f]) ∈ (walkListing root inc exc (absPath ps) entries st).files := by
  induction entries with
  | nil => intro ps ds f st _ _ _ hf; simp [Listing.holdsFile] at hf
  | file name rest ih =>
    intro ps ds f st hw hps hst hf hd hrel hk
    simp only [Listing.wellNamed, Bool.and_eq_true] at hw
    simp only [walkListing]
    rw [Join_absPath ps name hps hw.1]
    have h1 := walkFn_grows root inc exc st (absPath (ps ++ [name])) false hst
    cases ds with
    | nil =>
      simp only [Listing.holdsFile, Bool.or_eq_true, decide_eq_true_eq] at hf
      rcases hf with hf | hf
      · subst hf
        simp only [List.append_nil] at hrel hk ⊢
        exact (walkListing_grows root inc exc rest (absPath ps) _ h1.1).2 _
          (walkFn_kept root inc exc st _ false hst hrel hk)
      · exact ih ps [] f _ hw.2 hps h1.1 hf hd hrel hk
    | cons d ds2 =>
      simp only [Listing.holdsFile] at hf
      exact ih ps (d :: ds2) f _ hw.2 hps h1.1 hf hd hrel hk
  | dir name children rest ihc ihr =>
    intro ps ds f st hw hps hst hf hd hrel hk
    simp only [Listing.wellNamed, Bool.and_eq_true] at hw
    simp only [walkListing]
    rw [Join_absPath ps name hps hw.1.1]
    have h1 := walkFn_grows root inc exc st (absPath (ps ++ [name])) true hst
    have hst1 : (if (walkFn root inc exc st (absPath (ps ++ [name])) true).2 = true then
          (walkFn root inc exc st (absPath (ps ++ [name])) true).1
        else walkListing root inc exc (absPath (ps ++ [name])) children
          (walkFn root inc exc st (absPath (ps ++ [name])) true).1).seenListed := by
      split
      · exact h1.1
      · exact (walkListing_grows root inc exc children _ _ h1.1).1
    cases ds with
    | nil =>
      simp only [Listing.holdsFile] at hf
      exact ihr ps [] f _ hw.2 hps hst1 hf hd hrel hk
    | cons d ds2 =>
      simp only [Listing.holdsFile, Bool.or_eq_true, Bool.and_eq_true, decide_eq_true_eq] at hf
      rcases hf with ⟨hname, hf⟩ | hf
      · subst hname
        have hp : passes root inc exc (absPath (ps ++ [name])) := by
          simpa using hd 0 (by simp)
        rw [walkFn_descends root inc exc st _ hp]
        simp only [Bool.false_eq_true, if_false]
        apply (walkListing_grows root inc exc rest (absPath ps) _
          (walkListing_grows root inc exc children _ _ h1.1).1).2
        have := ihc (ps ++ [name]) ds2 f _ hw.1.2 (valid_snoc ps name hps hw.1.1) h1.1 hf
          (by
            intro k hk2
            have := hd (k + 1) (by simpa using hk2)
            simpa using this)
          (by simpa using hrel) (by simpa using hk)
        simpa using this
      · exact ihr ps (d :: ds2) f _ hw.2 hps hst1 hf hd hrel hk

/-! ### Relative paths below the root -/

theorem joinSlash_cons (e e2 : Str) (rest : List Str) :
    joinSlash (e :: e2 :: rest) = e ++ 47 :: joinSlash (e2 :: rest) := by
  simp [joinSlash]

theorem joinSlash_concat (es ms : List Str) (hes : es ≠ []) (hms : ms ≠ []) :
    joinSlash (es ++ ms) = joinSlash es ++ 47 :: joinSlash ms := by
  induction es with
  | nil => exact absurd rfl hes
  | cons e rest ih =>
    cases rest with
    | nil =>
      cases ms with
      | nil => exact absurd rfl hms
      | cons m ms2 => simp [joinSlash]
    | cons e2 rest2 =>
      have := ih (by simp)
      simp only [List.cons_append] at this ⊢
      rw [joinSlash_cons, this, joinSlash_cons]
      simp

theorem joinSlash_length (es : List Str) (h : ∀ e ∈ es, validName e = true) :
    es.length ≤ (joinSlash es).length := by
  induction es with
  | nil => simp
  | cons e rest ih =>
    have he : e ≠ [] := by
      have := h e (List.mem_cons_self _ _)
      simp only [validName, decide_eq_true_eq] at this
      exact this.1
    have hpos : 1 ≤ e.length := List.length_pos.mpr he
    cases rest with
    | nil => simpa [joinSlash] using hpos
    | cons e2 rest2 =>
      have := ih (fun x hx => h x (List.mem_cons_of_mem _ hx))
      rw [joinSlash_cons]
      simp only [List.length_append, List.length_cons] at this ⊢
      omega

theorem takeWhile_noslash (e : Str) (h : 47 ∉ e) : e.takeWhile (· ≠ 47) = e := by
  rw [List.takeWhile_eq_self_iff]
  intro x hx
  simp only [ne_eq, decide_not, Bool.not_eq_true', decide_eq_false_iff_not]
  rintro rfl
  exact h hx

theorem takeWhile_elem (e r : Str) (h : 47 ∉ e) : (e ++ 47 :: r).takeWhile (· ≠ 47) = e := by
  induction e with
  | nil => simp
  | cons c cs ih =>
    simp only [List.mem_cons, not_or] at h
    have hc : c ≠ 47 := fun hc => h.1 hc.symm
    have := ih h.2
    simp only [ne_eq, decide_not] at this
    simp [List.takeWhile_cons, hc, this]

theorem relScan_done (fuel : Nat) (t : Str) : relScan fuel [] t = ([], [], t) := by
  cases fuel <;> simp [relScan]

theorem relScan_common (base ms : List Str) (hb : ∀ e ∈ base, validName e = true)
    (hms : ms ≠ []) :
    ∀ fuel, base.length < fuel →
      relScan fuel (joinSlash base) (joinSlash (base ++ ms)) = ([], [], joinSlash ms) := by
  induction base with
  | nil => intro fuel _; simpa [joinSlash] using relScan_done fuel (joinSlash ms)
  | cons e rest ih =>
    intro fuel hfuel
    have he := hb e (List.mem_cons_self _ _)
    have hns := validName_noslash e he
    have hne : e ≠ [] := by
      simp only [validName, decide_eq_true_eq] at he
      exact he.1
    cases fuel with
    | zero => simp at hfuel
    | succ n =>
      cases rest with
      | nil =>
        obtain ⟨m, ms2, rfl⟩ := List.exists_cons_of_ne_nil hms
        have ht : joinSlash ([e] ++ m :: ms2) = e ++ 47 :: joinSlash (m :: ms2) := by
          simp [joinSlash]
        rw [ht]
        simp only [joinSlash, relScan, takeWhile_noslash e hns, takeWhile_elem e _ hns]
        simp [hne, relScan_done]
      | cons e2 rest2 =>
        have ih2 := ih (fun x hx => hb x (List.mem_cons_of_mem _ hx)) n
          (by simp only [List.length_cons] at hfuel ⊢; omega)
        have ht : joinSlash (e :: e2 :: rest2 ++ ms)
            = e ++ 47 :: joinSlash (e2 :: rest2 ++ ms) := by
          simp [joinSlash]
        rw [ht, joinSlash_cons]
        simp only [relScan, takeWhile_elem e _ hns]
        simp only [List.cons_append] at ih2
        simp [hne, ih2]

theorem absPath_longer (base ms : List Str) (hms : ms ≠ [])
    (hm : ∀ e ∈ ms, validName e = true) :
    (absPath base).length < (absPath (base ++ ms)).length := by
  have h1 : 1 ≤ (joinSlash ms).length := by
    have := joinSlash_length ms hm
    have : 1 ≤ ms.length := List.length_pos.mpr hms
    omega
  cases base with
  | nil => simp only [absPath, joinSlash, List.nil_append, List.length_cons, List.length_nil]; omega
  | cons e rest =>
    unfold absPath
    rw [joinSlash_concat _ _ (by simp) hms]
    simp only [List.length_cons, List.length_append]
    omega

theorem relOf_below (base ms : List Str) (hb : ∀ e ∈ base, validName e = true)
    (hm : ∀ e ∈ ms, validName e = true) (hms : ms ≠ []) :
    relOf (absPath base) (absPath (base ++ ms)) = joinSlash ms := by
  have hv : ∀ e ∈ base ++ ms, validName e = true := by
    intro e he
    rcases List.mem_append.mp he with he | he
    · exact hb e he
    · exact hm e he
  have hne : absPath (base ++ ms) ≠ absPath base := by
    intro h
    have := absPath_longer base ms hms hm
    rw [h] at this
    exact lt_irrefl _ this
  have hscan : relScan ((absPath base).length + 1) (absPath base) (absPath (base ++ ms))
      = ([], [], joinSlash ms) := by
    have := relScan_common base ms hb hms (absPath base).length
      (by have := joinSlash_length base hb; simp only [absPath, List.length_cons]; omega)
    simp only [absPath, relScan, List.length_cons] at this ⊢
    simpa using this
  have h46 : absPath base ≠ [46] := by simp [absPath]
  unfold relOf Rel
  simp only [Clean_absPath base hb, Clean_absPath _ hv, hne, if_false, h46]
  rw [hscan]
  simp [absPath]

theorem afterLastSlash_noslash (e : Str) (h : 47 ∉ e) : afterLastSlash e = e := by
  cases e with
  | nil => rfl
  | cons c cs =>
    simp only [List.mem_cons, not_or] at h
    have hc : c ≠ 47 := fun hc => h.1 hc.symm
    simp [afterLastSlash, h.2, hc]

theorem afterLastSlash_elem (x f : Str) (h : 47 ∉ f) : afterLastSlash (x ++ 47 :: f) = f := by
  induction x with
  | nil => simp [afterLastSlash, h]
  | cons c cs ih => simp [afterLastSlash, ih]

theorem stripTrailingSlashes_name (x f : Str) (hne : f ≠ []) (h : 47 ∉ f) :
    stripTrailingSlashes (x ++ f) = x ++ f := by
  rcases List.eq_nil_or_concat f with h0 | ⟨g, c, hg⟩
  · exact absurd h0 hne
  · subst hg
    have hc : c ≠ 47 := by
      intro hc
      apply h
      simp [hc]
    simp [stripTrailingSlashes, List.dropWhile_cons, hc]

theorem Base_joinSlash (ds : List Str) (f : Str) (hf : validName f = true) :
    Base (joinSlash (ds ++ [f])) = f := by
  simp only [validName, decide_eq_true_eq] at hf
  have key : ∀ x : Str, (x = [] ∨ ∃ y, x = y ++ [47]) → Base (x ++ f) = f := by
    intro x hx
    unfold Base
    have h1 : x ++ f ≠ [] := by simp [hf.1]
    simp only [h1, if_false, stripTrailingSlashes_name x f hf.1 hf.2.2.2]
    rcases hx with rfl | ⟨y, rfl⟩
    · simp [afterLastSlash_noslash f hf.2.2.2, hf.1]
    · have : y ++ [47] ++ f = y ++ 47 :: f := by simp
      rw [this, afterLastSlash_elem y f hf.2.2.2]
      simp [hf.1]
  by_cases hds : ds = []
  · subst hds
    simpa [joinSlash] using key [] (Or.inl rfl)
  · rw [joinSlash_snoc ds f hds]
    have := key (joinSlash ds ++ [47]) (Or.inr ⟨_, rfl⟩)
    simpa using this

theorem holdsFile_valid (entries : Listing) :
    ∀ (ds : List Str) (f : Str), entries.wellNamed = true → entries.holdsFile ds f = true →
      (∀ d ∈ ds, validName d = true) ∧ validName f = true := by
  induction entries with
  | nil => intro ds f _ hf; simp [Listing.holdsFile] at hf
  | file name rest ih =>
    intro ds f hw hf
    simp only [Listing.wellNamed, Bool.and_eq_true] at hw
    cases ds with
    | nil =>
      simp only [Listing.holdsFile, Bool.or_eq_true, decide_eq_true_eq] at hf
      rcases hf with hf | hf
      · subst hf
        exact ⟨by simp, hw.1⟩
      · exact ih [] f hw.2 hf
    | cons d ds2 =>
      simp only [Listing.holdsFile] at hf
      exact ih (d :: ds2) f hw.2 hf
  | dir name children rest ihc ihr =>
    intro ds f hw hf
    simp only [Listing.wellNamed, Bool.and_eq_true] at hw
    cases ds with
    | nil =>
      simp only [Listing.holdsFile] at hf
      exact ihr [] f hw.2 hf
    | cons d ds2 =>
      simp only [Listing.holdsFile, Bool.or_eq_true, Bool.and_eq_true, decide_eq_true_eq] at hf
      rcases hf with ⟨hname, hf⟩ | hf
      · subst hname
        obtain ⟨h1, h2⟩ := ihc ds2 f hw.1.2 hf
        refine ⟨?_, h2⟩
        intro x hx
        rcases List.mem_cons.mp hx with rfl | hx
        · exact hw.1.1
        · exact h1 x hx
      · exact ihr (d :: ds2) f hw.2 hf

theorem CollectFiles_reaches (root : Str) (inc exc : List Str) (inputs : List Input)
    (base : List Str) (entries : Listing) (ds : List Str) (f : Str)
    (hin : Input.dir (absPath base) entries ∈ inputs)
    (hbase : ∀ e ∈ base, validName e = true) (hw : entries.wellNamed = true)
    (hf : entries.holdsFile ds f = true)
    (hd : ∀ k, k ≤ ds.length → passes root inc exc (absPath (base ++ ds.take k)))
    (hrel : relOf root (absPath (base ++ ds ++ [f])) ≠ [46])
    (hk : shouldKeep inc exc (relOf root (absPath (base ++ ds ++ [f]))) = true) :
    absPath (base ++ ds ++ [f]) ∈ CollectFiles root inputs inc exc := by
  obtain ⟨l1, l2, rfl⟩ := List.append_of_mem hin
  unfold CollectFiles
  rw [mem_sortStrings, List.foldl_append, List.foldl_cons]
  have h0 : AddState.empty.seenListed := by
    intro p hp
    simp [AddState.empty] at hp
  have h1 := (foldl_collectInput_grows root inc exc l1 AddState.empty h0).1
  apply (foldl_collectInput_grows root inc exc l2 _
    (collectInput_grows root inc exc _ _ h1).1).2
  simp only [collectInput, WalkDir]
  rw [walkFn_descends root inc exc _ _ (by simpa using hd 0 (Nat.zero_le _))]
  simp only [Bool.false_eq_true, if_false]
  exact walkListing_reaches root inc exc entries base ds f _ hw hbase
    (walkFn_grows root inc exc _ _ true h1).1 hf
    (fun k hk2 => hd (k + 1) hk2) hrel hk

/-! ### The reach of a bare include pattern -/

theorem relOf_self (p : Str) : relOf p p = [46] := by
  simp [relOf, Rel]

theorem keep_iff_go (rel : Str) :
    shouldKeep [ascii "*.go"] [] rel = true ↔
      globMatches (ascii "*.go") rel ∨ globMatches (ascii "*.go") (Base rel) := by
  have h := matchAny_iff [ascii "*.go"] rel
  simp only [shouldKeep, matchAny, List.length_nil, if_true, Bool.false_eq_true, if_false,
    List.length_singleton, one_ne_zero] at h ⊢
  rw [h]
  simp [ToSlash]

/-- C15, as amended. Under the include list `*.go` and no exclude list, a file
`f` that the listing of a directory input holds below the directories `ds` is
in the list `CollectFiles` returns, at any depth and without a `**` in the
pattern, when its base name matches `*.go` and every directory from the input
down to it passes `shouldKeep` (or has the relative path `.`, which is not
tested); with the input as the root, this is so when `f` and every name in `ds`
match `*.go`.  A directory passes exactly when its relative path is `.`, or
matches `*.go`, or has a base name that does. -/
theorem bare_include_reach (root : Str) (inputs : List Input) (base : List Str)
    (entries : Listing) (ds : List Str) (f : Str)
    (hin : Input.dir (absPath base) entries ∈ inputs)
    (hbase : ∀ e ∈ base, validName e = true) (hnames : entries.wellNamed = true)
    (hfile : entries.holdsFile ds f = true) :
    ((∀ k, k ≤ ds.length → passes root [ascii "*.go"] [] (absPath (base ++ ds.take k))) →
      globMatches (ascii "*.go") (Base (relOf root (absPath (base ++ ds ++ [f])))) →
      absPath (base ++ ds ++ [f]) ∈ CollectFiles root inputs [ascii "*.go"] []) ∧
    ((∀ d ∈ ds, globMatches (ascii "*.go") d) → globMatches (ascii "*.go") f →
      absPath (base ++ ds ++ [f]) ∈
        CollectFiles (absPath base) inputs [ascii "*.go"] []) ∧
    (∀ d : Str, passes root [ascii "*.go"] [] d ↔
      relOf root d = [46] ∨ globMatches (ascii "*.go") (relOf root d) ∨
        globMatches (ascii "*.go") (Base (relOf root d))) := by
  obtain ⟨hvd, hvf⟩ := holdsFile_valid entries ds f hnames hfile
  have hdot : ¬ globMatches (ascii "*.go") (Base [46]) := by decide
  refine ⟨?_, ?_, ?_⟩
  · intro hd hm
    refine CollectFiles_reaches root _ _ inputs base entries ds f hin hbase hnames hfile hd
      ?_ ((keep_iff_go _).mpr (Or.inr hm))
    intro h
    rw [h] at hm
    exact hdot hm
  · intro hd hm
    have hrelf : relOf (absPath base) (absPath (base ++ ds ++ [f])) = joinSlash (ds ++ [f]) := by
      rw [List.append_assoc]
      exact relOf_below base (ds ++ [f]) hbase (valid_snoc ds f hvd hvf) (by simp)
    have hbf : Base (relOf (absPath base) (absPath (base ++ ds ++ [f]))) = f := by
      rw [hrelf, Base_joinSlash ds f hvf]
    refine CollectFiles_reaches (absPath base) _ _ inputs base entries ds f hin hbase hnames
      hfile ?_ ?_ ((keep_iff_go _).mpr (Or.inr (by rw [hbf]; exact hm)))
    · intro k hk
      cases k with
      | zero =>
        left
        rw [List.take_zero, List.append_nil]
        exact relOf_self _
      | succ j =>
        right
        have hlen : (ds.take (j + 1)).length = j + 1 := by
          rw [List.length_take]
          omega
        rcases List.eq_nil_or_concat (ds.take (j + 1)) with h0 | ⟨front, last, hl⟩
        · rw [h0] at hlen
          simp at hlen
        · rw [List.concat_eq_append] at hl
          have hsub : ∀ e ∈ front ++ [last], e ∈ ds := by
            intro e he
            rw [← hl] at he
            exact List.mem_of_mem_take he
          have hmem : last ∈ ds := hsub last (by simp)
          have hr := relOf_below base (front ++ [last]) hbase
            (fun e he => hvd e (hsub e he)) (by simp)
          rw [hl, keep_iff_go, hr, Base_joinSlash front last (hvd _ hmem)]
          exact Or.inr (hd _ hmem)
    · intro h
      rw [h] at hbf
      rw [← hbf] at hm
      exact hdot hm
  · intro d
    unfold passes
    rw [keep_iff_go]

/-- Witness for C15: walking `/r`, which holds `a.go` and the directory `sub.go`
with `x.go`, under the include list `*.go` returns `/r/sub.go/x.go`. -/
theorem bare_include_reach_witness :
    ascii "/r/sub.go/x.go" ∈
      CollectFiles (ascii "/r")
        [.dir (ascii "/r")
          (.file (ascii "a.go") (.dir (ascii "sub.go") (.file (ascii "x.go") .nil) .nil))]
        [ascii "*.go"] [] :=
  (bare_include_reach (ascii "/r")
    [.dir (ascii "/r")
      (.file (ascii "a.go") (.dir (ascii "sub.go") (.file (ascii "x.go") .nil) .nil))]
    [ascii "r"]
    (.file (ascii "a.go") (.dir (ascii "sub.go") (.file (ascii "x.go") .nil) .nil))
    [ascii "sub.go"] (ascii "x.go")
    (by decide) (by decide) (by decide) (by decide)).2.1 (by decide) (by decide)

/-- C15, counterexample. Walking `/r`, which holds `a.go` and the directory `sub`
with `x.go`, under the include list `*.go`: the file `x.go` below `sub` has a
base name that matches `*.go`, and `matchAny` accepts `sub/x.go`, but the
directory `sub` fails `shouldKeep`, is pruned, and `/r/sub/x.go` is not
returned. -/
theorem bare_include_counterexample :
    Listing.holdsFile
        (.file (ascii "a.go") (.dir (ascii "sub") (.file (ascii "x.go") .nil) .nil))
        [ascii "sub"] (ascii "x.go") = true ∧
    globMatches (ascii "*.go") (Base (ascii "/r/sub/x.go")) ∧
    matchAny [ascii "*.go"] (ascii "sub/x.go") = true ∧
    shouldKeep [ascii "*.go"] [] (relOf (ascii "/r") (ascii "/r/sub/x.go")) = true ∧
    shouldKeep [ascii "*.go"] [] (relOf (ascii "/r") (ascii "/r/sub")) = false ∧
    CollectFiles (ascii "/r")
        [.dir (ascii "/r")
          (.file (ascii "a.go") (.dir (ascii "sub") (.file (ascii "x.go") .nil) .nil))]
        [ascii "*.go"] []
      = [ascii "/r/a.go"] ∧
    ascii "/r/sub/x.go" ∉
      CollectFiles (ascii "/r")
        [.dir (ascii "/r")
          (.file (ascii "a.go") (.dir (ascii "sub") (.file (ascii "x.go") .nil) .nil))]
        [ascii "*.go"] [] := by
  decide

end RepoGo
